import Mathlib

/-!
Password strength analyzer: a shallow embedding of `password_analyzer.cpp`

Conventions of the embedding.

* A `std::string` is a `List Byte`, a byte being a `Fin 256` (the value of the
  `char` read as an `unsigned char`).  The classification functions of
  `<cctype>` are those of the "C" locale, the only locale the program runs in.
* `std::size_t` is 64 bits wide and `int` 32 bits wide (LP64).  The narrowing
  conversion `(int)x` is `toInt32`, the conversion of an `int` to `std::size_t`
  is `toSize`; both wrap around, and so does the increment of an `int` counter.
  A string is shorter than `2^63` bytes (`max_size`), so that sums of two
  positions are taken in `Nat` where the source's bound keeps them in range.
* `double` arithmetic is modelled exactly, in an arbitrary linearly ordered
  field `F` with a floor function; the natural logarithm of `<cmath>` is a
  parameter `ln : F → F`.  All definitions run at `F := ℚ`, and the theorems
  can be read at `F := ℝ` with `ln := Real.log`.  Rounding errors are not modelled there.
  For the comparison of the two entropy estimators with each other, which
  rounding decides, the estimators are modelled a second time with every
  operation rounded to the nearest double (`shannon_entropy_ieee`,
  `pool_based_entropy_bits_ieee`).
* `std::unordered_set<std::string>` is a `Finset (List Byte)`.
-/

set_option linter.unusedSectionVars false
set_option maxRecDepth 8192

namespace PasswordAnalyzer

/-- One `char` of a `std::string`, as its `unsigned char` value. -/
abbrev Byte := Fin 256

/-- The bytes of an ASCII string literal. -/
def bytesOf (s : String) : List Byte := s.toList.map (fun c => Fin.ofNat c.toNat)

/-! ## Machine integers -/

/-- Conversion to `int`: reduction modulo `2^32` into `[-2^31, 2^31)`. -/
def toInt32 (n : Int) : Int := (n + 2147483648) % 4294967296 - 2147483648

/-- Conversion of an `int` to `std::size_t`: reduction modulo `2^64`. -/
def toSize (n : Int) : Nat := (n % 18446744073709551616).toNat

/-- Addition of two `std::size_t` values. -/
def sizeAdd (a b : Nat) : Nat := (a + b) % 18446744073709551616

/-! ## `<cctype>` in the "C" locale -/

/-- The `islower` of the C locale: `'a'..'z'`. -/
def islower (c : Byte) : Bool := decide (97 ≤ c.val) && decide (c.val ≤ 122)

/-- The `isupper` of the C locale: `'A'..'Z'`. -/
def isupper (c : Byte) : Bool := decide (65 ≤ c.val) && decide (c.val ≤ 90)

/-- The `isdigit` of the C locale: `'0'..'9'`. -/
def isdigit (c : Byte) : Bool := decide (48 ≤ c.val) && decide (c.val ≤ 57)

/-- The `isalnum` of the C locale. -/
def isalnum (c : Byte) : Bool := islower c || isupper c || isdigit c

/-- The `tolower` of the C locale: `'A'..'Z'` are moved to `'a'..'z'`, every
other byte is unchanged. -/
def tolower (c : Byte) : Byte := if isupper c then c + 32 else c

/-- Source: `is_symbol`. -/
def is_symbol (c : Byte) : Bool := !(isalnum c)

/-! ## Entropy estimators -/

section Field
variable {F : Type} [LinearOrderedField F] [FloorRing F]

/-- Source: `log2_double`. -/
def log2_double (ln : F → F) (x : F) : F := ln x / ln 2

/-- The locals `lower, upper, digit, symbol, symbol_count` of
`pool_based_entropy_bits`. -/
structure PoolState where
  lower : Bool
  upper : Bool
  digit : Bool
  symbol : Bool
  symbol_count : Int
deriving DecidableEq, Repr

/-- One iteration of the classification loop of `pool_based_entropy_bits`. -/
def poolStep (st : PoolState) (c : Byte) : PoolState :=
  if islower c then { st with lower := true }
  else if isupper c then { st with upper := true }
  else if isdigit c then { st with digit := true }
  else { st with symbol := true, symbol_count := toInt32 (st.symbol_count + 1) }

/-- The classification loop of `pool_based_entropy_bits`. -/
def poolScan (str : List Byte) : PoolState :=
  str.foldl poolStep ⟨false, false, false, false, 0⟩

/-- The local `pool` of `pool_based_entropy_bits` when the logarithm is taken,
from the flags the classification loop has left. -/
def poolOf (lower upper digit symbol : Bool) : Int :=
  let pool : Int := 0
  let pool := if lower then pool + 26 else pool
  let pool := if upper then pool + 26 else pool
  let pool := if digit then pool + 10 else pool
  let pool := if symbol then pool + 32 else pool
  if pool ≤ 0 then 1 else pool

/-- The local `pool` of `pool_based_entropy_bits` for the string `str`. -/
def poolSize (str : List Byte) : Int :=
  let st := poolScan str
  poolOf st.lower st.upper st.digit st.symbol

/-- Source: `pool_based_entropy_bits`. -/
def pool_based_entropy_bits (ln : F → F) (str : List Byte) : F :=
  let bits_per_char := log2_double ln ((poolSize str : Int) : F)
  bits_per_char * (str.length : F)

/-- The counting loop of `shannon_entropy`: the table `freq` after the loop. -/
def freqTable (str : List Byte) : Byte → Int :=
  str.foldl (fun freq c => Function.update freq c (toInt32 (freq c + 1))) (fun _ => 0)

/-- Source: `shannon_entropy`. -/
def shannon_entropy (ln : F → F) (str : List Byte) : F :=
  if str.isEmpty then 0
  else
    let freq := freqTable str
    let H := (List.finRange 256).foldl
      (fun (H : F) (c : Byte) =>
        let f := freq c
        if f > 0 then
          let p : F := (f : F) / (str.length : F)
          H - p * log2_double ln p
        else H) 0
    H * (str.length : F)

end Field

/-! ## Pattern detectors -/

/-- The inner loop of `has_sequence` at window start `i`: the flags
`(inc, dec)` after `j` has run over `1 .. seqLen - 1`. -/
def seqFlags (s : List Byte) (i : Nat) (seqLen : Int) : Bool × Bool :=
  (List.range' 1 (seqLen - 1).toNat).foldl
    (fun (fl : Bool × Bool) (j : Nat) =>
      let cur := (s.getD (i + j) 0).val
      let prev := (s.getD (i + j - 1) 0).val
      -- `(unsigned char)(prev + 1)` and `(unsigned char)(prev - 1)`
      (if cur ≠ (prev + 1) % 256 then false else fl.1,
       if cur ≠ (prev + 255) % 256 then false else fl.2))
    (true, true)

/-- The outer loop of `has_sequence`, from window start `i`; `fuel` bounds the
number of iterations. -/
def seqScan (s : List Byte) (seqLen : Int) : Nat → Nat → Bool
  | 0, _ => false
  | fuel + 1, i =>
    if sizeAdd i (toSize seqLen) ≤ s.length then
      let fl := seqFlags s i seqLen
      if fl.1 || fl.2 then true else seqScan s seqLen fuel (i + 1)
    else false

/-- Source: `has_sequence`. -/
def has_sequence (s : List Byte) (seqLen : Int) : Bool :=
  if toInt32 s.length < seqLen then false
  else seqScan s seqLen (s.length + 1) 0

/-- The inner loop of `has_repeated_chars` at window start `i`: the flag
`same` when the loop is left. -/
def runSame (str : List Byte) (i : Nat) (runLen : Int) : Bool :=
  (List.range' 1 (runLen - 1).toNat).all
    (fun j => decide (str.getD (i + j) 0 = str.getD (i + j - 1) 0))

/-- The outer loop of `has_repeated_chars`, from window start `i`; `fuel`
bounds the number of iterations. -/
def runScan (str : List Byte) (runLen : Int) : Nat → Nat → Bool
  | 0, _ => false
  | fuel + 1, i =>
    if sizeAdd i (toSize runLen) ≤ str.length then
      if runSame str i runLen then true else runScan str runLen fuel (i + 1)
    else false

/-- Source: `has_repeated_chars`. -/
def has_repeated_chars (str : List Byte) (runLen : Int) : Bool :=
  if toInt32 str.length < runLen then false
  else runScan str runLen (str.length + 1) 0

/-- The `std::string::find` of the standard library, from position 0: the
lowest position at which `b` occurs in `a`, `none` standing for `npos`. -/
def strFind : List Byte → List Byte → Option Nat
  | [], b => if b.isEmpty then some 0 else none
  | x :: a, b =>
    if b.isPrefixOf (x :: a) then some 0 else (strFind a b).map (· + 1)

/-- The lambda `tolow` of `contains_case_insensitive`, also the loop that
builds `pw_lower` in `analyze_password`. -/
def tolow (x : List Byte) : List Byte := x.map tolower

/-- Source: `contains_case_insensitive`. -/
def contains_case_insensitive (str sub : List Byte) : Bool :=
  let a := tolow str
  let b := tolow sub
  (strFind a b).isSome

/-! ## Scoring engine -/

/-- Source: `struct AnalysisResult`. -/
structure AnalysisResult (F : Type) where
  score : Int
  entropy_bits : F
  shannon_bits : F
  reasons : List String

/-- The reason pushed on the empty-password path. -/
def reasonEmpty : String := " Empty password"

/-- The reason pushed on the common-password short-circuit. -/
def reasonCommon : String := " Password is in common-password list"

/-- The reason pushed when `has_sequence` fires. -/
def reasonSequence : String :=
  " Contains increasing/decreasing sequence (e.g. 'abcd' or '1234')"

/-- The reason pushed when `has_repeated_chars` fires. -/
def reasonRepeated : String := " Contains long repeated characters (e.g 'aaaaa')"

/-- The reason pushed for the common substring `sub`. -/
def reasonSubstring (sub : String) : String :=
  " Contains a common substring: '" ++ sub ++ "'"

/-- The reason pushed for a password shorter than 8. -/
def reasonShort : String := " Short password (less than 8 characters)"

/-- The advisory pushed for a password of length 8 to 11. -/
def reasonLonger : String :=
  " Consider using a longer passphrase (12+ characters recommended)"

/-- The reason pushed when at most one character class is present. -/
def reasonOneClass : String :=
  " Uses only character class (add uppercase, digits, or symbols)"

/-- The reason pushed when no other reason was. -/
def reasonNone : String := " No obvious weaknesses detected"

/-- The local `commonSubs` of `analyze_password`. -/
def commonSubs : List String :=
  ["password", "qwerty", "admin", "welcome", "12345", "iloveyou", "123456789"]

/-- The locals `lower, upper, digit, sym` of `analyze_password`. -/
structure ClassFlags where
  lower : Bool
  upper : Bool
  digit : Bool
  sym : Bool
deriving DecidableEq, Repr

/-- One iteration of the classification loop of `analyze_password`. -/
def classStep (fl : ClassFlags) (c : Byte) : ClassFlags :=
  if islower c then { fl with lower := true }
  else if isupper c then { fl with upper := true }
  else if isdigit c then { fl with digit := true }
  else { fl with sym := true }

/-- The local `classes` of `analyze_password`. -/
def classCount (pw : List Byte) : Int :=
  let fl := pw.foldl classStep ⟨false, false, false, false⟩
  (if fl.lower then 1 else 0) + (if fl.upper then 1 else 0)
    + (if fl.digit then 1 else 0) + (if fl.sym then 1 else 0)

section Field
variable {F : Type} [LinearOrderedField F] [FloorRing F]

/-- The `std::round` of `<cmath>` followed by the conversion to `int`: the
nearest integer, halfway cases away from zero. -/
def cround (x : F) : Int := if 0 ≤ x then ⌊x + 1 / 2⌋ else ⌈x - 1 / 2⌉

/-- The amount `(int)((8 - pw.size()) * 6)` subtracted from the score of a
password of `size < 8` characters. -/
def shortPenalty (size : Nat) : Int := toInt32 (((8 - size) * 6 : Nat) : Int)

/-- The loop over `commonSubs` in `analyze_password`, on the pair
`(score, result.reasons)`: the first entry contained in `pw` costs 20 points,
pushes its reason and ends the loop. -/
def subLoop (pw : List Byte) : List String → F × List String → F × List String
  | [], st => st
  | sub :: rest, st =>
    if contains_case_insensitive pw (bytesOf sub) then
      (st.1 - 20, st.2 ++ [reasonSubstring sub])
    else subLoop pw rest st

/-- The part of `analyze_password` from `// Penalties` to the class penalty,
on the pair `(score, result.reasons)`. -/
def penalties (pw : List Byte) (st : F × List String) : F × List String :=
  let st := if has_sequence pw 4 then (st.1 - 15, st.2 ++ [reasonSequence]) else st
  let st := if has_repeated_chars pw 4 then (st.1 - 15, st.2 ++ [reasonRepeated]) else st
  let st := subLoop pw commonSubs st
  let st :=
    if pw.length < 8 then
      (st.1 - ((shortPenalty pw.length : Int) : F), st.2 ++ [reasonShort])
    else if pw.length < 12 then (st.1, st.2 ++ [reasonLonger])
    else st
  let classes := classCount pw
  if classes ≤ 1 then (st.1 - 25, st.2 ++ [reasonOneClass]) else st

/-- The score before the penalties: `base + length_bonus`, capped at 95. -/
def prePenalty (pool_bits : F) (size : Nat) : F :=
  let bits := pool_bits
  let base := min 80 (bits / 60 * 80)
  let length_bonus := min 15 (if size > 8 then ((size - 8 : Nat) : F) * (3 / 2) else 0)
  let score := base + length_bonus
  if score > 95 then 95 else score

/-- Source: `analyze_password`. -/
def analyze_password (ln : F → F) (pw : List Byte)
    (commonPasswords : Finset (List Byte)) : AnalysisResult F :=
  if pw.isEmpty then
    { score := 0, entropy_bits := 0, shannon_bits := 0, reasons := [reasonEmpty] }
  else
    let pool_bits := pool_based_entropy_bits ln pw
    let shannon := shannon_entropy ln pw
    let pw_lower := tolow pw
    if commonPasswords ≠ ∅ ∧ pw_lower ∈ commonPasswords then
      { score := 5, entropy_bits := pool_bits, shannon_bits := shannon,
        reasons := [reasonCommon] }
    else
      let st := penalties pw (prePenalty pool_bits pw.length, [])
      let score := st.1
      let score := if score < 0 then 0 else score
      let score := if score > 100 then 100 else score
      { score := cround score, entropy_bits := pool_bits, shannon_bits := shannon,
        reasons := if st.2.isEmpty then st.2 ++ [reasonNone] else st.2 }

end Field

/-! ## Definitions that follow the specification

Each of them states in its own words what the specification says; the theorems
below compare them with the definitions taken from the source. -/

/-- Specification: the reason the common-substring matcher contributes, the
one naming the first entry of the built-in list, in list order, that the
password contains case-insensitively; none when there is no such entry. -/
def specSubstringReason (pw : List Byte) : List String :=
  match commonSubs.find? (fun sub => contains_case_insensitive pw (bytesOf sub)) with
  | some sub => [reasonSubstring sub]
  | none => []

/-- Specification: the number of character classes (lowercase, uppercase,
digit, symbol) that have a member in the password. -/
def classesPresent (pw : List Byte) : Nat :=
  (if pw.any islower then 1 else 0) + (if pw.any isupper then 1 else 0)
    + (if pw.any isdigit then 1 else 0) + (if pw.any is_symbol then 1 else 0)

/-- Specification: the triggered reasons, in the fixed order of section 4.8:
sequence, repeated characters, common substring, then short password or the
longer-passphrase advisory, then one character class. -/
def specTriggered (pw : List Byte) : List String :=
  (if has_sequence pw 4 then [reasonSequence] else [])
    ++ (if has_repeated_chars pw 4 then [reasonRepeated] else [])
    ++ specSubstringReason pw
    ++ (if pw.length < 8 then [reasonShort]
        else if pw.length < 12 then [reasonLonger] else [])
    ++ (if classesPresent pw ≤ 1 then [reasonOneClass] else [])

/-- Specification: the alphabet size of section 4.2: 26 for a lowercase
letter, 26 for an uppercase letter, 10 for a digit, 32 for any other byte,
summed over the classes that occur; 1 for the empty string. -/
def specPool (s : List Byte) : Int :=
  if s = [] then 1
  else (if s.any islower then 26 else 0) + (if s.any isupper then 26 else 0)
    + (if s.any isdigit then 10 else 0)
    + (if s.any (fun c => !(islower c || isupper c || isdigit c)) then 32 else 0)

/-- Specification: `b` occurs in `a` as a contiguous substring. -/
def Occurs (b a : List Byte) : Prop := ∃ pre post : List Byte, a = pre ++ b ++ post

/-- Specification: the window of `n` bytes of `s` starting at `i` ascends, each
byte being its predecessor plus 1 modulo 256. -/
def AscendingAt (s : List Byte) (i n : Nat) : Prop :=
  ∀ j, 1 ≤ j → j < n → (s.getD (i + j) 0).val = ((s.getD (i + j - 1) 0).val + 1) % 256

/-- Specification: the window of `n` bytes of `s` starting at `i` descends, each
byte being its predecessor minus 1 modulo 256. -/
def DescendingAt (s : List Byte) (i n : Nat) : Prop :=
  ∀ j, 1 ≤ j → j < n →
    ((s.getD (i + j) 0).val : Int) = (((s.getD (i + j - 1) 0).val : Int) - 1) % 256

/-- Specification: some window of `n` bytes of `s` ascends or descends. -/
def HasRun (s : List Byte) (n : Nat) : Prop :=
  ∃ i, i + n ≤ s.length ∧ (AscendingAt s i n ∨ DescendingAt s i n)

/-- Specification: some window of `n` bytes of `s` is one byte repeated. -/
def HasRepeat (s : List Byte) (n : Nat) : Prop :=
  ∃ i, i + n ≤ s.length ∧ ∃ c : Byte, ∀ j, j < n → s.getD (i + j) 0 = c

section Field
variable {F : Type} [LinearOrderedField F] [FloorRing F]

/-- The Iverson bracket `[b]`. -/
def bracket (b : Bool) : F := if b then 1 else 0

/-- Specification: the sum of the penalties of section 4.8, step 6. -/
def specPenalty (pw : List Byte) : F :=
  15 * bracket (has_sequence pw 4) + 15 * bracket (has_repeated_chars pw 4)
    + 20 * bracket (commonSubs.any (fun sub => contains_case_insensitive pw (bytesOf sub)))
    + (if pw.length < 8 then 6 * (8 - (pw.length : F)) else 0)
    + 25 * bracket (decide (classesPresent pw ≤ 1))

/-- Specification: the score of sections 4.8, steps 3 to 7, before rounding:
base and length bonus capped at 95, minus the penalties. -/
def specRaw (pool_bits : F) (pw : List Byte) : F :=
  min 95 (min 80 (pool_bits / 60 * 80)
      + (if pw.length > 8 then min 15 (((pw.length : F) - 8) * (3 / 2)) else 0))
    - specPenalty pw

/-- Specification: `clamp(x, 0, 100)`. -/
def clamp100 (x : F) : F := max 0 (min 100 x)

end Field

/-! ## The loops with every access checked

The same loops once more, with an error branch where the C++ would leave the
defined behaviour: a read of `s[k]` with `k` not below `s.size()`, an access
to the frequency table outside its 256 entries, a `std::size_t` subtraction
that wraps around.  The value `none` stands for such an error, and for a scan
that has not ended when its fuel is used up. -/

/-- The read `s[k]`, checked: `none` when `k` is not below `s.size()`. -/
def readAt (s : List Byte) (k : Nat) : Option Byte := s[k]?

/-- The inner loop of `has_sequence` with checked reads. -/
def seqFlagsChecked (s : List Byte) (i : Nat) (seqLen : Int) : Option (Bool × Bool) :=
  (List.range' 1 (seqLen - 1).toNat).foldlM
    (fun (fl : Bool × Bool) (j : Nat) =>
      match readAt s (i + j), readAt s (i + j - 1) with
      | some cur, some prev =>
        some (if cur.val ≠ (prev.val + 1) % 256 then false else fl.1,
              if cur.val ≠ (prev.val + 255) % 256 then false else fl.2)
      | _, _ => none)
    (true, true)

/-- The outer loop of `has_sequence` with checked reads. -/
def seqScanChecked (s : List Byte) (seqLen : Int) : Nat → Nat → Option Bool
  | 0, _ => none
  | fuel + 1, i =>
    if sizeAdd i (toSize seqLen) ≤ s.length then
      match seqFlagsChecked s i seqLen with
      | none => none
      | some fl => if fl.1 || fl.2 then some true else seqScanChecked s seqLen fuel (i + 1)
    else some false

/-- The function `has_sequence` with checked reads. -/
def has_sequence_checked (s : List Byte) (seqLen : Int) : Option Bool :=
  if toInt32 s.length < seqLen then some false
  else seqScanChecked s seqLen (s.length + 1) 0

/-- The inner loop of `has_repeated_chars` with checked reads, `js` being the
values of `j` still to run; the loop is left at the first mismatch. -/
def runSameChecked (str : List Byte) (i : Nat) : List Nat → Option Bool
  | [] => some true
  | j :: js =>
    match readAt str (i + j), readAt str (i + j - 1) with
    | some a, some b => if a ≠ b then some false else runSameChecked str i js
    | _, _ => none

/-- The outer loop of `has_repeated_chars` with checked reads. -/
def runScanChecked (str : List Byte) (runLen : Int) : Nat → Nat → Option Bool
  | 0, _ => none
  | fuel + 1, i =>
    if sizeAdd i (toSize runLen) ≤ str.length then
      match runSameChecked str i (List.range' 1 (runLen - 1).toNat) with
      | none => none
      | some same => if same then some true else runScanChecked str runLen fuel (i + 1)
    else some false

/-- The function `has_repeated_chars` with checked reads. -/
def has_repeated_chars_checked (str : List Byte) (runLen : Int) : Option Bool :=
  if toInt32 str.length < runLen then some false
  else runScanChecked str runLen (str.length + 1) 0

/-- The counting loop of `shannon_entropy` on the table `std::array<int, 256>`,
the access `freq[c]` checked against the size of the table. -/
def freqTableChecked (str : List Byte) : Option (List Int) :=
  str.foldlM
    (fun (freq : List Int) (c : Byte) =>
      if h : c.val < freq.length then some (freq.set c.val (toInt32 (freq[c.val] + 1)))
      else none)
    (List.replicate 256 0)

/-- The subtraction `a - b` of two `std::size_t`, checked: `none` when it
would wrap around. -/
def sizeSubChecked (a b : Nat) : Option Nat := if b ≤ a then some (a - b) else none

/-- The amount subtracted for a short password, with the subtraction
`8 - pw.size()` checked; 0 on the branches that subtract nothing. -/
def shortPenaltyChecked (size : Nat) : Option Int :=
  if size < 8 then (sizeSubChecked 8 size).map (fun d => toInt32 ((d * 6 : Nat) : Int))
  else some 0

section Field
variable {F : Type} [LinearOrderedField F] [FloorRing F]

/-- The local `length_bonus` of `analyze_password`, with the subtraction
`pw.size() - 8` checked. -/
def lengthBonusChecked (size : Nat) : Option F :=
  (if size > 8 then (sizeSubChecked size 8).map (fun d => (d : F) * (3 / 2))
   else some 0).map (fun x => min 15 x)

end Field

/-! ## The entropy estimators in double precision

The two estimators once more, every operation of the source rounded as
IEEE-754 binary64 arithmetic rounds it: to the nearest double, ties to even.
A double is the rational number it stands for; overflow and subnormal numbers
are not modelled (no value met here is near either).  The `log` of `<cmath>`
is a parameter `ln`, a function from doubles to doubles.  The product and the
subtraction in `H -= p * log2_double(p)` are rounded separately (no fused
multiply-add). -/

/-- The exponent of the leading bit of a positive rational `x`: the integer
`k` with `2^k ≤ x < 2^(k+1)`. -/
def ilog2 (x : ℚ) : Int :=
  let k : Int := (Nat.log2 x.num.natAbs : Int) - (Nat.log2 x.den : Int)
  if (2 : ℚ) ^ k ≤ x then k else k - 1

/-- The integer nearest to `m`, the even one of the two when `m` is halfway. -/
def roundEven (m : ℚ) : Int :=
  let f := ⌊m⌋
  let r := m - (f : ℚ)
  if r < 1 / 2 then f else if 1 / 2 < r then f + 1 else if f % 2 = 0 then f else f + 1

/-- The double nearest to the rational `x` (53 significant bits, ties to
even): the rounding of every binary64 operation. -/
def rn (x : ℚ) : ℚ :=
  if x = 0 then 0
  else
    let e := ilog2 |x| - 52
    (roundEven (x / (2 : ℚ) ^ e) : ℚ) * (2 : ℚ) ^ e

/-- Source: `log2_double`, in double precision. -/
def log2_double_ieee (ln : ℚ → ℚ) (x : ℚ) : ℚ := rn (ln x / ln 2)

/-- Source: `pool_based_entropy_bits`, in double precision. -/
def pool_based_entropy_bits_ieee (ln : ℚ → ℚ) (str : List Byte) : ℚ :=
  let bits_per_char := log2_double_ieee ln ((poolSize str : Int) : ℚ)
  rn (bits_per_char * rn (str.length : ℚ))

/-- Source: `shannon_entropy`, in double precision. -/
def shannon_entropy_ieee (ln : ℚ → ℚ) (str : List Byte) : ℚ :=
  if str.isEmpty then 0
  else
    let freq := freqTable str
    let H := (List.finRange 256).foldl
      (fun (H : ℚ) (c : Byte) =>
        let f := freq c
        if f > 0 then
          let p : ℚ := rn (((f : Int) : ℚ) / rn (str.length : ℚ))
          rn (H - rn (p * log2_double_ieee ln p))
        else H) 0
    rn (H * rn (str.length : ℚ))

/-- The `log` of `<cmath>` at the three arguments met on the password of the
52 letters, `2.0`, `52.0` and `0x1.3b13b13b13b14p-6` (the double nearest to
1/52): the double nearest to the natural logarithm, that is
`0x1.62e42fefa39efp-1`, `0x1.f9c25aaaea949p+1` and `-0x1.f9c25aaaea948p+1`.
No other argument is met there. -/
def logNearest (x : ℚ) : ℚ :=
  if x = 2 then 6243314768165359 / 9007199254740992
  else if x = 52 then 8897409869326665 / 2251799813685248
  else if x = 1385722962267845 / 72057594037927936 then
    -1112176233665833 / 281474976710656
  else 0

/-- The password of the 52 letters, `a` to `z` and `A` to `Z`. -/
def letters52 : List Byte :=
  bytesOf "abcdefghijklmnopqrstuvwxyzABCDEFGHIJKLMNOPQRSTUVWXYZ"

/-- The library logarithm `ln` is accurate at `x`: its value differs from the
natural logarithm of `x` by at most the fraction `2^-52` of it, as it does
whenever the error is at most one unit in the last place. -/
def LogAccurate (ln : ℚ → ℚ) (x : ℚ) : Prop :=
  |((ln x : ℚ) : ℝ) - Real.log ((x : ℚ) : ℝ)| ≤ |Real.log ((x : ℚ) : ℝ)| / 2 ^ 52

/-! ## Arithmetic lemmas -/

theorem toInt32_of_lt (n : Int) (h0 : 0 ≤ n) (h1 : n < 2147483648) : toInt32 n = n := by
  unfold toInt32; omega

theorem shortPenalty_eq (n : Nat) (h : n < 8) : shortPenalty n = 6 * (8 - (n : Int)) := by
  unfold shortPenalty
  rw [toInt32_of_lt] <;> omega

section Field
variable {F : Type} [LinearOrderedField F] [FloorRing F]

theorem cround_bounds (x : F) (b : Int) (h0 : 0 ≤ x) (h1 : x ≤ (b : F)) :
    0 ≤ cround x ∧ cround x ≤ b := by
  unfold cround
  rw [if_pos h0]
  constructor
  · apply Int.floor_nonneg.mpr; linarith
  · have : ⌊x + 1 / 2⌋ < b + 1 := by
      rw [Int.floor_lt]; push_cast; linarith
    omega

end Field

/-! ## The character classes -/

theorem classStep_eq (fl : ClassFlags) (c : Byte) :
    classStep fl c = ⟨fl.lower || islower c, fl.upper || isupper c,
      fl.digit || isdigit c, fl.sym || is_symbol c⟩ := by
  obtain ⟨l, u, d, y⟩ := fl
  unfold classStep is_symbol isalnum
  by_cases h1 : islower c = true
  · have h2 : isupper c = false := by
      unfold islower at h1; unfold isupper; simp at h1 ⊢; omega
    have h3 : isdigit c = false := by
      unfold islower at h1; unfold isdigit; simp at h1 ⊢; omega
    simp [h1, h2, h3]
  · by_cases h2 : isupper c = true
    · have h3 : isdigit c = false := by
        unfold isupper at h2; unfold isdigit; simp at h2 ⊢; omega
      simp [h1, h2, h3]
    · by_cases h3 : isdigit c = true <;> simp [h1, h2, h3]

theorem foldl_classStep (pw : List Byte) (fl : ClassFlags) :
    pw.foldl classStep fl = ⟨fl.lower || pw.any islower, fl.upper || pw.any isupper,
      fl.digit || pw.any isdigit, fl.sym || pw.any is_symbol⟩ := by
  induction pw generalizing fl with
  | nil => simp
  | cons c t ih =>
    rw [List.foldl_cons, ih, classStep_eq]
    simp [Bool.or_assoc]

theorem classCount_eq (pw : List Byte) : classCount pw = (classesPresent pw : Int) := by
  unfold classCount classesPresent
  rw [foldl_classStep]
  simp only [Bool.false_or]
  split_ifs <;> simp

/-! ## The penalty pipeline -/

section Field
variable {F : Type} [LinearOrderedField F] [FloorRing F]

theorem subLoop_eq (pw : List Byte) (l : List String) (st : F × List String) :
    subLoop pw l st =
      match l.find? (fun sub => contains_case_insensitive pw (bytesOf sub)) with
      | some sub => (st.1 - 20, st.2 ++ [reasonSubstring sub])
      | none => st := by
  induction l with
  | nil => rfl
  | cons sub rest ih =>
    unfold subLoop
    by_cases h : contains_case_insensitive pw (bytesOf sub) = true
    · simp [h]
    · simp [h, ih]

theorem subLoop_fst (pw : List Byte) (st : F × List String) :
    (subLoop pw commonSubs st).1 = st.1
      - 20 * bracket (commonSubs.any (fun sub => contains_case_insensitive pw (bytesOf sub))) := by
  rw [subLoop_eq]
  cases h : commonSubs.find? (fun sub => contains_case_insensitive pw (bytesOf sub)) with
  | none =>
    have : commonSubs.any (fun sub => contains_case_insensitive pw (bytesOf sub)) = false := by
      rw [List.find?_eq_none] at h
      rw [List.any_eq_false]
      exact h
    simp [this, bracket]
  | some sub =>
    have : commonSubs.any (fun sub => contains_case_insensitive pw (bytesOf sub)) = true := by
      rw [List.any_eq_true]
      exact ⟨sub, List.mem_of_find?_eq_some h, by simpa using List.find?_some h⟩
    simp [this, bracket]

theorem subLoop_snd (pw : List Byte) (st : F × List String) :
    (subLoop pw commonSubs st).2 = st.2 ++ specSubstringReason pw := by
  rw [subLoop_eq]
  unfold specSubstringReason
  cases commonSubs.find? (fun sub => contains_case_insensitive pw (bytesOf sub)) <;> simp

theorem penalties_fst (pw : List Byte) (st : F × List String) :
    (penalties pw st).1 = st.1 - specPenalty pw := by
  unfold penalties specPenalty
  simp only [classCount_eq, subLoop_fst]
  have hc : ((classesPresent pw : Int) ≤ 1) ↔ classesPresent pw ≤ 1 := by omega
  by_cases h1 : has_sequence pw 4 = true <;>
  by_cases h2 : has_repeated_chars pw 4 = true <;>
  by_cases h3 : pw.length < 8 <;>
  by_cases h4 : pw.length < 12 <;>
  by_cases h5 : classesPresent pw ≤ 1 <;>
  simp [h1, h2, h3, h4, h5, hc, bracket, subLoop_fst, shortPenalty_eq] <;> ring

theorem penalties_snd (pw : List Byte) (st : F × List String) :
    (penalties pw st).2 = st.2 ++ specTriggered pw := by
  unfold penalties specTriggered
  simp only [classCount_eq]
  have hc : ((classesPresent pw : Int) ≤ 1) ↔ classesPresent pw ≤ 1 := by omega
  by_cases h1 : has_sequence pw 4 = true <;>
  by_cases h2 : has_repeated_chars pw 4 = true <;>
  by_cases h3 : pw.length < 8 <;>
  by_cases h4 : pw.length < 12 <;>
  by_cases h5 : classesPresent pw ≤ 1 <;>
  simp [h1, h2, h3, h4, h5, hc, subLoop_snd]

theorem specPenalty_nonneg (pw : List Byte) : (0 : F) ≤ specPenalty pw := by
  unfold specPenalty
  have hb : ∀ b : Bool, (0 : F) ≤ bracket b := by
    intro b; cases b <;> simp [bracket]
  have h1 := hb (has_sequence pw 4)
  have h2 := hb (has_repeated_chars pw 4)
  have h3 := hb (commonSubs.any (fun sub => contains_case_insensitive pw (bytesOf sub)))
  have h4 := hb (decide (classesPresent pw ≤ 1))
  have h5 : (0 : F) ≤ (if pw.length < 8 then 6 * (8 - (pw.length : F)) else 0) := by
    split_ifs with h
    · have : (pw.length : F) ≤ 8 := by exact_mod_cast h.le
      linarith
    · exact le_refl 0
  linarith

theorem prePenalty_le (pool_bits : F) (size : Nat) : prePenalty pool_bits size ≤ 95 := by
  unfold prePenalty
  simp only
  split_ifs <;> first | exact le_refl _ | exact not_lt.mp ‹_›

end Field

/-! ## The three paths of `analyze_password` -/

section Field
variable {F : Type} [LinearOrderedField F] [FloorRing F]

theorem analyze_nil (ln : F → F) (common : Finset (List Byte)) :
    analyze_password ln [] common
      = { score := 0, entropy_bits := 0, shannon_bits := 0, reasons := [reasonEmpty] } := by
  simp [analyze_password]

theorem analyze_common (ln : F → F) (pw : List Byte) (common : Finset (List Byte))
    (hne : pw ≠ []) (hmem : tolow pw ∈ common) :
    analyze_password ln pw common
      = { score := 5, entropy_bits := pool_based_entropy_bits ln pw,
          shannon_bits := shannon_entropy ln pw, reasons := [reasonCommon] } := by
  have h0 : common ≠ ∅ := Finset.ne_empty_of_mem hmem
  simp [analyze_password, hne, hmem, h0]

theorem clamp_eq (x : F) :
    (if (if x < 0 then 0 else x) > 100 then (100 : F) else (if x < 0 then 0 else x))
      = clamp100 x := by
  unfold clamp100
  by_cases h : x < 0
  · have h1 : ¬ ((0 : F) > 100) := by norm_num
    rw [if_pos h, if_neg h1, min_eq_right (by linarith), max_eq_left h.le]
  · rw [if_neg h]
    have h0 : 0 ≤ x := not_lt.mp h
    by_cases h2 : x > 100
    · rw [if_pos h2, min_eq_left h2.le, max_eq_right (by norm_num)]
    · rw [if_neg h2, min_eq_right (not_lt.mp h2), max_eq_right h0]

theorem analyze_normal (ln : F → F) (pw : List Byte) (common : Finset (List Byte))
    (hne : pw ≠ []) (hmem : tolow pw ∉ common) :
    analyze_password ln pw common
      = { score := cround (clamp100
            (prePenalty (pool_based_entropy_bits ln pw) pw.length - specPenalty pw)),
          entropy_bits := pool_based_entropy_bits ln pw,
          shannon_bits := shannon_entropy ln pw,
          reasons := if specTriggered pw = [] then [reasonNone] else specTriggered pw } := by
  have h1 : ¬ (pw.isEmpty = true) := by simpa using hne
  have h2 : ¬ (common ≠ ∅ ∧ tolow pw ∈ common) := fun h => hmem h.2
  unfold analyze_password
  rw [if_neg h1]
  dsimp only
  rw [if_neg h2, penalties_fst, penalties_snd, clamp_eq]
  by_cases h : specTriggered pw = []
  · rw [h]; rfl
  · have h3 : ¬ ((specTriggered pw).isEmpty = true) := by simpa using h
    rw [if_neg h, List.nil_append, if_neg h3]

theorem prePenalty_eq (pool_bits : F) (size : Nat) :
    prePenalty pool_bits size
      = min 95 (min 80 (pool_bits / 60 * 80)
          + (if size > 8 then min 15 (((size : F) - 8) * (3 / 2)) else 0)) := by
  unfold prePenalty
  simp only
  have hb : (if size > 8 then ((size - 8 : Nat) : F) * (3 / 2) else 0)
      = (if size > 8 then ((size : F) - 8) * (3 / 2) else 0) := by
    split_ifs with h
    · rw [Nat.cast_sub h.le]; norm_num
    · rfl
  have hm : min (15 : F) (if size > 8 then ((size : F) - 8) * (3 / 2) else 0)
      = (if size > 8 then min 15 (((size : F) - 8) * (3 / 2)) else 0) := by
    split_ifs with h
    · rfl
    · exact min_eq_right (by norm_num)
  rw [hb, hm]
  generalize min 80 (pool_bits / 60 * 80)
      + (if size > 8 then min 15 (((size : F) - 8) * (3 / 2)) else 0) = t
  by_cases h : t > 95
  · rw [if_pos h, min_eq_left h.le]
  · rw [if_neg h, min_eq_right (not_lt.mp h)]

theorem clamp100_bounds (x : F) : 0 ≤ clamp100 x ∧ clamp100 x ≤ 100 := by
  unfold clamp100
  exact ⟨le_max_left _ _, max_le (by norm_num) (min_le_left _ _)⟩

theorem clamp100_le (x : F) (b : F) (hb : 0 ≤ b) (h : x ≤ b) : clamp100 x ≤ b := by
  unfold clamp100
  exact max_le hb ((min_le_right _ _).trans h)

end Field

/-! ## The reasons list -/

theorem specSubstringReason_eq_nil (pw : List Byte) :
    specSubstringReason pw = []
      ↔ ∀ sub ∈ commonSubs, contains_case_insensitive pw (bytesOf sub) = false := by
  unfold specSubstringReason
  cases h : commonSubs.find? (fun sub => contains_case_insensitive pw (bytesOf sub)) with
  | none =>
    rw [List.find?_eq_none] at h
    simp only [true_iff]
    intro sub hs
    simpa using h sub hs
  | some sub =>
    have h1 := List.mem_of_find?_eq_some h
    have h2 : contains_case_insensitive pw (bytesOf sub) = true := by
      simpa using List.find?_some h
    simp only [List.cons_ne_nil, false_iff]
    intro hall
    rw [hall sub h1] at h2
    exact Bool.false_ne_true h2

theorem mem_specSubstringReason (pw : List Byte) (r : String)
    (h : r ∈ specSubstringReason pw) : ∃ sub ∈ commonSubs, r = reasonSubstring sub := by
  unfold specSubstringReason at h
  cases hf : commonSubs.find? (fun sub => contains_case_insensitive pw (bytesOf sub)) with
  | none => rw [hf] at h; simp at h
  | some sub =>
    rw [hf] at h
    simp only [List.mem_singleton] at h
    exact ⟨sub, List.mem_of_find?_eq_some hf, h⟩

theorem reasonSubstring_ne_fixed :
    ∀ sub ∈ commonSubs, reasonSubstring sub ≠ reasonNone ∧ reasonSubstring sub ≠ reasonSequence
      ∧ reasonSubstring sub ≠ reasonRepeated ∧ reasonSubstring sub ≠ reasonShort
      ∧ reasonSubstring sub ≠ reasonLonger ∧ reasonSubstring sub ≠ reasonOneClass := by
  decide

theorem reasonNone_not_mem (pw : List Byte) : reasonNone ∉ specTriggered pw := by
  intro h
  unfold specTriggered at h
  simp only [List.mem_append] at h
  rcases h with (((h | h) | h) | h) | h
  · split_ifs at h
    · exact absurd (List.mem_singleton.mp h) (by decide)
    · simp at h
  · split_ifs at h
    · exact absurd (List.mem_singleton.mp h) (by decide)
    · simp at h
  · obtain ⟨sub, hs, he⟩ := mem_specSubstringReason pw _ h
    exact (reasonSubstring_ne_fixed sub hs).1 he.symm
  · split_ifs at h
    · exact absurd (List.mem_singleton.mp h) (by decide)
    · exact absurd (List.mem_singleton.mp h) (by decide)
    · simp at h
  · split_ifs at h
    · exact absurd (List.mem_singleton.mp h) (by decide)
    · simp at h

theorem specTriggered_eq_nil (pw : List Byte) :
    specTriggered pw = []
      ↔ (has_sequence pw 4 = false ∧ has_repeated_chars pw 4 = false
          ∧ (∀ sub ∈ commonSubs, contains_case_insensitive pw (bytesOf sub) = false)
          ∧ 12 ≤ pw.length ∧ 1 < classCount pw) := by
  have hc : (1 < classCount pw) ↔ ¬ (classesPresent pw ≤ 1) := by
    rw [classCount_eq]; omega
  unfold specTriggered
  simp only [List.append_eq_nil, specSubstringReason_eq_nil, hc]
  by_cases h1 : has_sequence pw 4 = true <;>
  by_cases h2 : has_repeated_chars pw 4 = true <;>
  by_cases h3 : pw.length < 8 <;>
  by_cases h4 : pw.length < 12 <;>
  by_cases h5 : classesPresent pw ≤ 1 <;>
  simp [h1, h2, h3, h4, h5] <;> omega

/-! ## Claims C1 to C6: the scoring engine -/

section Field
variable {F : Type} [LinearOrderedField F] [FloorRing F]

/-- Claim C1: for every password and every common-password set, the result of
`analyze_password` has a score between 0 and 100 and a non-empty list of
reasons. -/
theorem score_bounded_reasons_nonempty (ln : F → F) (pw : List Byte)
    (common : Finset (List Byte)) :
    0 ≤ (analyze_password ln pw common).score
      ∧ (analyze_password ln pw common).score ≤ 100
      ∧ (analyze_password ln pw common).reasons ≠ [] := by
  by_cases hne : pw = []
  · subst hne
    rw [analyze_nil]
    simp
  · by_cases hmem : tolow pw ∈ common
    · rw [analyze_common ln pw common hne hmem]
      simp
    · rw [analyze_normal ln pw common hne hmem]
      obtain ⟨h0, h1⟩ := clamp100_bounds
        (prePenalty (pool_based_entropy_bits ln pw) pw.length - specPenalty pw)
      obtain ⟨c0, c1⟩ := cround_bounds _ 100 h0 (by exact_mod_cast h1)
      refine ⟨c0, c1, ?_⟩
      simp only
      split_ifs with h
      · simp
      · exact h

/-- Claim C2: on the normal path (a non-empty password whose lowercased form is
not in the common-password set) the score is `round(clamp(P, 0, 100))`, `P`
being the capped base and length bonus minus the five penalties; the amount
subtracted for a password of length 5 is 18. -/
theorem score_formula (ln : F → F) (pw : List Byte) (common : Finset (List Byte))
    (hne : pw ≠ []) (hmem : tolow pw ∉ common) :
    (analyze_password ln pw common).score
        = cround (clamp100 (specRaw (pool_based_entropy_bits ln pw) pw))
      ∧ (pw.length = 5 → shortPenalty pw.length = 18) := by
  constructor
  · rw [analyze_normal ln pw common hne hmem]
    simp only [specRaw, prePenalty_eq]
  · intro h5
    rw [h5]
    decide

/-- The hypotheses of claim C2 hold of the password "abcde" and the empty
set. -/
theorem score_formula_witness :
    bytesOf "abcde" ≠ [] ∧ tolow (bytesOf "abcde") ∉ (∅ : Finset (List Byte))
      ∧ ((analyze_password (fun x : ℚ => x - 1) (bytesOf "abcde") ∅).score
          = cround (clamp100 (specRaw
              (pool_based_entropy_bits (fun x : ℚ => x - 1) (bytesOf "abcde"))
              (bytesOf "abcde")))
        ∧ ((bytesOf "abcde").length = 5 → shortPenalty (bytesOf "abcde").length = 18)) :=
  ⟨by decide, by simp,
    score_formula (fun x : ℚ => x - 1) (bytesOf "abcde") ∅ (by decide) (by simp)⟩

/-- Claim C3: when the common-password set holds no empty string and the
lowercased password is a member of it, the score is 5, the only reason is the
common-password-list one, and the entropy fields are the two entropy estimates
of the password.  (That the members are lowercase is not needed.) -/
theorem common_password_short_circuit (ln : F → F) (pw : List Byte)
    (common : Finset (List Byte)) (hset : ∀ w ∈ common, w ≠ [])
    (hmem : tolow pw ∈ common) :
    (analyze_password ln pw common).score = 5
      ∧ (analyze_password ln pw common).reasons = [reasonCommon]
      ∧ (analyze_password ln pw common).entropy_bits = pool_based_entropy_bits ln pw
      ∧ (analyze_password ln pw common).shannon_bits = shannon_entropy ln pw := by
  have hne : pw ≠ [] := by
    intro h
    subst h
    exact hset _ hmem rfl
  rw [analyze_common ln pw common hne hmem]
  exact ⟨rfl, rfl, rfl, rfl⟩

/-- The hypotheses of claim C3 hold of the password "PassWord" and the set
holding "password". -/
theorem common_password_short_circuit_witness :
    (∀ w ∈ ({bytesOf "password"} : Finset (List Byte)), w ≠ [])
      ∧ tolow (bytesOf "PassWord") ∈ ({bytesOf "password"} : Finset (List Byte))
      ∧ (analyze_password (fun x : ℚ => x - 1) (bytesOf "PassWord")
          {bytesOf "password"}).score = 5
      ∧ (analyze_password (fun x : ℚ => x - 1) (bytesOf "PassWord")
          {bytesOf "password"}).reasons = [reasonCommon] :=
  have h := common_password_short_circuit (fun x : ℚ => x - 1) (bytesOf "PassWord")
    {bytesOf "password"} (by decide) (by decide)
  ⟨by decide, by decide, h.1, h.2.1⟩

/-- Claim C4: for the empty password and every common-password set the result
has score 0, both entropy fields 0 and the empty-password reason as its only
reason. -/
theorem empty_password_result (ln : F → F) (common : Finset (List Byte)) :
    (analyze_password ln [] common).score = 0
      ∧ (analyze_password ln [] common).entropy_bits = 0
      ∧ (analyze_password ln [] common).shannon_bits = 0
      ∧ (analyze_password ln [] common).reasons = [reasonEmpty] := by
  rw [analyze_nil]
  exact ⟨rfl, rfl, rfl, rfl⟩

/-- Claim C5: for every password and every common-password set the score is at
most 95. -/
theorem score_le_95 (ln : F → F) (pw : List Byte) (common : Finset (List Byte)) :
    (analyze_password ln pw common).score ≤ 95 := by
  by_cases hne : pw = []
  · subst hne
    rw [analyze_nil]
    show (0 : Int) ≤ 95
    decide
  · by_cases hmem : tolow pw ∈ common
    · rw [analyze_common ln pw common hne hmem]
      show (5 : Int) ≤ 95
      decide
    · rw [analyze_normal ln pw common hne hmem]
      have hp := prePenalty_le (pool_based_entropy_bits ln pw) pw.length
      have hn : (0 : F) ≤ specPenalty pw := specPenalty_nonneg pw
      have h1 : clamp100 (prePenalty (pool_based_entropy_bits ln pw) pw.length
          - specPenalty pw) ≤ 95 := clamp100_le _ _ (by norm_num) (by linarith)
      exact (cround_bounds _ 95 (clamp100_bounds _).1 (by exact_mod_cast h1)).2

/-- Claim C6: on the normal path the reasons are the triggered reasons in the
fixed order (sequence, repeated characters, common substring, short password
or longer-passphrase advisory, one character class), or the single reason
"no obvious weaknesses detected" when none is triggered; and they are that
single reason exactly when no detector fires, the length is at least 12 and
more than one character class is present. -/
theorem reasons_in_fixed_order (ln : F → F) (pw : List Byte) (common : Finset (List Byte))
    (hne : pw ≠ []) (hmem : tolow pw ∉ common) :
    (analyze_password ln pw common).reasons
        = (if specTriggered pw = [] then [reasonNone] else specTriggered pw)
      ∧ ((analyze_password ln pw common).reasons = [reasonNone]
          ↔ (has_sequence pw 4 = false ∧ has_repeated_chars pw 4 = false
              ∧ (∀ sub ∈ commonSubs, contains_case_insensitive pw (bytesOf sub) = false)
              ∧ 12 ≤ pw.length ∧ 1 < classCount pw)) := by
  rw [analyze_normal ln pw common hne hmem]
  dsimp only
  refine ⟨rfl, ?_⟩
  rw [← specTriggered_eq_nil]
  by_cases h : specTriggered pw = []
  · rw [if_pos h]
    exact ⟨fun _ => h, fun _ => rfl⟩
  · rw [if_neg h]
    constructor
    · intro he
      have := reasonNone_not_mem pw
      rw [he] at this
      exact absurd (List.mem_singleton.mpr rfl) this
    · intro he
      exact absurd he h

/-- The hypotheses of claim C6 hold of the password "xx1234yy" and the empty
set. -/
theorem reasons_in_fixed_order_witness :
    bytesOf "xx1234yy" ≠ [] ∧ tolow (bytesOf "xx1234yy") ∉ (∅ : Finset (List Byte))
      ∧ (analyze_password (fun x : ℚ => x - 1) (bytesOf "xx1234yy") ∅).reasons
          = (if specTriggered (bytesOf "xx1234yy") = [] then [reasonNone]
              else specTriggered (bytesOf "xx1234yy")) :=
  ⟨by decide, by simp,
    (reasons_in_fixed_order (fun x : ℚ => x - 1) (bytesOf "xx1234yy") ∅
      (by decide) (by simp)).1⟩

end Field

/-! ## The pattern detectors: what the two scans compute -/

theorem toSize_of_nonneg (n : Int) (h0 : 0 ≤ n) (h1 : n < 2147483648) :
    toSize n = n.toNat := by
  unfold toSize
  rw [Int.emod_eq_of_lt h0 (by omega)]

theorem sizeAdd_of_lt (a b : Nat) (h : a + b < 18446744073709551616) : sizeAdd a b = a + b := by
  unfold sizeAdd
  exact Nat.mod_eq_of_lt h

theorem ite_ne_false (x y : Nat) (a : Bool) :
    (if x ≠ y then false else a) = (decide (x = y) && a) := by
  by_cases h : x = y <;> simp [h]

theorem foldl_flags (s : List Byte) (i : Nat) (l : List Nat) (fl : Bool × Bool) :
    l.foldl
      (fun (fl : Bool × Bool) (j : Nat) =>
        let cur := (s.getD (i + j) 0).val
        let prev := (s.getD (i + j - 1) 0).val
        (if cur ≠ (prev + 1) % 256 then false else fl.1,
         if cur ≠ (prev + 255) % 256 then false else fl.2)) fl
      = (fl.1 && l.all (fun j =>
            decide ((s.getD (i + j) 0).val = ((s.getD (i + j - 1) 0).val + 1) % 256)),
         fl.2 && l.all (fun j =>
            decide ((s.getD (i + j) 0).val = ((s.getD (i + j - 1) 0).val + 255) % 256))) := by
  induction l generalizing fl with
  | nil => simp
  | cons j t ih =>
    rw [List.foldl_cons, ih]
    obtain ⟨a, b⟩ := fl
    dsimp only
    rw [List.all_cons, List.all_cons, ite_ne_false, ite_ne_false]
    cases a <;> cases b <;> simp

theorem seqFlags_fst (s : List Byte) (i : Nat) (n : Int) :
    (seqFlags s i n).1 = true ↔ AscendingAt s i n.toNat := by
  unfold seqFlags AscendingAt
  rw [foldl_flags]
  simp only [Bool.true_and, List.all_eq_true, List.mem_range'_1, decide_eq_true_eq]
  constructor
  · intro h j h1 h2
    exact h j ⟨h1, by omega⟩
  · intro h j hj
    exact h j hj.1 (by omega)

theorem seqFlags_snd (s : List Byte) (i : Nat) (n : Int) :
    (seqFlags s i n).2 = true ↔ DescendingAt s i n.toNat := by
  unfold seqFlags DescendingAt
  rw [foldl_flags]
  simp only [Bool.true_and, List.all_eq_true, List.mem_range'_1, decide_eq_true_eq]
  constructor
  · intro h j h1 h2
    have := h j ⟨h1, by omega⟩
    omega
  · intro h j hj
    have := h j hj.1 (by omega)
    omega

theorem seqScan_iff (s : List Byte) (n : Int) (h0 : 0 ≤ n) (h1 : n < 2147483648) :
    ∀ fuel i, i + fuel + n.toNat < 18446744073709551616 →
      (seqScan s n fuel i = true ↔
        ∃ k, i ≤ k ∧ k < i + fuel ∧ k + n.toNat ≤ s.length
          ∧ (AscendingAt s k n.toNat ∨ DescendingAt s k n.toNat)) := by
  intro fuel
  induction fuel with
  | zero =>
    intro i _
    simp only [seqScan, Bool.false_eq_true, false_iff]
    rintro ⟨k, hk1, hk2, _⟩
    omega
  | succ fuel ih =>
    intro i hi
    unfold seqScan
    rw [toSize_of_nonneg n h0 h1, sizeAdd_of_lt _ _ (by omega)]
    by_cases hc : i + n.toNat ≤ s.length
    · rw [if_pos hc]
      dsimp only
      by_cases hit : ((seqFlags s i n).1 || (seqFlags s i n).2) = true
      · rw [if_pos hit]
        simp only [true_iff]
        rw [Bool.or_eq_true, seqFlags_fst, seqFlags_snd] at hit
        exact ⟨i, le_refl i, by omega, hc, hit⟩
      · rw [if_neg hit, ih (i + 1) (by omega)]
        rw [Bool.or_eq_true, seqFlags_fst, seqFlags_snd] at hit
        constructor
        · rintro ⟨k, hk1, hk2, hk3, hk4⟩
          exact ⟨k, by omega, by omega, hk3, hk4⟩
        · rintro ⟨k, hk1, hk2, hk3, hk4⟩
          have hne : k ≠ i := by
            intro he
            subst he
            exact hit hk4
          exact ⟨k, by omega, by omega, hk3, hk4⟩
    · rw [if_neg hc]
      simp only [Bool.false_eq_true, false_iff]
      rintro ⟨k, hk1, _, hk3, _⟩
      omega

theorem has_sequence_iff (s : List Byte) (n : Int) (h0 : 1 ≤ n)
    (hlen : s.length < 9223372036854775808) :
    has_sequence s n = true ↔ (n ≤ toInt32 s.length ∧ HasRun s n.toNat) := by
  unfold has_sequence HasRun
  by_cases hc : toInt32 s.length < n
  · rw [if_pos hc]
    simp only [Bool.false_eq_true, false_iff]
    rintro ⟨h, _⟩
    omega
  · have hn : n < 2147483648 := by
      unfold toInt32 at hc
      omega
    rw [if_neg hc, seqScan_iff s n (by omega) hn _ _ (by omega)]
    constructor
    · rintro ⟨k, _, _, hk3, hk4⟩
      exact ⟨not_lt.mp hc, k, hk3, hk4⟩
    · rintro ⟨_, k, hk3, hk4⟩
      exact ⟨k, Nat.zero_le k, by omega, hk3, hk4⟩

theorem has_sequence_iff_of_short (s : List Byte) (n : Int) (h0 : 1 ≤ n)
    (hlen : s.length < 2147483648) :
    has_sequence s n = true ↔ HasRun s n.toNat := by
  rw [has_sequence_iff s n h0 (by omega), toInt32_of_lt _ (by omega) (by omega)]
  constructor
  · rintro ⟨_, h⟩
    exact h
  · intro h
    refine ⟨?_, h⟩
    obtain ⟨i, hi, _⟩ := h
    omega

theorem runSame_iff (str : List Byte) (i : Nat) (n : Int) :
    runSame str i n = true ↔ ∃ c : Byte, ∀ j, j < n.toNat → str.getD (i + j) 0 = c := by
  unfold runSame
  simp only [List.all_eq_true, List.mem_range'_1, decide_eq_true_eq]
  constructor
  · intro h
    refine ⟨str.getD i 0, ?_⟩
    intro j
    induction j with
    | zero => intro _; rfl
    | succ j ih =>
      intro hj
      have h1 := h (j + 1) ⟨by omega, by omega⟩
      have h2 := ih (by omega)
      have e : i + (j + 1) - 1 = i + j := by omega
      rw [e] at h1
      exact h1.trans h2
  · rintro ⟨c, hc⟩ j ⟨hj1, hj2⟩
    have h1 := hc j (by omega)
    have h2 := hc (j - 1) (by omega)
    have e : i + (j - 1) = i + j - 1 := by omega
    rw [e] at h2
    rw [h1, h2]

theorem runScan_iff (str : List Byte) (n : Int) (h0 : 0 ≤ n) (h1 : n < 2147483648) :
    ∀ fuel i, i + fuel + n.toNat < 18446744073709551616 →
      (runScan str n fuel i = true ↔
        ∃ k, i ≤ k ∧ k < i + fuel ∧ k + n.toNat ≤ str.length
          ∧ ∃ c : Byte, ∀ j, j < n.toNat → str.getD (k + j) 0 = c) := by
  intro fuel
  induction fuel with
  | zero =>
    intro i _
    simp only [runScan, Bool.false_eq_true, false_iff]
    rintro ⟨k, hk1, hk2, _⟩
    omega
  | succ fuel ih =>
    intro i hi
    unfold runScan
    rw [toSize_of_nonneg n h0 h1, sizeAdd_of_lt _ _ (by omega)]
    by_cases hc : i + n.toNat ≤ str.length
    · rw [if_pos hc]
      by_cases hit : runSame str i n = true
      · rw [if_pos hit]
        simp only [true_iff]
        rw [runSame_iff] at hit
        exact ⟨i, le_refl i, by omega, hc, hit⟩
      · rw [if_neg hit, ih (i + 1) (by omega)]
        rw [runSame_iff] at hit
        constructor
        · rintro ⟨k, hk1, hk2, hk3, hk4⟩
          exact ⟨k, by omega, by omega, hk3, hk4⟩
        · rintro ⟨k, hk1, hk2, hk3, hk4⟩
          have hne : k ≠ i := by
            intro he
            subst he
            exact hit hk4
          exact ⟨k, by omega, by omega, hk3, hk4⟩
    · rw [if_neg hc]
      simp only [Bool.false_eq_true, false_iff]
      rintro ⟨k, hk1, _, hk3, _⟩
      omega

theorem has_repeated_chars_iff (str : List Byte) (n : Int) (h0 : 1 ≤ n)
    (hlen : str.length < 9223372036854775808) :
    has_repeated_chars str n = true ↔ (n ≤ toInt32 str.length ∧ HasRepeat str n.toNat) := by
  unfold has_repeated_chars HasRepeat
  by_cases hc : toInt32 str.length < n
  · rw [if_pos hc]
    simp only [Bool.false_eq_true, false_iff]
    rintro ⟨h, _⟩
    omega
  · have hn : n < 2147483648 := by
      unfold toInt32 at hc
      omega
    rw [if_neg hc, runScan_iff str n (by omega) hn _ _ (by omega)]
    constructor
    · rintro ⟨k, _, _, hk3, hk4⟩
      exact ⟨not_lt.mp hc, k, hk3, hk4⟩
    · rintro ⟨_, k, hk3, hk4⟩
      exact ⟨k, Nat.zero_le k, by omega, hk3, hk4⟩

theorem has_repeated_chars_iff_of_short (str : List Byte) (n : Int) (h0 : 1 ≤ n)
    (hlen : str.length < 2147483648) :
    has_repeated_chars str n = true ↔ HasRepeat str n.toNat := by
  rw [has_repeated_chars_iff str n h0 (by omega), toInt32_of_lt _ (by omega) (by omega)]
  constructor
  · rintro ⟨_, h⟩
    exact h
  · intro h
    refine ⟨?_, h⟩
    obtain ⟨i, hi, _⟩ := h
    omega

/-! ## Claims C7 and C8: the detectors on a string of `2^31` bytes -/

theorem has_sequence_long (t : List Byte) (ht : t.length = 2147483644) :
    has_sequence (49 :: 50 :: 51 :: 52 :: t) 4 = false
      ∧ HasRun (49 :: 50 :: 51 :: 52 :: t) 4 := by
  constructor
  · unfold has_sequence
    rw [if_pos]
    simp only [List.length_cons, ht]
    decide
  · refine ⟨0, ?_, Or.inl ?_⟩
    · simp only [List.length_cons, ht]
      omega
    · intro j h1 h2
      have hj : j = 1 ∨ j = 2 ∨ j = 3 := by omega
      rcases hj with rfl | rfl | rfl <;> rfl

theorem has_repeated_chars_long (t : List Byte) (ht : t.length = 2147483644) :
    has_repeated_chars (97 :: 97 :: 97 :: 97 :: t) 4 = false
      ∧ HasRepeat (97 :: 97 :: 97 :: 97 :: t) 4 := by
  constructor
  · unfold has_repeated_chars
    rw [if_pos]
    simp only [List.length_cons, ht]
    decide
  · refine ⟨0, ?_, 97, ?_⟩
    · simp only [List.length_cons, ht]
      omega
    · intro j h2
      have hj : j = 0 ∨ j = 1 ∨ j = 2 ∨ j = 3 := by omega
      rcases hj with rfl | rfl | rfl | rfl <;> rfl

/-- Claim C7, at the string "1234" followed by `2^31 - 4` zero bytes: the
string has an ascending window of 4 bytes (and so is not shorter than the
window), yet `has_sequence` returns false, because `(int)s.size()` is
`-2^31`; on the strings "xx1234yy" and "9876" of the claim it returns true. -/
theorem has_sequence_misses_long_string :
    has_sequence (49 :: 50 :: 51 :: 52 :: List.replicate 2147483644 0) 4 = false
      ∧ HasRun (49 :: 50 :: 51 :: 52 :: List.replicate 2147483644 0) 4
      ∧ has_sequence (bytesOf "xx1234yy") 4 = true
      ∧ has_sequence (bytesOf "9876") 4 = true :=
  ⟨(has_sequence_long _ (List.length_replicate _ _)).1,
   (has_sequence_long _ (List.length_replicate _ _)).2, by decide, by decide⟩

/-- Claim C8, at the string "aaaa" followed by `2^31 - 4` zero bytes: the
string has a window of 4 equal bytes, yet `has_repeated_chars` returns false,
because `(int)str.size()` is `-2^31`; on "aaaa1" it returns true and on
"aaa1aaa", whose longest run is 3, false. -/
theorem has_repeated_chars_misses_long_string :
    has_repeated_chars (97 :: 97 :: 97 :: 97 :: List.replicate 2147483644 0) 4 = false
      ∧ HasRepeat (97 :: 97 :: 97 :: 97 :: List.replicate 2147483644 0) 4
      ∧ has_repeated_chars (bytesOf "aaaa1") 4 = true
      ∧ has_repeated_chars (bytesOf "aaa1aaa") 4 = false :=
  ⟨(has_repeated_chars_long _ (List.length_replicate _ _)).1,
   (has_repeated_chars_long _ (List.length_replicate _ _)).2, by decide, by decide⟩

/-! ## The common-substring matcher -/

theorem occurs_iff_contiguous (b a : List Byte) : Occurs b a ↔ b <:+: a := by
  constructor
  · rintro ⟨pre, post, h⟩
    exact ⟨pre, post, h.symm⟩
  · rintro ⟨pre, post, h⟩
    exact ⟨pre, post, h.symm⟩

theorem strFind_isSome (a b : List Byte) : (strFind a b).isSome = true ↔ Occurs b a := by
  rw [occurs_iff_contiguous]
  induction a with
  | nil =>
    unfold strFind
    cases b with
    | nil => simp
    | cons y t => simp
  | cons x a ih =>
    unfold strFind
    rw [List.infix_cons_iff]
    by_cases hp : b.isPrefixOf (x :: a) = true
    · rw [if_pos hp]
      simp only [Option.isSome_some, true_iff]
      exact Or.inl ( List.isPrefixOf_iff_prefix.mp hp)
    · rw [if_neg hp]
      have hm : (Option.map (fun x => x + 1) (strFind a b)).isSome = (strFind a b).isSome := by
        cases strFind a b <;> rfl
      rw [hm, ih]
      have hn : ¬ (b <+: x :: a) := fun h => hp ( List.isPrefixOf_iff_prefix.mpr h)
      constructor
      · intro h
        exact Or.inr h
      · rintro (h | h)
        · exact absurd h hn
        · exact h

theorem tolow_commonSubs : ∀ sub ∈ commonSubs, tolow (bytesOf sub) = bytesOf sub := by
  decide

theorem contains_iff_occurs (pw : List Byte) (sub : String) (hs : sub ∈ commonSubs) :
    contains_case_insensitive pw (bytesOf sub) = true ↔ Occurs (bytesOf sub) (tolow pw) := by
  unfold contains_case_insensitive
  simp only [tolow_commonSubs sub hs]
  exact strFind_isSome _ _

theorem reasonSubstring_injOn :
    ∀ a ∈ commonSubs, ∀ b ∈ commonSubs, reasonSubstring a = reasonSubstring b → a = b := by
  decide

theorem commonSubs_nodup : commonSubs.Nodup := by
  decide

theorem find?_eq_some_of_split {α : Type} (p : α → Bool) (l1 : List α) (x : α) (l2 : List α)
    (hnd : (l1 ++ x :: l2).Nodup) :
    (l1 ++ x :: l2).find? p = some x ↔ (p x = true ∧ ∀ t ∈ l1, p t = false) := by
  induction l1 with
  | nil =>
    rw [List.nil_append]
    by_cases hx : p x = true
    · rw [List.find?_cons_of_pos _ hx]
      simp [hx]
    · rw [List.find?_cons_of_neg _ hx]
      constructor
      · intro h
        exact absurd (by simpa using List.find?_some h) hx
      · intro h
        exact absurd h.1 hx
  | cons y l1 ih =>
    rw [List.cons_append] at hnd ⊢
    have hy : y ∉ l1 ++ x :: l2 := (List.nodup_cons.mp hnd).1
    have hnd2 : (l1 ++ x :: l2).Nodup := (List.nodup_cons.mp hnd).2
    by_cases hpy : p y = true
    · rw [List.find?_cons_of_pos _ hpy]
      constructor
      · intro h
        have e : y = x := Option.some.inj h
        exact absurd (by rw [e]; simp) hy
      · intro h
        have := h.2 y (List.mem_cons_self _ _)
        rw [hpy] at this
        exact absurd this (by decide)
    · rw [List.find?_cons_of_neg _ hpy, ih hnd2]
      constructor
      · rintro ⟨h1, h2⟩
        refine ⟨h1, ?_⟩
        intro t ht
        rcases List.mem_cons.mp ht with rfl | ht
        · simpa using hpy
        · exact h2 t ht
      · rintro ⟨h1, h2⟩
        exact ⟨h1, fun t ht => h2 t (List.mem_cons_of_mem _ ht)⟩

theorem mem_specTriggered_substring (pw : List Byte) (sub : String) (hs : sub ∈ commonSubs) :
    reasonSubstring sub ∈ specTriggered pw
      ↔ commonSubs.find? (fun t => contains_case_insensitive pw (bytesOf t)) = some sub := by
  have hfix := reasonSubstring_ne_fixed sub hs
  have hmid : reasonSubstring sub ∈ specTriggered pw
      ↔ reasonSubstring sub ∈ specSubstringReason pw := by
    unfold specTriggered
    simp only [List.mem_append]
    constructor
    · rintro ((((h | h) | h) | h) | h)
      · split_ifs at h
        · exact absurd (List.mem_singleton.mp h) hfix.2.1
        · simp at h
      · split_ifs at h
        · exact absurd (List.mem_singleton.mp h) hfix.2.2.1
        · simp at h
      · exact h
      · split_ifs at h
        · exact absurd (List.mem_singleton.mp h) hfix.2.2.2.1
        · exact absurd (List.mem_singleton.mp h) hfix.2.2.2.2.1
        · simp at h
      · split_ifs at h
        · exact absurd (List.mem_singleton.mp h) hfix.2.2.2.2.2
        · simp at h
    · intro h
      exact Or.inl (Or.inl (Or.inr h))
  rw [hmid]
  unfold specSubstringReason
  cases hf : commonSubs.find? (fun t => contains_case_insensitive pw (bytesOf t)) with
  | none => simp
  | some s0 =>
    have hs0 : s0 ∈ commonSubs := List.mem_of_find?_eq_some hf
    simp only [List.mem_singleton, Option.some.injEq]
    constructor
    · intro h
      exact (reasonSubstring_injOn sub hs s0 hs0 h).symm
    · intro h
      rw [h]

theorem mem_final_reasons (T : List String) (sub : String) (hs : sub ∈ commonSubs) :
    reasonSubstring sub ∈ (if T = [] then [reasonNone] else T) ↔ reasonSubstring sub ∈ T := by
  by_cases h : T = []
  · rw [if_pos h, h]
    simp only [List.mem_singleton, List.not_mem_nil, iff_false]
    exact (reasonSubstring_ne_fixed sub hs).1
  · rw [if_neg h]

theorem specTriggered_password123 :
    specTriggered (bytesOf "password123") = [reasonSubstring "password", reasonLonger] := by
  decide

/-! ## Claim C9: the common-substring reason -/

section Field
variable {F : Type} [LinearOrderedField F] [FloorRing F]

/-- Claim C9: on the normal path a common-substring reason is present exactly
when the lowercased password contains an entry of the built-in list, and the
reason naming an entry is present exactly when the lowercased password
contains that entry and none of the entries before it in the list; for
"password123" the reason names 'password' and no reason names '123456789'. -/
theorem common_substring_first_match (ln : F → F) (pw : List Byte)
    (common : Finset (List Byte)) (hne : pw ≠ []) (hmem : tolow pw ∉ common) :
    ((∃ sub ∈ commonSubs, reasonSubstring sub ∈ (analyze_password ln pw common).reasons)
        ↔ ∃ sub ∈ commonSubs, Occurs (bytesOf sub) (tolow pw))
      ∧ (∀ l1 sub l2, commonSubs = l1 ++ sub :: l2 →
          (reasonSubstring sub ∈ (analyze_password ln pw common).reasons
            ↔ (Occurs (bytesOf sub) (tolow pw)
                ∧ ∀ t ∈ l1, ¬ Occurs (bytesOf t) (tolow pw))))
      ∧ reasonSubstring "password"
          ∈ (analyze_password ln (bytesOf "password123") ∅).reasons
      ∧ reasonSubstring "123456789"
          ∉ (analyze_password ln (bytesOf "password123") ∅).reasons := by
  have hkey : ∀ sub ∈ commonSubs,
      (reasonSubstring sub ∈ (analyze_password ln pw common).reasons
        ↔ commonSubs.find? (fun t => contains_case_insensitive pw (bytesOf t)) = some sub) := by
    intro sub hs
    rw [analyze_normal ln pw common hne hmem]
    dsimp only
    rw [mem_final_reasons _ sub hs, mem_specTriggered_substring pw sub hs]
  refine ⟨?_, ?_, ?_, ?_⟩
  · constructor
    · rintro ⟨sub, hs, hr⟩
      rw [hkey sub hs] at hr
      have hp : contains_case_insensitive pw (bytesOf sub) = true := by
        simpa using List.find?_some hr
      exact ⟨sub, hs, (contains_iff_occurs pw sub hs).mp hp⟩
    · rintro ⟨sub, hs, ho⟩
      have hp := (contains_iff_occurs pw sub hs).mpr ho
      cases hf : commonSubs.find? (fun t => contains_case_insensitive pw (bytesOf t)) with
      | none =>
        rw [List.find?_eq_none] at hf
        exact absurd hp (hf sub hs)
      | some s0 =>
        have hs0 : s0 ∈ commonSubs := List.mem_of_find?_eq_some hf
        exact ⟨s0, hs0, (hkey s0 hs0).mpr hf⟩
  · intro l1 sub l2 hsplit
    have hs : sub ∈ commonSubs := by
      rw [hsplit]; simp
    have hl1 : ∀ t ∈ l1, t ∈ commonSubs := by
      intro t ht
      rw [hsplit]
      exact List.mem_append_left _ ht
    have hnd : (l1 ++ sub :: l2).Nodup := hsplit ▸ commonSubs_nodup
    rw [hkey sub hs]
    have hfind := find?_eq_some_of_split
      (fun t => contains_case_insensitive pw (bytesOf t)) l1 sub l2 hnd
    rw [← hsplit] at hfind
    dsimp only at hfind
    rw [hfind, contains_iff_occurs pw sub hs]
    constructor
    · rintro ⟨h1, h2⟩
      refine ⟨h1, fun t ht ho => ?_⟩
      have := (contains_iff_occurs pw t (hl1 t ht)).mpr ho
      rw [h2 t ht] at this
      exact Bool.false_ne_true this
    · rintro ⟨h1, h2⟩
      refine ⟨h1, fun t ht => ?_⟩
      cases hc : contains_case_insensitive pw (bytesOf t) with
      | false => rfl
      | true => exact absurd ((contains_iff_occurs pw t (hl1 t ht)).mp hc) (h2 t ht)
  · rw [analyze_normal ln (bytesOf "password123") ∅ (by decide) (by simp)]
    dsimp only
    rw [specTriggered_password123]
    decide
  · rw [analyze_normal ln (bytesOf "password123") ∅ (by decide) (by simp)]
    dsimp only
    rw [specTriggered_password123]
    decide

/-- The hypotheses of claim C9 hold of the password "Admin12345" and the empty
set; the one common-substring reason names 'admin', the first entry, in list
order, that the password contains. -/
theorem common_substring_first_match_witness :
    bytesOf "Admin12345" ≠ [] ∧ tolow (bytesOf "Admin12345") ∉ (∅ : Finset (List Byte))
      ∧ ((∃ sub ∈ commonSubs, reasonSubstring sub
            ∈ (analyze_password (fun x : ℚ => x - 1) (bytesOf "Admin12345") ∅).reasons)
          ↔ ∃ sub ∈ commonSubs, Occurs (bytesOf sub) (tolow (bytesOf "Admin12345"))) :=
  ⟨by decide, by simp,
    (common_substring_first_match (fun x : ℚ => x - 1) (bytesOf "Admin12345") ∅
      (by decide) (by simp)).1⟩

end Field

/-! ## The alphabet pool -/

theorem poolStep_flags (st : PoolState) (c : Byte) :
    (poolStep st c).lower = (st.lower || islower c)
      ∧ (poolStep st c).upper = (st.upper || isupper c)
      ∧ (poolStep st c).digit = (st.digit || isdigit c)
      ∧ (poolStep st c).symbol = (st.symbol || !(islower c || isupper c || isdigit c)) := by
  unfold poolStep
  by_cases h1 : islower c = true
  · have h2 : isupper c = false := by
      unfold islower at h1; unfold isupper; simp at h1 ⊢; omega
    have h3 : isdigit c = false := by
      unfold islower at h1; unfold isdigit; simp at h1 ⊢; omega
    simp [h1, h2, h3]
  · by_cases h2 : isupper c = true
    · have h3 : isdigit c = false := by
        unfold isupper at h2; unfold isdigit; simp at h2 ⊢; omega
      simp [h1, h2, h3]
    · by_cases h3 : isdigit c = true <;> simp [h1, h2, h3]

theorem foldl_poolStep_flags (str : List Byte) (st : PoolState) :
    (str.foldl poolStep st).lower = (st.lower || str.any islower)
      ∧ (str.foldl poolStep st).upper = (st.upper || str.any isupper)
      ∧ (str.foldl poolStep st).digit = (st.digit || str.any isdigit)
      ∧ (str.foldl poolStep st).symbol
          = (st.symbol || str.any (fun c => !(islower c || isupper c || isdigit c))) := by
  induction str generalizing st with
  | nil => simp
  | cons c t ih =>
    rw [List.foldl_cons]
    obtain ⟨i1, i2, i3, i4⟩ := ih (poolStep st c)
    obtain ⟨s1, s2, s3, s4⟩ := poolStep_flags st c
    rw [i1, i2, i3, i4, s1, s2, s3, s4]
    simp only [List.any_cons, Bool.or_assoc, and_self]

theorem poolOf_eq : ∀ a b c d : Bool, (a || b || c || d) = true →
    poolOf a b c d = (if a then 26 else 0) + (if b then 26 else 0)
      + (if c then 10 else 0) + (if d then 32 else 0) := by
  decide

theorem poolOf_ne_one : ∀ a b c d : Bool, (a || b || c || d) = true → poolOf a b c d ≠ 1 := by
  decide

theorem some_class_present (c : Byte) (t : List Byte) :
    ((c :: t).any islower || (c :: t).any isupper || (c :: t).any isdigit
      || (c :: t).any (fun c => !(islower c || isupper c || isdigit c))) = true := by
  simp only [List.any_cons]
  cases h1 : islower c <;> cases h2 : isupper c <;> cases h3 : isdigit c <;> simp

theorem poolSize_eq (str : List Byte) : poolSize str = specPool str := by
  unfold poolSize specPool poolScan
  obtain ⟨h1, h2, h3, h4⟩ := foldl_poolStep_flags str ⟨false, false, false, false, 0⟩
  dsimp only
  rw [h1, h2, h3, h4]
  simp only [Bool.false_or]
  cases str with
  | nil => rfl
  | cons c t =>
    rw [if_neg (List.cons_ne_nil c t)]
    exact poolOf_eq _ _ _ _ (some_class_present c t)

theorem specPool_eq_one (str : List Byte) : specPool str = 1 ↔ str = [] := by
  rw [← poolSize_eq]
  cases str with
  | nil => exact ⟨fun _ => rfl, fun _ => rfl⟩
  | cons c t =>
    simp only [reduceCtorEq, iff_false]
    unfold poolSize poolScan
    obtain ⟨h1, h2, h3, h4⟩ := foldl_poolStep_flags (c :: t) ⟨false, false, false, false, 0⟩
    dsimp only
    rw [h1, h2, h3, h4]
    simp only [Bool.false_or]
    exact poolOf_ne_one _ _ _ _ (some_class_present c t)

theorem specPool_lower (str : List Byte) (hne : str ≠ [])
    (hl : ∀ c ∈ str, islower c = true) : specPool str = 26 := by
  have hu : ∀ c ∈ str, isupper c = false := by
    intro c hc
    have := hl c hc
    unfold islower at this; unfold isupper; simp at this ⊢; omega
  have hd : ∀ c ∈ str, isdigit c = false := by
    intro c hc
    have := hl c hc
    unfold islower at this; unfold isdigit; simp at this ⊢; omega
  have a1 : str.any islower = true := by
    cases str with
    | nil => exact absurd rfl hne
    | cons c t => simp [hl c (List.mem_cons_self _ _)]
  have a2 : str.any isupper = false := List.any_eq_false.mpr (fun c hc => by simp [hu c hc])
  have a3 : str.any isdigit = false := List.any_eq_false.mpr (fun c hc => by simp [hd c hc])
  have a4 : str.any (fun c => !(islower c || isupper c || isdigit c)) = false :=
    List.any_eq_false.mpr (fun c hc => by simp [hl c hc])
  unfold specPool
  rw [if_neg hne, a1, a2, a3, a4]
  rfl

/-! ## Claim C10: the pool-based entropy -/

/-- Claim C10: over the reals, with the natural logarithm for `log`, the
pool-based entropy of a string is its length times the base-2 logarithm of the
pool, the pool being 26 for a lowercase letter plus 26 for an uppercase letter
plus 10 for a digit plus 32 for any other byte, and 1 for the empty string
only; five lowercase letters have pool entropy `5 * log2 26`. -/
theorem pool_entropy_formula (s : List Byte) :
    pool_based_entropy_bits Real.log s = (s.length : ℝ) * Real.logb 2 (specPool s : ℝ)
      ∧ poolSize s = specPool s
      ∧ (poolSize s = 1 ↔ s = [])
      ∧ (s.length = 5 → (∀ c ∈ s, islower c = true) →
          pool_based_entropy_bits Real.log s = 5 * Real.logb 2 26) := by
  have hmain : pool_based_entropy_bits Real.log s
      = (s.length : ℝ) * Real.logb 2 (specPool s : ℝ) := by
    unfold pool_based_entropy_bits log2_double
    rw [poolSize_eq, Real.log_div_log]
    ring
  refine ⟨hmain, poolSize_eq s, ?_, ?_⟩
  · rw [poolSize_eq]
    exact specPool_eq_one s
  · intro h5 hl
    have hne : s ≠ [] := by
      intro h
      rw [h] at h5
      exact absurd h5 (by decide)
    rw [hmain, specPool_lower s hne hl, h5]
    norm_num

/-- The hypotheses of the last part of claim C10 hold of "hello". -/
theorem pool_entropy_formula_witness :
    (bytesOf "hello").length = 5 ∧ (∀ c ∈ bytesOf "hello", islower c = true)
      ∧ pool_based_entropy_bits Real.log (bytesOf "hello") = 5 * Real.logb 2 26 :=
  ⟨by decide, by decide, (pool_entropy_formula (bytesOf "hello")).2.2.2 (by decide) (by decide)⟩

/-! ## The reasons of the normal path, one by one -/

theorem mem_specTriggered (pw : List Byte) (r : String) (h : r ∈ specTriggered pw) :
    r = reasonSequence ∨ r = reasonRepeated ∨ (∃ sub ∈ commonSubs, r = reasonSubstring sub)
      ∨ r = reasonShort ∨ r = reasonLonger ∨ r = reasonOneClass := by
  unfold specTriggered at h
  simp only [List.mem_append] at h
  rcases h with (((h | h) | h) | h) | h
  · split_ifs at h
    · exact Or.inl (List.mem_singleton.mp h)
    · simp at h
  · split_ifs at h
    · exact Or.inr (Or.inl (List.mem_singleton.mp h))
    · simp at h
  · exact Or.inr (Or.inr (Or.inl (mem_specSubstringReason pw r h)))
  · split_ifs at h
    · exact Or.inr (Or.inr (Or.inr (Or.inl (List.mem_singleton.mp h))))
    · exact Or.inr (Or.inr (Or.inr (Or.inr (Or.inl (List.mem_singleton.mp h)))))
    · simp at h
  · split_ifs at h
    · exact Or.inr (Or.inr (Or.inr (Or.inr (Or.inr (List.mem_singleton.mp h)))))
    · simp at h

theorem reasonCommon_ne_substring : ∀ sub ∈ commonSubs, reasonCommon ≠ reasonSubstring sub := by
  decide

theorem reasonCommon_not_mem (pw : List Byte) : reasonCommon ∉ specTriggered pw := by
  intro h
  rcases mem_specTriggered pw _ h with h | h | ⟨sub, hs, h⟩ | h | h | h
  · exact absurd h (by decide)
  · exact absurd h (by decide)
  · exact reasonCommon_ne_substring sub hs h
  · exact absurd h (by decide)
  · exact absurd h (by decide)
  · exact absurd h (by decide)

/-! ## Claim C14: the common-password set acts through membership only -/

section Field
variable {F : Type} [LinearOrderedField F] [FloorRing F]

theorem analyze_congr_set (ln : F → F) (pw : List Byte) (c1 c2 : Finset (List Byte))
    (h : tolow pw ∈ c1 ↔ tolow pw ∈ c2) :
    analyze_password ln pw c1 = analyze_password ln pw c2 := by
  by_cases hne : pw = []
  · subst hne
    rw [analyze_nil, analyze_nil]
  · by_cases h1 : tolow pw ∈ c1
    · rw [analyze_common ln pw c1 hne h1, analyze_common ln pw c2 hne (h.mp h1)]
    · rw [analyze_normal ln pw c1 hne h1, analyze_normal ln pw c2 hne (fun h2 => h1 (h.mpr h2))]

/-- Claim C14: with an empty common-password set the common-password reason is
never produced; a set that does not contain the lowercased password gives the
result of the empty set; and two sets that agree on the membership of the
lowercased password give the same result. -/
theorem empty_set_is_no_check (ln : F → F) (pw : List Byte) :
    reasonCommon ∉ (analyze_password ln pw ∅).reasons
      ∧ (∀ common : Finset (List Byte), tolow pw ∉ common →
          analyze_password ln pw common = analyze_password ln pw ∅)
      ∧ (∀ c1 c2 : Finset (List Byte), (tolow pw ∈ c1 ↔ tolow pw ∈ c2) →
          analyze_password ln pw c1 = analyze_password ln pw c2) := by
  refine ⟨?_, ?_, ?_⟩
  · by_cases hne : pw = []
    · subst hne
      rw [analyze_nil]
      show reasonCommon ∉ [reasonEmpty]
      decide
    · rw [analyze_normal ln pw ∅ hne (by simp)]
      dsimp only
      by_cases hT : specTriggered pw = []
      · rw [if_pos hT]
        decide
      · rw [if_neg hT]
        exact reasonCommon_not_mem pw
  · intro common hmem
    exact analyze_congr_set ln pw common ∅ ⟨fun h => absurd h hmem, fun h => by simp at h⟩
  · intro c1 c2 h
    exact analyze_congr_set ln pw c1 c2 h

/-- The hypothesis of the second part of claim C14 holds of the password
"Tr0ub4dor" and the set holding "password". -/
theorem empty_set_is_no_check_witness :
    tolow (bytesOf "Tr0ub4dor") ∉ ({bytesOf "password"} : Finset (List Byte))
      ∧ analyze_password (fun x : ℚ => x - 1) (bytesOf "Tr0ub4dor") {bytesOf "password"}
          = analyze_password (fun x : ℚ => x - 1) (bytesOf "Tr0ub4dor") ∅ :=
  ⟨by decide,
    (empty_set_is_no_check (fun x : ℚ => x - 1) (bytesOf "Tr0ub4dor")).2.1 _ (by decide)⟩

end Field

/-! ## Claim C16: the last entry of the built-in list is never reported -/

theorem occurs_12345_of_123456789 (a : List Byte)
    (h : Occurs (bytesOf "123456789") a) : Occurs (bytesOf "12345") a := by
  obtain ⟨pre, post, h⟩ := h
  have e : bytesOf "123456789" = bytesOf "12345" ++ bytesOf "6789" := by decide
  refine ⟨pre, bytesOf "6789" ++ post, ?_⟩
  rw [h, e]
  simp only [List.append_assoc]

theorem commonSubs_split_last :
    commonSubs = ["password", "qwerty", "admin", "welcome", "12345", "iloveyou"]
      ++ "123456789" :: [] := by
  decide

section Field
variable {F : Type} [LinearOrderedField F] [FloorRing F]

/-- Claim C16: for every password and every common-password set no reason of
the result names '123456789', because a string that contains "123456789"
contains "12345", an earlier entry of the built-in list. -/
theorem never_names_123456789 (ln : F → F) (pw : List Byte) (common : Finset (List Byte)) :
    reasonSubstring "123456789" ∉ (analyze_password ln pw common).reasons
      ∧ (∀ a : List Byte, Occurs (bytesOf "123456789") a → Occurs (bytesOf "12345") a) := by
  refine ⟨?_, occurs_12345_of_123456789⟩
  have hs : "123456789" ∈ commonSubs := by decide
  by_cases hne : pw = []
  · subst hne
    rw [analyze_nil]
    show reasonSubstring "123456789" ∉ [reasonEmpty]
    decide
  · by_cases hmem : tolow pw ∈ common
    · rw [analyze_common ln pw common hne hmem]
      show reasonSubstring "123456789" ∉ [reasonCommon]
      decide
    · rw [analyze_normal ln pw common hne hmem]
      dsimp only
      rw [mem_final_reasons _ _ hs, mem_specTriggered_substring pw _ hs]
      intro hfind
      have hnd : (["password", "qwerty", "admin", "welcome", "12345", "iloveyou"]
          ++ "123456789" :: []).Nodup := commonSubs_split_last ▸ commonSubs_nodup
      have hsplit := find?_eq_some_of_split
        (fun t => contains_case_insensitive pw (bytesOf t)) _ _ _ hnd
      rw [← commonSubs_split_last] at hsplit
      obtain ⟨h9, hearlier⟩ := hsplit.mp hfind
      have h5 : contains_case_insensitive pw (bytesOf "12345") = false :=
        hearlier "12345" (by decide)
      have o9 := (contains_iff_occurs pw "123456789" hs).mp h9
      have o5 := occurs_12345_of_123456789 _ o9
      have := (contains_iff_occurs pw "12345" (by decide)).mpr o5
      rw [h5] at this
      exact Bool.false_ne_true this

end Field

/-! ## The pool and its logarithm over the reals -/

theorem poolOf_bounds : ∀ a b c d : Bool, 1 ≤ poolOf a b c d ∧ poolOf a b c d ≤ 94 := by
  decide

theorem poolSize_bounds (s : List Byte) : 1 ≤ poolSize s ∧ poolSize s ≤ 94 := by
  unfold poolSize
  exact poolOf_bounds _ _ _ _

theorem symbol_fun_eq : (fun c : Byte => !(islower c || isupper c || isdigit c)) = is_symbol := by
  funext c
  rfl

theorem poolSize_congr (a b : List Byte) (ha : a ≠ []) (hb : b ≠ [])
    (hl : a.any islower = b.any islower) (hu : a.any isupper = b.any isupper)
    (hd : a.any isdigit = b.any isdigit) (hs : a.any is_symbol = b.any is_symbol) :
    poolSize a = poolSize b := by
  rw [poolSize_eq, poolSize_eq]
  unfold specPool
  rw [if_neg ha, if_neg hb, symbol_fun_eq, hl, hu, hd, hs]

theorem log2_pool_nonneg (s : List Byte) :
    0 ≤ log2_double Real.log ((poolSize s : Int) : ℝ) := by
  unfold log2_double
  have h1 : (1 : ℝ) ≤ ((poolSize s : Int) : ℝ) := by exact_mod_cast (poolSize_bounds s).1
  exact div_nonneg (Real.log_nonneg h1) (Real.log_nonneg (by norm_num))

theorem pool_bits_nonneg (s : List Byte) : 0 ≤ pool_based_entropy_bits Real.log s := by
  unfold pool_based_entropy_bits
  exact mul_nonneg (log2_pool_nonneg s) (Nat.cast_nonneg _)

section Field
variable {F : Type} [LinearOrderedField F] [FloorRing F]

theorem lengthBonus_mono (m n : Nat) (h : m ≤ n) :
    (if m > 8 then min (15 : F) (((m : F) - 8) * (3 / 2)) else 0)
      ≤ (if n > 8 then min (15 : F) (((n : F) - 8) * (3 / 2)) else 0) := by
  by_cases hm : m > 8
  · have hn : n > 8 := by omega
    rw [if_pos hm, if_pos hn]
    have hc : (m : F) ≤ (n : F) := by exact_mod_cast h
    exact min_le_min (le_refl _) (by linarith)
  · rw [if_neg hm]
    by_cases hn : n > 8
    · rw [if_pos hn]
      have hc : (8 : F) ≤ (n : F) := by exact_mod_cast hn.le
      exact le_min (by norm_num) (by linarith)
    · rw [if_neg hn]

theorem prePenalty_mono (x y : F) (m n : Nat) (hxy : x ≤ y) (hmn : m ≤ n) :
    prePenalty x m ≤ prePenalty y n := by
  rw [prePenalty_eq, prePenalty_eq]
  refine min_le_min (le_refl _) (add_le_add (min_le_min (le_refl _) ?_) (lengthBonus_mono m n hmn))
  linarith

end Field

/-! ## Claim C13: more length, no lower pre-penalty score -/

/-- Claim C13: over the reals, for two non-empty passwords with the same
character classes present, the shorter one has the smaller or equal
pre-penalty score `min(95, base + length bonus)`. -/
theorem pre_penalty_monotone_in_length (a b : List Byte) (ha : a ≠ []) (hb : b ≠ [])
    (hl : a.any islower = b.any islower) (hu : a.any isupper = b.any isupper)
    (hd : a.any isdigit = b.any isdigit) (hs : a.any is_symbol = b.any is_symbol)
    (hlen : a.length ≤ b.length) :
    prePenalty (pool_based_entropy_bits Real.log a) a.length
      ≤ prePenalty (pool_based_entropy_bits Real.log b) b.length := by
  apply prePenalty_mono _ _ _ _ _ hlen
  unfold pool_based_entropy_bits
  rw [poolSize_congr a b ha hb hl hu hd hs]
  have hc : (a.length : ℝ) ≤ (b.length : ℝ) := by exact_mod_cast hlen
  exact mul_le_mul_of_nonneg_left hc (log2_pool_nonneg b)

/-- The hypotheses of claim C13 hold of "abcde" (length 5) and "abcdefghi"
(length 9), both of lowercase letters only. -/
theorem pre_penalty_monotone_in_length_witness :
    (bytesOf "abcde").length = 5 ∧ (bytesOf "abcdefghi").length = 9
      ∧ prePenalty (pool_based_entropy_bits Real.log (bytesOf "abcde")) (bytesOf "abcde").length
        ≤ prePenalty (pool_based_entropy_bits Real.log (bytesOf "abcdefghi"))
            (bytesOf "abcdefghi").length :=
  ⟨by decide, by decide,
    pre_penalty_monotone_in_length (bytesOf "abcde") (bytesOf "abcdefghi") (by decide)
      (by decide) (by decide) (by decide) (by decide) (by decide) (by decide)⟩

/-! ## The frequency table and the Shannon sum -/

theorem toInt32_succ (x : Int) : toInt32 (toInt32 x + 1) = toInt32 (x + 1) := by
  unfold toInt32
  omega

theorem foldl_freq (s : List Byte) (g : Byte → Int) (c : Byte) (k : Int)
    (hg : g c = toInt32 k) :
    (s.foldl (fun freq x => Function.update freq x (toInt32 (freq x + 1))) g) c
      = toInt32 (k + (s.count c : Int)) := by
  induction s generalizing g k with
  | nil => simpa using hg
  | cons x t ih =>
    rw [List.foldl_cons]
    by_cases hx : x = c
    · subst hx
      rw [ih _ (k + 1) (by rw [Function.update_same, hg, toInt32_succ])]
      rw [List.count_cons_self]
      push_cast
      ring_nf
    · rw [ih _ k (by rw [Function.update_noteq (Ne.symm hx), hg])]
      rw [List.count_cons_of_ne (Ne.symm hx)]

theorem freqTable_eq (s : List Byte) (c : Byte) : freqTable s c = toInt32 (s.count c : Int) := by
  unfold freqTable
  have h0 : (fun _ : Byte => (0 : Int)) c = toInt32 0 := by
    show (0 : Int) = toInt32 0
    decide
  rw [foldl_freq s (fun _ => 0) c 0 h0]
  simp

theorem freqTable_le (s : List Byte) (c : Byte) (h : 0 < freqTable s c) :
    freqTable s c ≤ (s.count c : Int) := by
  rw [freqTable_eq] at h ⊢
  unfold toInt32 at h ⊢
  omega

theorem freqTable_of_short (s : List Byte) (c : Byte) (h : s.length < 2147483648) :
    freqTable s c = (s.count c : Int) := by
  rw [freqTable_eq]
  have := List.count_le_length c s
  exact toInt32_of_lt _ (by omega) (by omega)

section Field
variable {F : Type} [LinearOrderedField F] [FloorRing F]

theorem foldl_sub_ite {α : Type} (l : List α) (P : α → Prop) [DecidablePred P] (t : α → F)
    (init : F) :
    l.foldl (fun H c => if P c then H - t c else H) init
      = init - (l.map (fun c => if P c then t c else 0)).sum := by
  induction l generalizing init with
  | nil => simp
  | cons x l ih =>
    rw [List.foldl_cons, ih, List.map_cons, List.sum_cons]
    split_ifs <;> ring

theorem shannon_entropy_eq_sum (ln : F → F) (s : List Byte) (hne : s ≠ []) :
    shannon_entropy ln s
      = -(∑ c : Byte, if 0 < freqTable s c then
            ((freqTable s c : Int) : F) / (s.length : F)
              * log2_double ln (((freqTable s c : Int) : F) / (s.length : F))
          else 0) * (s.length : F) := by
  unfold shannon_entropy
  have h1 : ¬ (s.isEmpty = true) := by simpa using hne
  rw [if_neg h1]
  dsimp only
  rw [foldl_sub_ite (List.finRange 256) (fun c => freqTable s c > 0), zero_sub, Fin.sum_univ_def]

end Field

theorem shannon_term_nonpos (s : List Byte) (c : Byte) :
    (if 0 < freqTable s c then
        ((freqTable s c : Int) : ℝ) / (s.length : ℝ)
          * log2_double Real.log (((freqTable s c : Int) : ℝ) / (s.length : ℝ))
      else 0) ≤ 0 := by
  split_ifs with h
  · have hle : freqTable s c ≤ (s.length : Int) := by
      have h1 := freqTable_le s c h
      have h2 := List.count_le_length c s
      omega
    have hf : (0 : ℝ) < ((freqTable s c : Int) : ℝ) := by exact_mod_cast h
    have hfl : ((freqTable s c : Int) : ℝ) ≤ (s.length : ℝ) := by exact_mod_cast hle
    have hlen : (0 : ℝ) < (s.length : ℝ) := lt_of_lt_of_le hf hfl
    have hp0 : 0 < ((freqTable s c : Int) : ℝ) / (s.length : ℝ) := div_pos hf hlen
    have hp1 : ((freqTable s c : Int) : ℝ) / (s.length : ℝ) ≤ 1 := (div_le_one hlen).mpr hfl
    unfold log2_double
    have hlog : Real.log (((freqTable s c : Int) : ℝ) / (s.length : ℝ)) ≤ 0 :=
      Real.log_nonpos hp0.le hp1
    have h2 : 0 < Real.log 2 := Real.log_pos (by norm_num)
    exact mul_nonpos_of_nonneg_of_nonpos hp0.le (div_nonpos_of_nonpos_of_nonneg hlog h2.le)
  · exact le_refl 0

theorem shannon_nonneg (s : List Byte) : 0 ≤ shannon_entropy Real.log s := by
  by_cases hne : s = []
  · subst hne
    simp [shannon_entropy]
  · rw [shannon_entropy_eq_sum Real.log s hne]
    apply mul_nonneg _ (Nat.cast_nonneg _)
    rw [neg_nonneg]
    exact Finset.sum_nonpos (fun c _ => shannon_term_nonpos s c)

/-! ## Claim C12: the entropy fields are not negative -/

/-- Claim C12: over the reals, for every password and every common-password
set both entropy fields of the result are at least 0, whichever of the three
paths is taken. -/
theorem entropy_fields_nonneg (pw : List Byte) (common : Finset (List Byte)) :
    0 ≤ (analyze_password Real.log pw common).entropy_bits
      ∧ 0 ≤ (analyze_password Real.log pw common).shannon_bits := by
  by_cases hne : pw = []
  · subst hne
    rw [analyze_nil]
    exact ⟨le_refl _, le_refl _⟩
  · by_cases hmem : tolow pw ∈ common
    · rw [analyze_common Real.log pw common hne hmem]
      exact ⟨pool_bits_nonneg pw, shannon_nonneg pw⟩
    · rw [analyze_normal Real.log pw common hne hmem]
      exact ⟨pool_bits_nonneg pw, shannon_nonneg pw⟩

/-! ## The Shannon estimate of a string shorter than `2^31` -/

theorem filter_count_pos (s : List Byte) :
    Finset.filter (fun c : Byte => 0 < s.count c) Finset.univ = s.toFinset := by
  ext c
  simp [List.count_pos_iff]

theorem shannon_entropy_of_short (s : List Byte) (hlen : s.length < 2147483648) :
    shannon_entropy Real.log s
      = (s.length : ℝ) * ∑ c in s.toFinset,
          -(((s.count c : ℝ) / (s.length : ℝ))
            * Real.logb 2 ((s.count c : ℝ) / (s.length : ℝ))) := by
  by_cases hne : s = []
  · subst hne
    simp [shannon_entropy]
  · rw [shannon_entropy_eq_sum Real.log s hne, ← filter_count_pos, Finset.sum_filter,
      mul_comm, ← Finset.sum_neg_distrib]
    congr 1
    apply Finset.sum_congr rfl
    intro c _
    rw [freqTable_of_short s c hlen]
    unfold log2_double
    rw [Real.log_div_log]
    by_cases hc : 0 < s.count c
    · have hc2 : (0 : Int) < (s.count c : Int) := by exact_mod_cast hc
      rw [if_pos hc, if_pos hc2]
      push_cast
      rfl
    · have hc2 : ¬ ((0 : Int) < (s.count c : Int)) := by exact_mod_cast hc
      rw [if_neg hc, if_neg hc2, neg_zero]

theorem shannon_entropy_replicate (n : Nat) (c : Byte) (hn : n < 2147483648) :
    shannon_entropy Real.log (List.replicate n c) = 0 := by
  rw [shannon_entropy_of_short _ (by rw [List.length_replicate]; exact hn)]
  apply mul_eq_zero_of_right
  apply Finset.sum_eq_zero
  intro x hx
  have hxc : x = c := List.eq_of_mem_replicate (List.mem_toFinset.mp hx)
  have hn0 : n ≠ 0 := by
    intro h0
    rw [h0] at hx
    simp at hx
  subst hxc
  rw [List.count_replicate_self, List.length_replicate]
  have : (n : ℝ) ≠ 0 := by exact_mod_cast hn0
  rw [div_self this, Real.logb_one]
  simp

/-! ## Claim C11: the Shannon estimate when a counter overflows -/

theorem shannon_entropy_long (t : List Byte) (ht : t.length = 2147483648)
    (ha : ∀ x ∈ t, x = 97) :
    freqTable (t ++ [98]) 97 = -2147483648
      ∧ shannon_entropy Real.log (t ++ [98])
        < ((t ++ [98]).length : ℝ) * ∑ c in (t ++ [98]).toFinset,
            -((((t ++ [98]).count c : ℝ) / ((t ++ [98]).length : ℝ))
              * Real.logb 2 (((t ++ [98]).count c : ℝ) / ((t ++ [98]).length : ℝ))) := by
  have hlen : (t ++ [98]).length = 2147483649 := by
    rw [List.length_append, ht]
    rfl
  have h98 : (98 : Byte) ∉ t := fun h => absurd (ha 98 h) (by decide)
  have hc97 : (t ++ [98]).count 97 = 2147483648 := by
    rw [List.count_append, List.count_eq_length.mpr (fun b hb => (ha b hb).symm), ht]
    rfl
  have hc98 : (t ++ [98]).count 98 = 1 := by
    rw [List.count_append, List.count_eq_zero.mpr h98]
    rfl
  have hc0 : ∀ c : Byte, c ≠ 97 → c ≠ 98 → (t ++ [98]).count c = 0 := by
    intro c h1 h2
    rw [List.count_eq_zero]
    intro hc
    rcases List.mem_append.mp hc with hc | hc
    · exact h1 (ha c hc)
    · exact h2 (List.mem_singleton.mp hc)
  have hf97 : freqTable (t ++ [98]) 97 = -2147483648 := by
    rw [freqTable_eq, hc97]
    decide
  have hf98 : freqTable (t ++ [98]) 98 = 1 := by
    rw [freqTable_eq, hc98]
    decide
  have hf0 : ∀ c : Byte, c ≠ 98 → ¬ (0 < freqTable (t ++ [98]) c) := by
    intro c h2
    by_cases h1 : c = 97
    · rw [h1, hf97]
      decide
    · rw [freqTable_eq, hc0 c h1 h2]
      decide
  have hfin : (t ++ [98]).toFinset = {97, 98} := by
    ext c
    simp only [List.mem_toFinset, List.mem_append, List.mem_singleton, Finset.mem_insert,
      Finset.mem_singleton]
    constructor
    · rintro (h | h)
      · exact Or.inl (ha c h)
      · exact Or.inr h
    · rintro (h | h)
      · left
        rw [h]
        cases t with
        | nil => simp at ht
        | cons x t => rw [ha x (List.mem_cons_self _ _)]; exact List.mem_cons_self _ _
      · exact Or.inr h
  refine ⟨hf97, ?_⟩
  have hne : t ++ [98] ≠ [] := by simp
  rw [shannon_entropy_eq_sum Real.log _ hne, hfin, Finset.sum_pair (by decide),
    Finset.sum_eq_single (98 : Byte) (fun c _ hc => if_neg (hf0 c hc))
      (fun h => absurd (Finset.mem_univ _) h),
    if_pos (by rw [hf98]; decide), hf98, hlen, hc97, hc98]
  unfold log2_double
  rw [Real.log_div_log]
  have hlt : Real.logb 2 (((2147483648 : Nat) : ℝ) / ((2147483649 : Nat) : ℝ)) < 0 := by
    apply Real.logb_neg (by norm_num)
    · norm_num
    · norm_num
  push_cast at hlt ⊢
  generalize Real.logb 2 (2147483648 / 2147483649) = a at hlt ⊢
  generalize Real.logb 2 (1 / 2147483649) = b
  have e1 : -(1 / 2147483649 * b) * 2147483649 = -b := by ring
  have e2 : (2147483649 : ℝ) * (-(2147483648 / 2147483649 * a) + -(1 / 2147483649 * b))
      = -2147483648 * a - b := by ring
  rw [e1, e2]
  linarith

/-- Claim C11, at the string of `2^31` bytes 'a' followed by one 'b': the `int`
counter of 'a' has wrapped to `-2^31`, the term of 'a' is left out, and the
result is below the length times the sum of `-p * log2 p` over the bytes
present; on "aaaa" and on the empty string the result is 0. -/
theorem shannon_entropy_misses_long_string :
    freqTable (List.replicate 2147483648 (97 : Byte) ++ [98]) 97 = -2147483648
      ∧ shannon_entropy Real.log (List.replicate 2147483648 (97 : Byte) ++ [98])
        < ((List.replicate 2147483648 (97 : Byte) ++ [98]).length : ℝ)
          * ∑ c in (List.replicate 2147483648 (97 : Byte) ++ [98]).toFinset,
            -((((List.replicate 2147483648 (97 : Byte) ++ [98]).count c : ℝ)
                / ((List.replicate 2147483648 (97 : Byte) ++ [98]).length : ℝ))
              * Real.logb 2 (((List.replicate 2147483648 (97 : Byte) ++ [98]).count c : ℝ)
                / ((List.replicate 2147483648 (97 : Byte) ++ [98]).length : ℝ)))
      ∧ shannon_entropy Real.log (bytesOf "aaaa") = 0
      ∧ shannon_entropy Real.log ([] : List Byte) = 0 :=
  ⟨(shannon_entropy_long (List.replicate 2147483648 97) (List.length_replicate _ _)
      (fun _ hx => List.eq_of_mem_replicate hx)).1,
   (shannon_entropy_long (List.replicate 2147483648 97) (List.length_replicate _ _)
      (fun _ hx => List.eq_of_mem_replicate hx)).2,
   (by decide : List.replicate 4 (97 : Byte) = bytesOf "aaaa") ▸
     shannon_entropy_replicate 4 97 (by decide),
   by simp [shannon_entropy]⟩

/-! ## Bounds on the base-2 logarithm of the pool -/

theorem log2_le_of_pow_le (x : ℝ) (p q : Nat) (hx : 0 < x) (hq : 0 < q)
    (h : x ^ q ≤ 2 ^ p) : log2_double Real.log x ≤ (p : ℝ) / (q : ℝ) := by
  unfold log2_double
  have h2 : 0 < Real.log 2 := Real.log_pos (by norm_num)
  have hq' : (0 : ℝ) < (q : ℝ) := by exact_mod_cast hq
  have hl : Real.log (x ^ q) ≤ Real.log (2 ^ p) := Real.log_le_log (pow_pos hx q) h
  rw [Real.log_pow, Real.log_pow] at hl
  rw [div_le_div_iff₀ h2 hq']
  linarith

theorem le_log2_of_pow_le (x : ℝ) (p q : Nat) (hq : 0 < q)
    (h : 2 ^ p ≤ x ^ q) : (p : ℝ) / (q : ℝ) ≤ log2_double Real.log x := by
  unfold log2_double
  have h2 : 0 < Real.log 2 := Real.log_pos (by norm_num)
  have hq' : (0 : ℝ) < (q : ℝ) := by exact_mod_cast hq
  have hl : Real.log (2 ^ p) ≤ Real.log (x ^ q) := Real.log_le_log (by positivity) h
  rw [Real.log_pow, Real.log_pow] at hl
  rw [div_le_div_iff₀ hq' h2]
  linarith

theorem log2_pool_le (s : List Byte) :
    log2_double Real.log ((poolSize s : Int) : ℝ) ≤ 105 / 16 := by
  obtain ⟨h1, h2⟩ := poolSize_bounds s
  have hx : (0 : ℝ) < ((poolSize s : Int) : ℝ) := by exact_mod_cast (by omega : 0 < poolSize s)
  have hle : ((poolSize s : Int) : ℝ) ≤ 94 := by exact_mod_cast h2
  have := log2_le_of_pow_le ((poolSize s : Int) : ℝ) 105 16 hx (by decide)
    ((pow_le_pow_left₀ hx.le hle 16).trans (by norm_num))
  simpa using this

section Field
variable {F : Type} [LinearOrderedField F] [FloorRing F]

theorem cround_zero_of_nonpos (x : F) (h : x ≤ 0) : cround (clamp100 x) = 0 := by
  have : clamp100 x = 0 := by
    unfold clamp100
    exact max_eq_left ((min_le_right _ _).trans h)
  rw [this]
  unfold cround
  rw [if_pos (le_refl _)]
  rw [Int.floor_eq_iff]
  constructor <;> norm_num

theorem cround_le_of_lt (x : F) (b : Int) (h0 : 0 ≤ x) (h1 : x < (b : F) + 1 / 2) :
    cround x ≤ b := by
  unfold cround
  rw [if_pos h0]
  have : ⌊x + 1 / 2⌋ < b + 1 := by
    rw [Int.floor_lt]; push_cast; linarith
  omega

theorem le_cround_of_le (x : F) (b : Int) (h0 : 0 ≤ x) (h1 : (b : F) - 1 / 2 ≤ x) :
    b ≤ cround x := by
  unfold cround
  rw [if_pos h0]
  rw [Int.le_floor]
  linarith

theorem prePenalty_le_base (pool_bits : F) (size : Nat) (h : size ≤ 8) :
    prePenalty pool_bits size ≤ pool_bits / 60 * 80 := by
  rw [prePenalty_eq, if_neg (by omega), add_zero]
  exact (min_le_right _ _).trans (min_le_right _ _)

theorem short_le_specPenalty (pw : List Byte) (h : pw.length < 8) :
    6 * (8 - (pw.length : F)) ≤ specPenalty pw := by
  unfold specPenalty
  have hb : ∀ b : Bool, (0 : F) ≤ bracket b := by
    intro b; cases b <;> simp [bracket]
  have h1 := hb (has_sequence pw 4)
  have h2 := hb (has_repeated_chars pw 4)
  have h3 := hb (commonSubs.any (fun sub => contains_case_insensitive pw (bytesOf sub)))
  have h4 := hb (decide (classesPresent pw ≤ 1))
  rw [if_pos h]
  linarith

end Field

/-! ## Claims C18 and C19: short passwords -/

theorem raw_le_of_short (pw : List Byte) (h : pw.length < 8) :
    prePenalty (pool_based_entropy_bits Real.log pw) pw.length - specPenalty pw
      ≤ 59 / 4 * (pw.length : ℝ) - 48 := by
  have h1 := prePenalty_le_base (pool_based_entropy_bits Real.log pw) pw.length (by omega)
  have h2 : 6 * (8 - (pw.length : ℝ)) ≤ specPenalty pw := short_le_specPenalty pw h
  have h3 : pool_based_entropy_bits Real.log pw ≤ 105 / 16 * (pw.length : ℝ) := by
    unfold pool_based_entropy_bits
    exact mul_le_mul_of_nonneg_right (log2_pool_le pw) (Nat.cast_nonneg _)
  linarith

/-- Claim C18: over the reals, the one-character password "a" scores 0 with the
empty common-password set and 5 with the set holding "a"; so there are a
non-empty password and a set containing its lowercased form for which the
score with the set is above the score with the empty set. -/
theorem common_list_can_raise_score :
    (analyze_password Real.log (bytesOf "a") ∅).score = 0
      ∧ (analyze_password Real.log (bytesOf "a") {bytesOf "a"}).score = 5
      ∧ ∃ (pw : List Byte) (common : Finset (List Byte)), pw ≠ [] ∧ tolow pw ∈ common
          ∧ (analyze_password Real.log pw ∅).score
              < (analyze_password Real.log pw common).score := by
  have h0 : (analyze_password Real.log (bytesOf "a") ∅).score = 0 := by
    rw [analyze_normal Real.log (bytesOf "a") ∅ (by decide) (by simp)]
    dsimp only
    apply cround_zero_of_nonpos
    have h := raw_le_of_short (bytesOf "a") (by decide)
    have hl : ((bytesOf "a").length : ℝ) = 1 := by
      have : (bytesOf "a").length = 1 := by decide
      rw [this]; norm_num
    rw [hl] at h
    linarith
  have h5 : (analyze_password Real.log (bytesOf "a") {bytesOf "a"}).score = 5 := by
    rw [analyze_common Real.log (bytesOf "a") {bytesOf "a"} (by decide) (by decide)]
  refine ⟨h0, h5, bytesOf "a", {bytesOf "a"}, by decide, by decide, ?_⟩
  rw [h0, h5]
  decide

/-- Claim C19: over the reals, for every password shorter than 8 and every
common-password set the score is at most 55; the seven-character password
"aB3$xYz", with all four classes and no other penalty, scores 55. -/
theorem short_password_score_le_55 (pw : List Byte) (common : Finset (List Byte))
    (hlen : pw.length < 8) :
    (analyze_password Real.log pw common).score ≤ 55
      ∧ (analyze_password Real.log (bytesOf "aB3$xYz") ∅).score = 55 := by
  constructor
  · by_cases hne : pw = []
    · subst hne
      rw [analyze_nil]
      show (0 : Int) ≤ 55
      decide
    · by_cases hmem : tolow pw ∈ common
      · rw [analyze_common Real.log pw common hne hmem]
        show (5 : Int) ≤ 55
        decide
      · rw [analyze_normal Real.log pw common hne hmem]
        dsimp only
        have h := raw_le_of_short pw hlen
        have hl : (pw.length : ℝ) ≤ 7 := by exact_mod_cast (by omega : pw.length ≤ 7)
        have hc : clamp100 (prePenalty (pool_based_entropy_bits Real.log pw) pw.length
            - specPenalty pw) ≤ 221 / 4 := clamp100_le _ _ (by norm_num) (by linarith)
        exact cround_le_of_lt _ 55 (clamp100_bounds _).1 (by push_cast; linarith)
  · rw [analyze_normal Real.log (bytesOf "aB3$xYz") ∅ (by decide) (by simp)]
    dsimp only
    have hpool : poolSize (bytesOf "aB3$xYz") = 94 := by decide
    have hlen7 : (bytesOf "aB3$xYz").length = 7 := by decide
    have hup := log2_pool_le (bytesOf "aB3$xYz")
    have hlo := le_log2_of_pow_le ((poolSize (bytesOf "aB3$xYz") : Int) : ℝ) 13 2 (by decide)
      (by rw [hpool]; norm_num)
    have hpen : specPenalty (bytesOf "aB3$xYz") = (6 : ℝ) := by
      unfold specPenalty
      have e1 : has_sequence (bytesOf "aB3$xYz") 4 = false := by decide
      have e2 : has_repeated_chars (bytesOf "aB3$xYz") 4 = false := by decide
      have e3 : commonSubs.any
          (fun sub => contains_case_insensitive (bytesOf "aB3$xYz") (bytesOf sub)) = false := by
        decide
      have e4 : decide (classesPresent (bytesOf "aB3$xYz") ≤ 1) = false := by decide
      rw [e1, e2, e3, e4, hlen7]
      simp only [bracket]
      norm_num
    have hbits : pool_based_entropy_bits Real.log (bytesOf "aB3$xYz")
        = log2_double Real.log ((poolSize (bytesOf "aB3$xYz") : Int) : ℝ) * 7 := by
      unfold pool_based_entropy_bits
      rw [hlen7]
      norm_num
    rw [hpen, prePenalty_eq, hbits, hlen7, if_neg (by decide), add_zero]
    generalize log2_double Real.log ((poolSize (bytesOf "aB3$xYz") : Int) : ℝ) = L at hup hlo
    have hlo' : (13 : ℝ) / 2 ≤ L := by simpa using hlo
    have hm1 : min (80 : ℝ) (L * 7 / 60 * 80) = L * 7 / 60 * 80 :=
      min_eq_right (by linarith)
    have hm2 : min (95 : ℝ) (L * 7 / 60 * 80) = L * 7 / 60 * 80 :=
      min_eq_right (by linarith)
    rw [hm1, hm2]
    have hx0 : (0 : ℝ) ≤ L * 7 / 60 * 80 - 6 := by linarith
    have hcl : clamp100 (L * 7 / 60 * 80 - 6) = L * 7 / 60 * 80 - 6 := by
      unfold clamp100
      rw [min_eq_right (by linarith), max_eq_right hx0]
    rw [hcl]
    apply le_antisymm
    · exact cround_le_of_lt _ 55 hx0 (by push_cast; linarith)
    · exact le_cround_of_le _ 55 hx0 (by push_cast; linarith)

/-- The hypothesis of claim C19 holds of the password "abc12" and the empty
set. -/
theorem short_password_score_le_55_witness :
    (bytesOf "abc12").length < 8
      ∧ (analyze_password Real.log (bytesOf "abc12") ∅).score ≤ 55 :=
  ⟨by decide, (short_password_score_le_55 (bytesOf "abc12") ∅ (by decide)).1⟩

/-! ## The sequence reason and the substring "12345" -/

theorem reasonSequence_ne_substring :
    ∀ sub ∈ commonSubs, reasonSequence ≠ reasonSubstring sub := by
  decide

theorem mem_specTriggered_sequence (pw : List Byte) :
    reasonSequence ∈ specTriggered pw ↔ has_sequence pw 4 = true := by
  constructor
  · intro h
    unfold specTriggered at h
    simp only [List.mem_append] at h
    rcases h with (((h | h) | h) | h) | h
    · split_ifs at h with hs
      · exact hs
      · simp at h
    · split_ifs at h
      · exact absurd (List.mem_singleton.mp h) (by decide)
      · simp at h
    · obtain ⟨sub, hs, he⟩ := mem_specSubstringReason pw _ h
      exact absurd he (reasonSequence_ne_substring sub hs)
    · split_ifs at h
      · exact absurd (List.mem_singleton.mp h) (by decide)
      · exact absurd (List.mem_singleton.mp h) (by decide)
      · simp at h
    · split_ifs at h
      · exact absurd (List.mem_singleton.mp h) (by decide)
      · simp at h
  · intro h
    unfold specTriggered
    rw [if_pos h]
    exact List.mem_append_left _ (List.mem_append_left _ (List.mem_append_left _
      (List.mem_append_left _ (List.mem_singleton.mpr rfl))))

theorem mem_final_sequence (T : List String) :
    reasonSequence ∈ (if T = [] then [reasonNone] else T) ↔ reasonSequence ∈ T := by
  by_cases h : T = []
  · rw [if_pos h, h]
    simp only [List.mem_singleton, List.not_mem_nil, iff_false]
    decide
  · rw [if_neg h]

theorem commonSubs_split_12345 :
    commonSubs = ["password", "qwerty", "admin", "welcome"]
      ++ "12345" :: ["iloveyou", "123456789"] := by
  decide

theorem mem_of_occurs (b a : List Byte) (h : Occurs b a) : ∀ x ∈ b, x ∈ a := by
  obtain ⟨pre, post, h⟩ := h
  intro x hx
  rw [h]
  exact List.mem_append_left _ (List.mem_append_right _ hx)

theorem find_12345_long (t : List Byte) (hz : ∀ x ∈ t, x = 0) :
    commonSubs.find?
        (fun sub => contains_case_insensitive (49 :: 50 :: 51 :: 52 :: 53 :: t) (bytesOf sub))
      = some "12345" := by
  have hnd : (["password", "qwerty", "admin", "welcome"]
      ++ "12345" :: ["iloveyou", "123456789"]).Nodup := commonSubs_split_12345 ▸ commonSubs_nodup
  have hsplit := find?_eq_some_of_split
    (fun sub => contains_case_insensitive (49 :: 50 :: 51 :: 52 :: 53 :: t) (bytesOf sub))
    _ _ _ hnd
  rw [← commonSubs_split_12345] at hsplit
  rw [hsplit]
  have hlow : tolow (49 :: 50 :: 51 :: 52 :: 53 :: t) = [49, 50, 51, 52, 53] ++ tolow t := by
    rfl
  have hmem : ∀ y ∈ tolow (49 :: 50 :: 51 :: 52 :: 53 :: t),
      y ∈ ([49, 50, 51, 52, 53] : List Byte) ∨ y = 0 := by
    intro y hy
    rw [hlow] at hy
    refine (List.mem_append.mp hy).imp id (fun h => ?_)
    unfold tolow at h
    obtain ⟨x, hx, he⟩ := List.mem_map.mp h
    rw [hz x hx] at he
    rw [← he]
    decide
  have hno : ∀ (sub : String) (c : Byte), sub ∈ commonSubs → c ∈ bytesOf sub →
      (c ∉ ([49, 50, 51, 52, 53] : List Byte) ∧ c ≠ 0) →
      contains_case_insensitive (49 :: 50 :: 51 :: 52 :: 53 :: t) (bytesOf sub) = false := by
    intro sub c hs hc hne
    cases hcon : contains_case_insensitive (49 :: 50 :: 51 :: 52 :: 53 :: t) (bytesOf sub) with
    | false => rfl
    | true =>
      have ho := (contains_iff_occurs _ sub hs).mp hcon
      exact ((hmem c (mem_of_occurs _ _ ho c hc)).elim hne.1 hne.2).elim
  constructor
  · rw [contains_iff_occurs _ "12345" (by decide), hlow]
    exact ⟨[], tolow t, rfl⟩
  · intro sub hs
    simp only [List.mem_cons, List.mem_singleton, List.not_mem_nil, or_false] at hs
    rcases hs with rfl | rfl | rfl | rfl
    · exact hno "password" 112 (by decide) (by decide) (by decide)
    · exact hno "qwerty" 113 (by decide) (by decide) (by decide)
    · exact hno "admin" 97 (by decide) (by decide) (by decide)
    · exact hno "welcome" 119 (by decide) (by decide) (by decide)

section Field
variable {F : Type} [LinearOrderedField F] [FloorRing F]

theorem reasons_12345_long (ln : F → F) (t : List Byte) (ht : t.length = 2147483643)
    (hz : ∀ x ∈ t, x = 0) :
    reasonSubstring "12345"
        ∈ (analyze_password ln (49 :: 50 :: 51 :: 52 :: 53 :: t) ∅).reasons
      ∧ reasonSequence
        ∉ (analyze_password ln (49 :: 50 :: 51 :: 52 :: 53 :: t) ∅).reasons := by
  have hseq : has_sequence (49 :: 50 :: 51 :: 52 :: 53 :: t) 4 = false := by
    unfold has_sequence
    rw [if_pos]
    simp only [List.length_cons, ht]
    decide
  rw [analyze_normal ln _ ∅ (List.cons_ne_nil _ _) (by simp)]
  dsimp only
  constructor
  · rw [mem_final_reasons _ "12345" (by decide),
      mem_specTriggered_substring _ "12345" (by decide)]
    exact find_12345_long t hz
  · rw [mem_final_sequence, mem_specTriggered_sequence, hseq]
    decide

end Field
/-! ## The sequence reason and "12345" on strings shorter than `2^31` -/

theorem tolower_eq_digit (c d : Byte) (h : tolower c = d) (hd : isdigit d = true) : c = d := by
  unfold tolower at h
  split_ifs at h with hu
  · exfalso
    unfold isupper at hu
    unfold isdigit at hd
    simp only [Bool.and_eq_true, decide_eq_true_eq] at hu hd
    have hv : d.val = (c.val + 32) % 256 := by
      rw [← h, Fin.val_add]
      rfl
    omega
  · exact h

theorem map_tolower_digits (m b : List Byte) (hb : ∀ d ∈ b, isdigit d = true)
    (h : m.map tolower = b) : m = b := by
  induction m generalizing b with
  | nil => simpa using h
  | cons c m ih =>
    cases b with
    | nil => simp at h
    | cons d b =>
      rw [List.map_cons, List.cons.injEq] at h
      rw [tolower_eq_digit c d h.1 (hb d (List.mem_cons_self _ _)),
        ih b (fun x hx => hb x (List.mem_cons_of_mem _ hx)) h.2]

theorem getD_after (p1 rest : List Byte) (j : Nat) :
    (p1 ++ rest).getD (p1.length + j) 0 = rest.getD j 0 := by
  rw [List.getD_append_right _ _ _ _ (by omega), Nat.add_sub_cancel_left]

theorem hasRun_of_occurs_12345 (pw : List Byte)
    (h : Occurs (bytesOf "12345") (tolow pw)) : HasRun pw 4 := by
  obtain ⟨pre, post, h⟩ := h
  unfold tolow at h
  obtain ⟨l1, l2, hpw, h1, _⟩ := List.map_eq_append_iff.mp h
  obtain ⟨p1, m, hl1, _, hm⟩ := List.map_eq_append_iff.mp h1
  have hm2 : m = bytesOf "12345" := map_tolower_digits m _ (by decide) hm
  have hb : bytesOf "12345" = [49, 50, 51, 52, 53] := by decide
  rw [hm2, hb] at hl1
  rw [hl1, List.append_assoc] at hpw
  refine ⟨p1.length, ?_, Or.inl ?_⟩
  · rw [hpw]
    simp only [List.length_append, List.length_cons]
    omega
  · intro j hj1 hj2
    have e : p1.length + j - 1 = p1.length + (j - 1) := by omega
    rw [e, hpw, getD_after, getD_after]
    have hj : j = 1 ∨ j = 2 ∨ j = 3 := by omega
    rcases hj with rfl | rfl | rfl <;> rfl

section Field
variable {F : Type} [LinearOrderedField F] [FloorRing F]

theorem sequence_reason_before_12345 (ln : F → F) (pw : List Byte)
    (common : Finset (List Byte)) (hlen : pw.length < 2147483648)
    (h : reasonSubstring "12345" ∈ (analyze_password ln pw common).reasons) :
    (∃ rest, (analyze_password ln pw common).reasons = reasonSequence :: rest
        ∧ reasonSubstring "12345" ∈ rest)
      ∧ (35 : F) ≤ specPenalty pw := by
  have hs : "12345" ∈ commonSubs := by decide
  by_cases hne : pw = []
  · subst hne
    rw [analyze_nil] at h
    exact absurd (List.mem_singleton.mp h) (by decide)
  by_cases hmem : tolow pw ∈ common
  · rw [analyze_common ln pw common hne hmem] at h
    exact absurd (List.mem_singleton.mp h) (by decide)
  rw [analyze_normal ln pw common hne hmem] at h ⊢
  dsimp only at h ⊢
  rw [mem_final_reasons _ _ hs] at h
  have hfind := (mem_specTriggered_substring pw _ hs).mp h
  have hcon : contains_case_insensitive pw (bytesOf "12345") = true := by
    simpa using List.find?_some hfind
  have hrun := hasRun_of_occurs_12345 pw ((contains_iff_occurs pw _ hs).mp hcon)
  have hseq : has_sequence pw 4 = true :=
    (has_sequence_iff_of_short pw 4 (by decide) hlen).mpr hrun
  have hT : specTriggered pw ≠ [] := fun e => by rw [e] at h; exact absurd h (List.not_mem_nil _)
  rw [if_neg hT]
  constructor
  · have hshape : ∃ rest, specTriggered pw = reasonSequence :: rest := by
      unfold specTriggered
      rw [if_pos hseq]
      exact ⟨_, by rw [List.append_assoc, List.append_assoc, List.append_assoc,
        List.singleton_append]⟩
    obtain ⟨rest, hrest⟩ := hshape
    refine ⟨rest, hrest, ?_⟩
    rw [hrest] at h
    rcases List.mem_cons.mp h with h | h
    · exact absurd h.symm (reasonSequence_ne_substring _ hs)
    · exact h
  · unfold specPenalty
    have hany : commonSubs.any (fun sub => contains_case_insensitive pw (bytesOf sub)) = true :=
      List.any_eq_true.mpr ⟨"12345", hs, hcon⟩
    have hb : ∀ b : Bool, (0 : F) ≤ bracket b := by
      intro b; cases b <;> simp [bracket]
    have h2 := hb (has_repeated_chars pw 4)
    have h4 := hb (decide (classesPresent pw ≤ 1))
    have h5 : (0 : F) ≤ (if pw.length < 8 then 6 * (8 - (pw.length : F)) else 0) := by
      split_ifs with hl
      · have : (pw.length : F) ≤ 8 := by exact_mod_cast hl.le
        linarith
      · exact le_refl 0
    have e1 : (bracket true : F) = 1 := by simp [bracket]
    rw [hseq, hany, e1]
    linarith

end Field

/-! ## Claim C17: "12345" without a sequence reason -/

/-- Claim C17, at the string "12345" followed by `2^31 - 5` zero bytes: the
result has the common-substring reason naming '12345' and no sequence reason,
because `has_sequence` returns false on a string of `2^31` bytes. -/
theorem substring_12345_without_sequence_reason :
    reasonSubstring "12345"
        ∈ (analyze_password Real.log
            (49 :: 50 :: 51 :: 52 :: 53 :: List.replicate 2147483643 (0 : Byte)) ∅).reasons
      ∧ reasonSequence
        ∉ (analyze_password Real.log
            (49 :: 50 :: 51 :: 52 :: 53 :: List.replicate 2147483643 (0 : Byte)) ∅).reasons :=
  reasons_12345_long Real.log (List.replicate 2147483643 (0 : Byte)) (List.length_replicate _ _)
    (fun _ hx => List.eq_of_mem_replicate hx)

/-! ## The checked loops never take the error branch -/

theorem readAt_of_lt (s : List Byte) (k : Nat) (h : k < s.length) :
    readAt s k = some (s.getD k 0) := by
  unfold readAt
  rw [List.getD_eq_getElem?_getD, List.getElem?_eq_getElem h]
  rfl

theorem foldlM_flags (s : List Byte) (i : Nat) (l : List Nat) (fl : Bool × Bool)
    (h1 : ∀ j ∈ l, 1 ≤ j ∧ i + j < s.length) :
    l.foldlM
      (fun (fl : Bool × Bool) (j : Nat) =>
        match readAt s (i + j), readAt s (i + j - 1) with
        | some cur, some prev =>
          some (if cur.val ≠ (prev.val + 1) % 256 then false else fl.1,
                if cur.val ≠ (prev.val + 255) % 256 then false else fl.2)
        | _, _ => none) fl
      = some (l.foldl
          (fun (fl : Bool × Bool) (j : Nat) =>
            let cur := (s.getD (i + j) 0).val
            let prev := (s.getD (i + j - 1) 0).val
            (if cur ≠ (prev + 1) % 256 then false else fl.1,
             if cur ≠ (prev + 255) % 256 then false else fl.2)) fl) := by
  induction l generalizing fl with
  | nil => rfl
  | cons j t ih =>
    have hj := h1 j (List.mem_cons_self _ _)
    rw [List.foldlM_cons, List.foldl_cons, readAt_of_lt s (i + j) hj.2,
      readAt_of_lt s (i + j - 1) (by omega)]
    exact ih _ (fun k hk => h1 k (List.mem_cons_of_mem _ hk))

theorem seqFlagsChecked_eq (s : List Byte) (i : Nat) (n : Int)
    (h : i + n.toNat ≤ s.length) :
    seqFlagsChecked s i n = some (seqFlags s i n) := by
  unfold seqFlagsChecked seqFlags
  apply foldlM_flags
  intro j hj
  rw [List.mem_range'_1] at hj
  omega

theorem seqScanChecked_eq (s : List Byte) (n : Int) (h0 : 1 ≤ n) (h1 : n < 2147483648)
    (hlen : s.length < 9223372036854775808) :
    ∀ fuel i, i ≤ s.length → s.length < i + fuel →
      seqScanChecked s n fuel i = some (seqScan s n fuel i) := by
  intro fuel
  induction fuel with
  | zero =>
    intro i hi hf
    omega
  | succ fuel ih =>
    intro i hi hf
    unfold seqScanChecked seqScan
    rw [toSize_of_nonneg n (by omega) h1, sizeAdd_of_lt _ _ (by omega)]
    by_cases hc : i + n.toNat ≤ s.length
    · rw [if_pos hc, if_pos hc, seqFlagsChecked_eq s i n hc]
      dsimp only
      by_cases hit : ((seqFlags s i n).1 || (seqFlags s i n).2) = true
      · rw [if_pos hit, if_pos hit]
      · rw [if_neg hit, if_neg hit]
        exact ih (i + 1) (by omega) (by omega)
    · rw [if_neg hc, if_neg hc]

theorem has_sequence_checked_eq (s : List Byte) (n : Int) (h0 : 1 ≤ n)
    (hlen : s.length < 9223372036854775808) :
    has_sequence_checked s n = some (has_sequence s n) := by
  unfold has_sequence_checked has_sequence
  by_cases hc : toInt32 s.length < n
  · rw [if_pos hc, if_pos hc]
  · have hn : n < 2147483648 := by
      unfold toInt32 at hc
      omega
    rw [if_neg hc, if_neg hc]
    exact seqScanChecked_eq s n h0 hn hlen _ _ (Nat.zero_le _) (by omega)

theorem runSameChecked_eq (str : List Byte) (i : Nat) (l : List Nat)
    (h1 : ∀ j ∈ l, 1 ≤ j ∧ i + j < str.length) :
    runSameChecked str i l
      = some (l.all (fun j => decide (str.getD (i + j) 0 = str.getD (i + j - 1) 0))) := by
  induction l with
  | nil => rfl
  | cons j t ih =>
    have hj := h1 j (List.mem_cons_self _ _)
    unfold runSameChecked
    rw [readAt_of_lt str (i + j) hj.2, readAt_of_lt str (i + j - 1) (by omega), List.all_cons]
    dsimp only
    by_cases he : str.getD (i + j) 0 = str.getD (i + j - 1) 0
    · rw [if_neg (not_not.mpr he), ih (fun k hk => h1 k (List.mem_cons_of_mem _ hk)),
        decide_eq_true he, Bool.true_and]
    · rw [if_pos he, decide_eq_false he, Bool.false_and]

theorem runScanChecked_eq (str : List Byte) (n : Int) (h0 : 1 ≤ n) (h1 : n < 2147483648)
    (hlen : str.length < 9223372036854775808) :
    ∀ fuel i, i ≤ str.length → str.length < i + fuel →
      runScanChecked str n fuel i = some (runScan str n fuel i) := by
  intro fuel
  induction fuel with
  | zero =>
    intro i hi hf
    omega
  | succ fuel ih =>
    intro i hi hf
    unfold runScanChecked runScan
    rw [toSize_of_nonneg n (by omega) h1, sizeAdd_of_lt _ _ (by omega)]
    by_cases hc : i + n.toNat ≤ str.length
    · have hs : runSameChecked str i (List.range' 1 (n - 1).toNat) = some (runSame str i n) := by
        unfold runSame
        apply runSameChecked_eq
        intro j hj
        rw [List.mem_range'_1] at hj
        omega
      rw [if_pos hc, if_pos hc, hs]
      dsimp only
      by_cases hit : runSame str i n = true
      · rw [if_pos hit, if_pos hit]
      · rw [if_neg hit, if_neg hit]
        exact ih (i + 1) (by omega) (by omega)
    · rw [if_neg hc, if_neg hc]

theorem has_repeated_chars_checked_eq (str : List Byte) (n : Int) (h0 : 1 ≤ n)
    (hlen : str.length < 9223372036854775808) :
    has_repeated_chars_checked str n = some (has_repeated_chars str n) := by
  unfold has_repeated_chars_checked has_repeated_chars
  by_cases hc : toInt32 str.length < n
  · rw [if_pos hc, if_pos hc]
  · have hn : n < 2147483648 := by
      unfold toInt32 at hc
      omega
    rw [if_neg hc, if_neg hc]
    exact runScanChecked_eq str n h0 hn hlen _ _ (Nat.zero_le _) (by omega)
theorem foldlM_freq (str : List Byte) (tbl : List Int) (h : tbl.length = 256) :
    ∃ out : List Int,
      str.foldlM
        (fun (freq : List Int) (c : Byte) =>
          if h : c.val < freq.length then some (freq.set c.val (toInt32 (freq[c.val] + 1)))
          else none) tbl = some out
      ∧ out.length = 256
      ∧ ∀ x : Byte, out.getD x.val 0
          = (str.foldl (fun freq c => Function.update freq c (toInt32 (freq c + 1)))
              (fun c => tbl.getD c.val 0)) x := by
  induction str generalizing tbl with
  | nil => exact ⟨tbl, rfl, h, fun _ => rfl⟩
  | cons c t ih =>
    have hc : c.val < tbl.length := by rw [h]; exact c.isLt
    have hlen : (tbl.set c.val (toInt32 (tbl[c.val] + 1))).length = 256 := by
      rw [List.length_set, h]
    obtain ⟨out, h1, h2, h3⟩ := ih (tbl.set c.val (toInt32 (tbl[c.val] + 1))) hlen
    refine ⟨out, ?_, h2, ?_⟩
    · rw [List.foldlM_cons, dif_pos hc]
      exact h1
    · intro x
      have hget : tbl.getD c.val 0 = tbl[c.val] := by
        rw [List.getD_eq_getElem?_getD, List.getElem?_eq_getElem hc]
        rfl
      have key : (fun y : Byte => (tbl.set c.val (toInt32 (tbl[c.val] + 1))).getD y.val 0)
          = Function.update (fun y : Byte => tbl.getD y.val 0) c
              (toInt32 ((fun y : Byte => tbl.getD y.val 0) c + 1)) := by
        funext y
        by_cases hy : y = c
        · subst hy
          rw [Function.update_same]
          dsimp only
          rw [hget, List.getD_eq_getElem?_getD, List.getElem?_set_self hc]
          rfl
        · have hv : c.val ≠ y.val := fun e => hy (Fin.ext e.symm)
          rw [Function.update_noteq hy, List.getD_eq_getElem?_getD,
            List.getD_eq_getElem?_getD, List.getElem?_set_ne hv]
      rw [h3 x, List.foldl_cons, key]

theorem freqTableChecked_eq (str : List Byte) :
    ∃ out : List Int, freqTableChecked str = some out ∧ out.length = 256
      ∧ ∀ x : Byte, out.getD x.val 0 = freqTable str x := by
  obtain ⟨out, h1, h2, h3⟩ := foldlM_freq str (List.replicate 256 0) (List.length_replicate _ _)
  refine ⟨out, h1, h2, ?_⟩
  intro x
  have key : (fun c : Byte => (List.replicate 256 (0 : Int)).getD c.val 0)
      = (fun _ : Byte => (0 : Int)) := by
    funext c
    rw [List.getD_eq_getElem?_getD, List.getElem?_replicate]
    split_ifs <;> rfl
  rw [h3 x, key]
  rfl

theorem shortPenaltyChecked_eq (size : Nat) :
    shortPenaltyChecked size = some (if size < 8 then shortPenalty size else 0) := by
  unfold shortPenaltyChecked sizeSubChecked shortPenalty
  by_cases h : size < 8
  · rw [if_pos h, if_pos h, if_pos (by omega)]
    rfl
  · rw [if_neg h, if_neg h]

section Field
variable {F : Type} [LinearOrderedField F] [FloorRing F]

theorem lengthBonusChecked_eq (size : Nat) :
    (lengthBonusChecked size : Option F)
      = some (min 15 (if size > 8 then ((size - 8 : Nat) : F) * (3 / 2) else 0)) := by
  unfold lengthBonusChecked sizeSubChecked
  by_cases h : size > 8
  · rw [if_pos h, if_pos h, if_pos (by omega)]
    rfl
  · rw [if_neg h, if_neg h]
    rfl

end Field

/-! ## Claim C15: no access out of range, no wrap-around -/

/-- Claim C15: for every string (shorter than `2^63`, as every `std::string`
is) and every window length of at least 1, the scans of `has_sequence` and
`has_repeated_chars` with checked reads end without an out-of-range read and
return what the unchecked scans return; the counting loop of `shannon_entropy`
never leaves its 256 entries; and the two `std::size_t` subtractions of
`analyze_password` are made only where they do not wrap around. -/
theorem core_never_errs (F : Type) [LinearOrderedField F] [FloorRing F]
    (s : List Byte) (n : Int) (size : Nat) (hn : 1 ≤ n)
    (hlen : s.length < 9223372036854775808) :
    has_sequence_checked s n = some (has_sequence s n)
      ∧ has_repeated_chars_checked s n = some (has_repeated_chars s n)
      ∧ (∃ out : List Int, freqTableChecked s = some out ∧ out.length = 256
          ∧ ∀ x : Byte, out.getD x.val 0 = freqTable s x)
      ∧ (lengthBonusChecked size : Option F)
          = some (min 15 (if size > 8 then ((size - 8 : Nat) : F) * (3 / 2) else 0))
      ∧ shortPenaltyChecked size = some (if size < 8 then shortPenalty size else 0) :=
  ⟨has_sequence_checked_eq s n hn hlen, has_repeated_chars_checked_eq s n hn hlen,
    freqTableChecked_eq s, lengthBonusChecked_eq size, shortPenaltyChecked_eq size⟩

/-- The hypotheses of claim C15 hold of the string "xx1234yy" and the window
length 4. -/
theorem core_never_errs_witness :
    (1 : Int) ≤ 4 ∧ (bytesOf "xx1234yy").length < 9223372036854775808
      ∧ has_sequence_checked (bytesOf "xx1234yy") 4 = some (has_sequence (bytesOf "xx1234yy") 4)
      ∧ has_repeated_chars_checked (bytesOf "xx1234yy") 4
          = some (has_repeated_chars (bytesOf "xx1234yy") 4) :=
  have h := core_never_errs ℚ (bytesOf "xx1234yy") 4 9 (by decide) (by decide)
  ⟨by decide, by decide, h.1, h.2.1⟩

/-! ## The number of distinct bytes and the pool -/

theorem card_le_of_range (s : Finset Byte) (lo hi : Nat)
    (hs : ∀ c ∈ s, lo ≤ c.val ∧ c.val ≤ hi) : s.card ≤ hi + 1 - lo := by
  have h := Finset.card_le_card_of_injOn (fun c : Byte => c.val)
    (fun c hc => Finset.mem_Icc.mpr (hs c (Finset.mem_coe.mp hc)))
    (fun a _ b _ hab => Fin.ext hab)
  rw [Nat.card_Icc] at h
  exact h

theorem card_filter_class (pw : List Byte) (P : Byte → Bool) (lo hi : Nat)
    (hP : ∀ c, P c = true → lo ≤ c.val ∧ c.val ≤ hi) :
    ((pw.toFinset.filter (fun c => P c = true)).card : Int)
      ≤ (if pw.any P then ((hi + 1 - lo : Nat) : Int) else 0) := by
  by_cases ha : pw.any P = true
  · rw [if_pos ha]
    have := card_le_of_range (pw.toFinset.filter (fun c => P c = true)) lo hi
      (fun c hc => hP c (Finset.mem_filter.mp hc).2)
    exact_mod_cast this
  · rw [if_neg ha]
    have hempty : pw.toFinset.filter (fun c => P c = true) = ∅ := by
      rw [Finset.filter_eq_empty_iff]
      intro c hc hPc
      exact ha (List.any_eq_true.mpr ⟨c, List.mem_toFinset.mp hc, hPc⟩)
    rw [hempty]
    rfl

theorem distinct_le_pool (pw : List Byte) (hne : pw ≠ [])
    (hal : ∀ c ∈ pw, isalnum c = true) : (pw.toFinset.card : Int) ≤ poolSize pw := by
  have hcover : pw.toFinset ⊆ pw.toFinset.filter (fun c => islower c = true)
      ∪ pw.toFinset.filter (fun c => isupper c = true)
      ∪ pw.toFinset.filter (fun c => isdigit c = true) := by
    intro c hc
    have h := hal c (List.mem_toFinset.mp hc)
    unfold isalnum at h
    simp only [Bool.or_eq_true] at h
    simp only [Finset.mem_union, Finset.mem_filter]
    rcases h with (h | h) | h
    · exact Or.inl (Or.inl ⟨hc, h⟩)
    · exact Or.inl (Or.inr ⟨hc, h⟩)
    · exact Or.inr ⟨hc, h⟩
  have hcard := (Finset.card_le_card hcover).trans
    ((Finset.card_union_le _ _).trans (Nat.add_le_add_right (Finset.card_union_le _ _) _))
  have hl := card_filter_class pw islower 97 122 (fun c h => by
    unfold islower at h; simpa using h)
  have hu := card_filter_class pw isupper 65 90 (fun c h => by
    unfold isupper at h; simpa using h)
  have hd := card_filter_class pw isdigit 48 57 (fun c h => by
    unfold isdigit at h; simpa using h)
  rw [poolSize_eq]
  unfold specPool
  rw [if_neg hne]
  have hsym : (0 : Int) ≤ (if pw.any (fun c => !(islower c || isupper c || isdigit c)) = true
      then 32 else 0) := by
    split_ifs <;> decide
  have hcard2 : (pw.toFinset.card : Int)
      ≤ ((pw.toFinset.filter (fun c => islower c = true)).card : Int)
        + ((pw.toFinset.filter (fun c => isupper c = true)).card : Int)
        + ((pw.toFinset.filter (fun c => isdigit c = true)).card : Int) := by
    exact_mod_cast hcard
  have e1 : ((122 + 1 - 97 : Nat) : Int) = 26 := by decide
  have e2 : ((90 + 1 - 65 : Nat) : Int) = 26 := by decide
  have e3 : ((57 + 1 - 48 : Nat) : Int) = 10 := by decide
  rw [e1] at hl
  rw [e2] at hu
  rw [e3] at hd
  linarith

theorem poolOf_ge_ten : ∀ a b c d : Bool, (a || b || c || d) = true → 10 ≤ poolOf a b c d := by
  decide

theorem poolSize_ge_ten (pw : List Byte) (hne : pw ≠ []) : 10 ≤ poolSize pw := by
  cases pw with
  | nil => exact absurd rfl hne
  | cons c t =>
    unfold poolSize poolScan
    obtain ⟨h1, h2, h3, h4⟩ := foldl_poolStep_flags (c :: t) ⟨false, false, false, false, 0⟩
    dsimp only
    rw [h1, h2, h3, h4]
    simp only [Bool.false_or]
    exact poolOf_ge_ten _ _ _ _ (some_class_present c t)

/-! ## The counters add up to at most the length -/

theorem sum_freq_le_length (pw : List Byte) :
    ∑ c in Finset.univ.filter (fun c : Byte => 0 < freqTable pw c),
        ((freqTable pw c : Int) : ℝ) ≤ (pw.length : ℝ) := by
  have hsub : Finset.univ.filter (fun c : Byte => 0 < freqTable pw c) ⊆ pw.toFinset := by
    intro c hc
    have hpos := (Finset.mem_filter.mp hc).2
    have := freqTable_le pw c hpos
    have hcnt : 0 < pw.count c := by omega
    exact List.mem_toFinset.mpr (List.count_pos_iff.mp hcnt)
  calc ∑ c in Finset.univ.filter (fun c : Byte => 0 < freqTable pw c),
          ((freqTable pw c : Int) : ℝ)
      ≤ ∑ c in Finset.univ.filter (fun c : Byte => 0 < freqTable pw c), (pw.count c : ℝ) := by
        apply Finset.sum_le_sum
        intro c hc
        have := freqTable_le pw c (Finset.mem_filter.mp hc).2
        exact_mod_cast this
    _ ≤ ∑ c in pw.toFinset, (pw.count c : ℝ) :=
        Finset.sum_le_sum_of_subset_of_nonneg hsub (fun _ _ _ => Nat.cast_nonneg _)
    _ = (pw.length : ℝ) := by
        rw [← Nat.cast_sum, List.sum_toFinset_count_eq_length]

theorem card_freq_le_pool (pw : List Byte) (hne : pw ≠ [])
    (hal : ∀ c ∈ pw, isalnum c = true) :
    (((Finset.univ.filter (fun c : Byte => 0 < freqTable pw c)).card : Nat) : ℝ)
      ≤ ((poolSize pw : Int) : ℝ) := by
  have hsub : Finset.univ.filter (fun c : Byte => 0 < freqTable pw c) ⊆ pw.toFinset := by
    intro c hc
    have hpos := (Finset.mem_filter.mp hc).2
    have := freqTable_le pw c hpos
    have hcnt : 0 < pw.count c := by omega
    exact List.mem_toFinset.mpr (List.count_pos_iff.mp hcnt)
  have h1 : ((Finset.univ.filter (fun c : Byte => 0 < freqTable pw c)).card : Int)
      ≤ (pw.toFinset.card : Int) := by exact_mod_cast Finset.card_le_card hsub
  have h2 := distinct_le_pool pw hne hal
  have h3 : ((Finset.univ.filter (fun c : Byte => 0 < freqTable pw c)).card : Int)
      ≤ poolSize pw := h1.trans h2
  exact_mod_cast h3

/-! ## The empirical estimate is below the pool estimate in exact arithmetic -/

theorem neg_mul_log_le (p K : ℝ) (hp : 0 < p) (hK : 0 < K) :
    p * -Real.log p ≤ p * (Real.log K - 1) + 1 / K := by
  have hKp : 0 < K * p := mul_pos hK hp
  have h1 := Real.log_le_sub_one_of_pos (inv_pos.mpr hKp)
  rw [Real.log_inv, Real.log_mul hK.ne' hp.ne'] at h1
  have h2 : -Real.log p ≤ Real.log K + (K * p)⁻¹ - 1 := by linarith
  have h3 : p * -Real.log p ≤ p * (Real.log K + (K * p)⁻¹ - 1) :=
    mul_le_mul_of_nonneg_left h2 hp.le
  have h4 : p * (Real.log K + (K * p)⁻¹ - 1) = p * (Real.log K - 1) + 1 / K := by
    field_simp
    ring
  linarith

theorem one_le_log_of_ten_le (K : ℝ) (hK : 10 ≤ K) : 1 ≤ Real.log K := by
  have he : Real.exp 1 ≤ K := by
    have := Real.exp_one_lt_d9
    linarith
  have := Real.log_le_log (Real.exp_pos 1) he
  rwa [Real.log_exp] at this

theorem shannon_sum_le_log_pool (pw : List Byte) (hne : pw ≠ [])
    (hal : ∀ c ∈ pw, isalnum c = true) :
    ∑ c in Finset.univ.filter (fun c : Byte => 0 < freqTable pw c),
        ((freqTable pw c : Int) : ℝ) / (pw.length : ℝ)
          * -Real.log (((freqTable pw c : Int) : ℝ) / (pw.length : ℝ))
      ≤ Real.log ((poolSize pw : Int) : ℝ) := by
  have hn : (0 : ℝ) < (pw.length : ℝ) := by
    have : 0 < pw.length := List.length_pos.mpr hne
    exact_mod_cast this
  have hK10 : (10 : ℝ) ≤ ((poolSize pw : Int) : ℝ) := by
    exact_mod_cast poolSize_ge_ten pw hne
  have hK : (0 : ℝ) < ((poolSize pw : Int) : ℝ) := by linarith
  have hlog := one_le_log_of_ten_le _ hK10
  have hterm : ∀ c ∈ Finset.univ.filter (fun c : Byte => 0 < freqTable pw c),
      ((freqTable pw c : Int) : ℝ) / (pw.length : ℝ)
          * -Real.log (((freqTable pw c : Int) : ℝ) / (pw.length : ℝ))
        ≤ ((freqTable pw c : Int) : ℝ) / (pw.length : ℝ)
            * (Real.log ((poolSize pw : Int) : ℝ) - 1) + 1 / ((poolSize pw : Int) : ℝ) := by
    intro c hc
    have hf : (0 : ℝ) < ((freqTable pw c : Int) : ℝ) := by
      exact_mod_cast (Finset.mem_filter.mp hc).2
    exact neg_mul_log_le _ _ (div_pos hf hn) hK
  have hsum := Finset.sum_le_sum hterm
  rw [Finset.sum_add_distrib, ← Finset.sum_mul, ← Finset.sum_div, Finset.sum_const,
    nsmul_eq_mul] at hsum
  have hS : (∑ c in Finset.univ.filter (fun c : Byte => 0 < freqTable pw c),
      ((freqTable pw c : Int) : ℝ)) / (pw.length : ℝ) ≤ 1 :=
    (div_le_one hn).mpr (sum_freq_le_length pw)
  have hA : (((Finset.univ.filter (fun c : Byte => 0 < freqTable pw c)).card : Nat) : ℝ)
      * (1 / ((poolSize pw : Int) : ℝ)) ≤ 1 := by
    rw [mul_one_div, div_le_one hK]
    exact card_freq_le_pool pw hne hal
  have hmul := mul_le_mul_of_nonneg_right hS (by linarith : 0 ≤ Real.log ((poolSize pw : Int) : ℝ) - 1)
  linarith

/-- The order of the two estimates in exact arithmetic: over the reals, for
every password made of ASCII letters and digits only, the Shannon estimate is
at most the pool-based estimate. -/
theorem shannon_le_pool_of_alnum (pw : List Byte) (hal : ∀ c ∈ pw, isalnum c = true) :
    shannon_entropy Real.log pw ≤ pool_based_entropy_bits Real.log pw := by
  by_cases hne : pw = []
  · subst hne
    have h0 : shannon_entropy Real.log ([] : List Byte) = 0 := by simp [shannon_entropy]
    rw [h0]
    exact pool_bits_nonneg []
  · rw [shannon_entropy_eq_sum Real.log pw hne]
    unfold pool_based_entropy_bits
    apply mul_le_mul_of_nonneg_right _ (Nat.cast_nonneg _)
    have h2 : 0 < Real.log 2 := Real.log_pos (by norm_num)
    have hmain := shannon_sum_le_log_pool pw hne hal
    rw [← Finset.sum_filter]
    unfold log2_double
    have hrew : -(∑ c in Finset.univ.filter (fun c : Byte => 0 < freqTable pw c),
          ((freqTable pw c : Int) : ℝ) / (pw.length : ℝ)
            * (Real.log (((freqTable pw c : Int) : ℝ) / (pw.length : ℝ)) / Real.log 2))
        = (∑ c in Finset.univ.filter (fun c : Byte => 0 < freqTable pw c),
            ((freqTable pw c : Int) : ℝ) / (pw.length : ℝ)
              * -Real.log (((freqTable pw c : Int) : ℝ) / (pw.length : ℝ))) / Real.log 2 := by
      rw [Finset.sum_div, ← Finset.sum_neg_distrib]
      apply Finset.sum_congr rfl
      intro c _
      ring
    rw [hrew]
    exact div_le_div_of_nonneg_right hmain h2.le

/-- The order in exact arithmetic at the password "Passw0rd", made of
letters and a digit. -/
theorem shannon_le_pool_of_alnum_witness :
    (∀ c ∈ bytesOf "Passw0rd", isalnum c = true)
      ∧ shannon_entropy Real.log (bytesOf "Passw0rd")
          ≤ pool_based_entropy_bits Real.log (bytesOf "Passw0rd") :=
  ⟨by decide, shannon_le_pool_of_alnum (bytesOf "Passw0rd") (by decide)⟩


/-! ## Rounding to the nearest double -/

theorem frac_pow_bounds (A B la lb : ℕ) (hA1 : 2 ^ la ≤ A) (hA2 : A < 2 ^ (la + 1))
    (hB1 : 2 ^ lb ≤ B) (hB2 : B < 2 ^ (lb + 1)) :
    (2 : ℚ) ^ ((la : ℤ) - (lb : ℤ) - 1) ≤ (A : ℚ) / (B : ℚ)
      ∧ (A : ℚ) / (B : ℚ) < (2 : ℚ) ^ ((la : ℤ) - (lb : ℤ) + 1) := by
  have qA1 : ((2 : ℚ) ^ la) ≤ (A : ℚ) := by exact_mod_cast hA1
  have qA2 : (A : ℚ) < (2 : ℚ) ^ (la + 1) := by exact_mod_cast hA2
  have qB1 : ((2 : ℚ) ^ lb) ≤ (B : ℚ) := by exact_mod_cast hB1
  have qB2 : (B : ℚ) < (2 : ℚ) ^ (lb + 1) := by exact_mod_cast hB2
  have hpa : (0 : ℚ) < (2 : ℚ) ^ la := by positivity
  have hpb : (0 : ℚ) < (2 : ℚ) ^ lb := by positivity
  have hB : (0 : ℚ) < (B : ℚ) := lt_of_lt_of_le hpb qB1
  have e1 : (2 : ℚ) ^ ((la : ℤ) - (lb : ℤ) - 1) = (2 : ℚ) ^ la / (2 : ℚ) ^ (lb + 1) := by
    have : (la : ℤ) - (lb : ℤ) - 1 = (la : ℤ) - ((lb + 1 : ℕ) : ℤ) := by push_cast; ring
    rw [this, zpow_sub₀ (by norm_num), zpow_natCast, zpow_natCast]
  have e2 : (2 : ℚ) ^ ((la : ℤ) - (lb : ℤ) + 1) = (2 : ℚ) ^ (la + 1) / (2 : ℚ) ^ lb := by
    have : (la : ℤ) - (lb : ℤ) + 1 = ((la + 1 : ℕ) : ℤ) - (lb : ℤ) := by push_cast; ring
    rw [this, zpow_sub₀ (by norm_num), zpow_natCast, zpow_natCast]
  rw [e1, e2]
  constructor
  · rw [div_le_div_iff₀ (by positivity) hB]
    calc (2 : ℚ) ^ la * (B : ℚ) ≤ (A : ℚ) * (B : ℚ) := mul_le_mul_of_nonneg_right qA1 hB.le
      _ ≤ (A : ℚ) * (2 : ℚ) ^ (lb + 1) :=
          mul_le_mul_of_nonneg_left qB2.le (le_trans hpa.le qA1)
  · rw [div_lt_div_iff₀ hB hpb]
    calc (A : ℚ) * (2 : ℚ) ^ lb < (2 : ℚ) ^ (la + 1) * (2 : ℚ) ^ lb :=
          mul_lt_mul_of_pos_right qA2 hpb
      _ ≤ (2 : ℚ) ^ (la + 1) * (B : ℚ) := mul_le_mul_of_nonneg_left qB1 (by positivity)

theorem ilog2_spec (y : ℚ) (hy : 0 < y) :
    (2 : ℚ) ^ ilog2 y ≤ y ∧ y < (2 : ℚ) ^ (ilog2 y + 1) := by
  have hnum : 0 < y.num := Rat.num_pos.mpr hy
  have ha0 : y.num.natAbs ≠ 0 := by omega
  have hyeq : (y.num.natAbs : ℚ) / (y.den : ℚ) = y := by
    have h1 : ((y.num.natAbs : ℤ) : ℚ) = (y.num : ℚ) := by
      rw [Int.natAbs_of_nonneg hnum.le]
    rw [← Int.cast_natCast, h1, Rat.num_div_den]
  obtain ⟨hlo, hup⟩ := frac_pow_bounds y.num.natAbs y.den y.num.natAbs.log2 y.den.log2
    (Nat.log2_self_le ha0) Nat.lt_log2_self (Nat.log2_self_le y.den_nz) Nat.lt_log2_self
  rw [hyeq] at hlo hup
  unfold ilog2
  dsimp only
  split_ifs with hc
  · exact ⟨hc, hup⟩
  · refine ⟨hlo, ?_⟩
    have e : (y.num.natAbs.log2 : ℤ) - (y.den.log2 : ℤ) - 1 + 1
        = (y.num.natAbs.log2 : ℤ) - (y.den.log2 : ℤ) := by ring
    rw [e]
    exact not_le.mp hc

theorem ilog2_eq (y : ℚ) (k : ℤ) (hy : 0 < y) (h1 : (2 : ℚ) ^ k ≤ y)
    (h2 : y < (2 : ℚ) ^ (k + 1)) : ilog2 y = k := by
  obtain ⟨s1, s2⟩ := ilog2_spec y hy
  have hmono : ∀ a b : ℤ, (2 : ℚ) ^ a < (2 : ℚ) ^ (b + 1) → a ≤ b := by
    intro a b h
    have := (zpow_lt_zpow_iff_right₀ (by norm_num : (1 : ℚ) < 2)).mp h
    omega
  have ha := hmono _ _ (lt_of_le_of_lt s1 h2)
  have hb := hmono _ _ (lt_of_le_of_lt h1 s2)
  omega

theorem roundEven_eq (m : ℚ) (n : ℤ) (h : |m - (n : ℚ)| < 1 / 2) : roundEven m = n := by
  obtain ⟨h1, h2⟩ := abs_lt.mp h
  have hf1 : ((⌊m⌋ : ℤ) : ℚ) ≤ m := Int.floor_le m
  have hf2 : m < ((⌊m⌋ : ℤ) : ℚ) + 1 := Int.lt_floor_add_one m
  unfold roundEven
  dsimp only
  split_ifs with c1 c2 c3
  · have a1 : ((⌊m⌋ : ℤ) : ℚ) < (n : ℚ) + 1 := by linarith
    have a2 : (n : ℚ) < ((⌊m⌋ : ℤ) : ℚ) + 1 := by linarith
    have b1 : ⌊m⌋ < n + 1 := by exact_mod_cast a1
    have b2 : n < ⌊m⌋ + 1 := by exact_mod_cast a2
    omega
  · have a1 : ((⌊m⌋ : ℤ) : ℚ) + 1 < (n : ℚ) + 1 := by linarith
    have a2 : (n : ℚ) < ((⌊m⌋ : ℤ) : ℚ) + 1 + 1 := by linarith
    have b1 : ⌊m⌋ + 1 < n + 1 := by exact_mod_cast a1
    have b2 : n < ⌊m⌋ + 1 + 1 := by exact_mod_cast a2
    omega
  all_goals
    exfalso
    have hr : m - ((⌊m⌋ : ℤ) : ℚ) = 1 / 2 := le_antisymm (not_lt.mp c2) (not_lt.mp c1)
    have a1 : 2 * ((⌊m⌋ : ℤ) : ℚ) < 2 * (n : ℚ) := by linarith
    have a2 : 2 * (n : ℚ) < 2 * ((⌊m⌋ : ℤ) : ℚ) + 2 := by linarith
    have b1 : 2 * ⌊m⌋ < 2 * n := by exact_mod_cast a1
    have b2 : 2 * n < 2 * ⌊m⌋ + 2 := by exact_mod_cast a2
    omega

theorem rn_eq (x : ℚ) (n k : ℤ) (hx : x ≠ 0) (h1 : (2 : ℚ) ^ k ≤ |x|)
    (h2 : |x| < (2 : ℚ) ^ (k + 1)) (h3 : |x / (2 : ℚ) ^ (k - 52) - (n : ℚ)| < 1 / 2) :
    rn x = (n : ℚ) * (2 : ℚ) ^ (k - 52) := by
  unfold rn
  rw [if_neg hx]
  dsimp only
  rw [ilog2_eq |x| k (abs_pos.mpr hx) h1 h2, roundEven_eq _ n h3]

theorem rn_cert_pos (x v : ℚ) (n k : ℤ) (h1 : (2 : ℚ) ^ k ≤ x) (h2 : x < (2 : ℚ) ^ (k + 1))
    (h3 : (n : ℚ) - 1 / 2 < x / (2 : ℚ) ^ (k - 52)) (h4 : x / (2 : ℚ) ^ (k - 52) < (n : ℚ) + 1 / 2)
    (hv : v = (n : ℚ) * (2 : ℚ) ^ (k - 52)) : rn x = v := by
  have hpos : 0 < x := lt_of_lt_of_le (by positivity) h1
  rw [hv]
  apply rn_eq x n k hpos.ne'
  · rwa [abs_of_pos hpos]
  · rwa [abs_of_pos hpos]
  · rw [abs_lt]
    constructor <;> linarith

theorem rn_cert_neg (x v : ℚ) (n k : ℤ) (h1 : (2 : ℚ) ^ k ≤ -x) (h2 : -x < (2 : ℚ) ^ (k + 1))
    (h3 : (n : ℚ) - 1 / 2 < x / (2 : ℚ) ^ (k - 52)) (h4 : x / (2 : ℚ) ^ (k - 52) < (n : ℚ) + 1 / 2)
    (hv : v = (n : ℚ) * (2 : ℚ) ^ (k - 52)) : rn x = v := by
  have hneg : x < 0 := by
    have : (0 : ℚ) < (2 : ℚ) ^ k := by positivity
    linarith
  rw [hv]
  apply rn_eq x n k hneg.ne
  · rwa [abs_of_neg hneg]
  · rwa [abs_of_neg hneg]
  · rw [abs_lt]
    constructor <;> linarith

theorem accumulate_52 :
    (fun H : ℚ => rn (H - (-7899230212451753 / 72057594037927936)))^[52] 0
      = (6418124547617053 / 1125899906842624) := by
  have s1 : rn (0 - (-7899230212451753 / 72057594037927936)) = (7899230212451753 / 72057594037927936) :=
    rn_cert_pos _ _ (7899230212451753) (-4) (by norm_num) (by norm_num) (by norm_num) (by norm_num) (by norm_num)
  have s2 : rn ((7899230212451753 / 72057594037927936) - (-7899230212451753 / 72057594037927936)) = (7899230212451753 / 36028797018963968) :=
    rn_cert_pos _ _ (7899230212451753) (-3) (by norm_num) (by norm_num) (by norm_num) (by norm_num) (by norm_num)
  have s3 : rn ((7899230212451753 / 36028797018963968) - (-7899230212451753 / 72057594037927936)) = (5924422659338815 / 18014398509481984) :=
    rn_cert_pos _ _ (5924422659338815) (-2) (by norm_num) (by norm_num) (by norm_num) (by norm_num) (by norm_num)
  have s4 : rn ((5924422659338815 / 18014398509481984) - (-7899230212451753 / 72057594037927936)) = (7899230212451753 / 18014398509481984) :=
    rn_cert_pos _ _ (7899230212451753) (-2) (by norm_num) (by norm_num) (by norm_num) (by norm_num) (by norm_num)
  have s5 : rn ((7899230212451753 / 18014398509481984) - (-7899230212451753 / 72057594037927936)) = (2468509441391173 / 4503599627370496) :=
    rn_cert_pos _ _ (4937018882782346) (-1) (by norm_num) (by norm_num) (by norm_num) (by norm_num) (by norm_num)
  have s6 : rn ((2468509441391173 / 4503599627370496) - (-7899230212451753 / 72057594037927936)) = (5924422659338815 / 9007199254740992) :=
    rn_cert_pos _ _ (5924422659338815) (-1) (by norm_num) (by norm_num) (by norm_num) (by norm_num) (by norm_num)
  have s7 : rn ((5924422659338815 / 9007199254740992) - (-7899230212451753 / 72057594037927936)) = (1727956608973821 / 2251799813685248) :=
    rn_cert_pos _ _ (6911826435895284) (-1) (by norm_num) (by norm_num) (by norm_num) (by norm_num) (by norm_num)
  have s8 : rn ((1727956608973821 / 2251799813685248) - (-7899230212451753 / 72057594037927936)) = (7899230212451753 / 9007199254740992) :=
    rn_cert_pos _ _ (7899230212451753) (-1) (by norm_num) (by norm_num) (by norm_num) (by norm_num) (by norm_num)
  have s9 : rn ((7899230212451753 / 9007199254740992) - (-7899230212451753 / 72057594037927936)) = (4443316994504111 / 4503599627370496) :=
    rn_cert_pos _ _ (8886633989008222) (-1) (by norm_num) (by norm_num) (by norm_num) (by norm_num) (by norm_num)
  have s10 : rn ((4443316994504111 / 4503599627370496) - (-7899230212451753 / 72057594037927936)) = (2468509441391173 / 2251799813685248) :=
    rn_cert_pos _ _ (4937018882782346) (0) (by norm_num) (by norm_num) (by norm_num) (by norm_num) (by norm_num)
  have s11 : rn ((2468509441391173 / 2251799813685248) - (-7899230212451753 / 72057594037927936)) = (5430720771060581 / 4503599627370496) :=
    rn_cert_pos _ _ (5430720771060581) (0) (by norm_num) (by norm_num) (by norm_num) (by norm_num) (by norm_num)
  have s12 : rn ((5430720771060581 / 4503599627370496) - (-7899230212451753 / 72057594037927936)) = (92569104052169 / 70368744177664) :=
    rn_cert_pos _ _ (5924422659338816) (0) (by norm_num) (by norm_num) (by norm_num) (by norm_num) (by norm_num)
  have s13 : rn ((92569104052169 / 70368744177664) - (-7899230212451753 / 72057594037927936)) = (6418124547617051 / 4503599627370496) :=
    rn_cert_pos _ _ (6418124547617051) (0) (by norm_num) (by norm_num) (by norm_num) (by norm_num) (by norm_num)
  have s14 : rn ((6418124547617051 / 4503599627370496) - (-7899230212451753 / 72057594037927936)) = (3455913217947643 / 2251799813685248) :=
    rn_cert_pos _ _ (6911826435895286) (0) (by norm_num) (by norm_num) (by norm_num) (by norm_num) (by norm_num)
  have s15 : rn ((3455913217947643 / 2251799813685248) - (-7899230212451753 / 72057594037927936)) = (7405528324173521 / 4503599627370496) :=
    rn_cert_pos _ _ (7405528324173521) (0) (by norm_num) (by norm_num) (by norm_num) (by norm_num) (by norm_num)
  have s16 : rn ((7405528324173521 / 4503599627370496) - (-7899230212451753 / 72057594037927936)) = (1974807553112939 / 1125899906842624) :=
    rn_cert_pos _ _ (7899230212451756) (0) (by norm_num) (by norm_num) (by norm_num) (by norm_num) (by norm_num)
  have s17 : rn ((1974807553112939 / 1125899906842624) - (-7899230212451753 / 72057594037927936)) = (8392932100729991 / 4503599627370496) :=
    rn_cert_pos _ _ (8392932100729991) (0) (by norm_num) (by norm_num) (by norm_num) (by norm_num) (by norm_num)
  have s18 : rn ((8392932100729991 / 4503599627370496) - (-7899230212451753 / 72057594037927936)) = (4443316994504113 / 2251799813685248) :=
    rn_cert_pos _ _ (8886633989008226) (0) (by norm_num) (by norm_num) (by norm_num) (by norm_num) (by norm_num)
  have s19 : rn ((4443316994504113 / 2251799813685248) - (-7899230212451753 / 72057594037927936)) = (2345083969321615 / 1125899906842624) :=
    rn_cert_pos _ _ (4690167938643230) (1) (by norm_num) (by norm_num) (by norm_num) (by norm_num) (by norm_num)
  have s20 : rn ((2345083969321615 / 1125899906842624) - (-7899230212451753 / 72057594037927936)) = (4937018882782347 / 2251799813685248) :=
    rn_cert_pos _ _ (4937018882782347) (1) (by norm_num) (by norm_num) (by norm_num) (by norm_num) (by norm_num)
  have s21 : rn ((4937018882782347 / 2251799813685248) - (-7899230212451753 / 72057594037927936)) = (647983728365183 / 281474976710656) :=
    rn_cert_pos _ _ (5183869826921464) (1) (by norm_num) (by norm_num) (by norm_num) (by norm_num) (by norm_num)
  have s22 : rn ((647983728365183 / 281474976710656) - (-7899230212451753 / 72057594037927936)) = (5430720771060581 / 2251799813685248) :=
    rn_cert_pos _ _ (5430720771060581) (1) (by norm_num) (by norm_num) (by norm_num) (by norm_num) (by norm_num)
  have s23 : rn ((5430720771060581 / 2251799813685248) - (-7899230212451753 / 72057594037927936)) = (2838785857599849 / 1125899906842624) :=
    rn_cert_pos _ _ (5677571715199698) (1) (by norm_num) (by norm_num) (by norm_num) (by norm_num) (by norm_num)
  have s24 : rn ((2838785857599849 / 1125899906842624) - (-7899230212451753 / 72057594037927936)) = (5924422659338815 / 2251799813685248) :=
    rn_cert_pos _ _ (5924422659338815) (1) (by norm_num) (by norm_num) (by norm_num) (by norm_num) (by norm_num)
  have s25 : rn ((5924422659338815 / 2251799813685248) - (-7899230212451753 / 72057594037927936)) = (1542818400869483 / 562949953421312) :=
    rn_cert_pos _ _ (6171273603477932) (1) (by norm_num) (by norm_num) (by norm_num) (by norm_num) (by norm_num)
  have s26 : rn ((1542818400869483 / 562949953421312) - (-7899230212451753 / 72057594037927936)) = (6418124547617049 / 2251799813685248) :=
    rn_cert_pos _ _ (6418124547617049) (1) (by norm_num) (by norm_num) (by norm_num) (by norm_num) (by norm_num)
  have s27 : rn ((6418124547617049 / 2251799813685248) - (-7899230212451753 / 72057594037927936)) = (3332487745878083 / 1125899906842624) :=
    rn_cert_pos _ _ (6664975491756166) (1) (by norm_num) (by norm_num) (by norm_num) (by norm_num) (by norm_num)
  have s28 : rn ((3332487745878083 / 1125899906842624) - (-7899230212451753 / 72057594037927936)) = (6911826435895283 / 2251799813685248) :=
    rn_cert_pos _ _ (6911826435895283) (1) (by norm_num) (by norm_num) (by norm_num) (by norm_num) (by norm_num)
  have s29 : rn ((6911826435895283 / 2251799813685248) - (-7899230212451753 / 72057594037927936)) = (223708668126075 / 70368744177664) :=
    rn_cert_pos _ _ (7158677380034400) (1) (by norm_num) (by norm_num) (by norm_num) (by norm_num) (by norm_num)
  have s30 : rn ((223708668126075 / 70368744177664) - (-7899230212451753 / 72057594037927936)) = (7405528324173517 / 2251799813685248) :=
    rn_cert_pos _ _ (7405528324173517) (1) (by norm_num) (by norm_num) (by norm_num) (by norm_num) (by norm_num)
  have s31 : rn ((7405528324173517 / 2251799813685248) - (-7899230212451753 / 72057594037927936)) = (3826189634156317 / 1125899906842624) :=
    rn_cert_pos _ _ (7652379268312634) (1) (by norm_num) (by norm_num) (by norm_num) (by norm_num) (by norm_num)
  have s32 : rn ((3826189634156317 / 1125899906842624) - (-7899230212451753 / 72057594037927936)) = (7899230212451751 / 2251799813685248) :=
    rn_cert_pos _ _ (7899230212451751) (1) (by norm_num) (by norm_num) (by norm_num) (by norm_num) (by norm_num)
  have s33 : rn ((7899230212451751 / 2251799813685248) - (-7899230212451753 / 72057594037927936)) = (2036520289147717 / 562949953421312) :=
    rn_cert_pos _ _ (8146081156590868) (1) (by norm_num) (by norm_num) (by norm_num) (by norm_num) (by norm_num)
  have s34 : rn ((2036520289147717 / 562949953421312) - (-7899230212451753 / 72057594037927936)) = (8392932100729985 / 2251799813685248) :=
    rn_cert_pos _ _ (8392932100729985) (1) (by norm_num) (by norm_num) (by norm_num) (by norm_num) (by norm_num)
  have s35 : rn ((8392932100729985 / 2251799813685248) - (-7899230212451753 / 72057594037927936)) = (4319891522434551 / 1125899906842624) :=
    rn_cert_pos _ _ (8639783044869102) (1) (by norm_num) (by norm_num) (by norm_num) (by norm_num) (by norm_num)
  have s36 : rn ((4319891522434551 / 1125899906842624) - (-7899230212451753 / 72057594037927936)) = (8886633989008219 / 2251799813685248) :=
    rn_cert_pos _ _ (8886633989008219) (1) (by norm_num) (by norm_num) (by norm_num) (by norm_num) (by norm_num)
  have s37 : rn ((8886633989008219 / 2251799813685248) - (-7899230212451753 / 72057594037927936)) = (1141685616643417 / 281474976710656) :=
    rn_cert_pos _ _ (4566742466573668) (2) (by norm_num) (by norm_num) (by norm_num) (by norm_num) (by norm_num)
  have s38 : rn ((1141685616643417 / 281474976710656) - (-7899230212451753 / 72057594037927936)) = (4690167938643227 / 1125899906842624) :=
    rn_cert_pos _ _ (4690167938643227) (2) (by norm_num) (by norm_num) (by norm_num) (by norm_num) (by norm_num)
  have s39 : rn ((4690167938643227 / 1125899906842624) - (-7899230212451753 / 72057594037927936)) = (2406796705356393 / 562949953421312) :=
    rn_cert_pos _ _ (4813593410712786) (2) (by norm_num) (by norm_num) (by norm_num) (by norm_num) (by norm_num)
  have s40 : rn ((2406796705356393 / 562949953421312) - (-7899230212451753 / 72057594037927936)) = (4937018882782345 / 1125899906842624) :=
    rn_cert_pos _ _ (4937018882782345) (2) (by norm_num) (by norm_num) (by norm_num) (by norm_num) (by norm_num)
  have s41 : rn ((4937018882782345 / 1125899906842624) - (-7899230212451753 / 72057594037927936)) = (79069443044561 / 17592186044416) :=
    rn_cert_pos _ _ (5060444354851904) (2) (by norm_num) (by norm_num) (by norm_num) (by norm_num) (by norm_num)
  have s42 : rn ((79069443044561 / 17592186044416) - (-7899230212451753 / 72057594037927936)) = (5183869826921463 / 1125899906842624) :=
    rn_cert_pos _ _ (5183869826921463) (2) (by norm_num) (by norm_num) (by norm_num) (by norm_num) (by norm_num)
  have s43 : rn ((5183869826921463 / 1125899906842624) - (-7899230212451753 / 72057594037927936)) = (2653647649495511 / 562949953421312) :=
    rn_cert_pos _ _ (5307295298991022) (2) (by norm_num) (by norm_num) (by norm_num) (by norm_num) (by norm_num)
  have s44 : rn ((2653647649495511 / 562949953421312) - (-7899230212451753 / 72057594037927936)) = (5430720771060581 / 1125899906842624) :=
    rn_cert_pos _ _ (5430720771060581) (2) (by norm_num) (by norm_num) (by norm_num) (by norm_num) (by norm_num)
  have s45 : rn ((5430720771060581 / 1125899906842624) - (-7899230212451753 / 72057594037927936)) = (1388536560782535 / 281474976710656) :=
    rn_cert_pos _ _ (5554146243130140) (2) (by norm_num) (by norm_num) (by norm_num) (by norm_num) (by norm_num)
  have s46 : rn ((1388536560782535 / 281474976710656) - (-7899230212451753 / 72057594037927936)) = (5677571715199699 / 1125899906842624) :=
    rn_cert_pos _ _ (5677571715199699) (2) (by norm_num) (by norm_num) (by norm_num) (by norm_num) (by norm_num)
  have s47 : rn ((5677571715199699 / 1125899906842624) - (-7899230212451753 / 72057594037927936)) = (2900498593634629 / 562949953421312) :=
    rn_cert_pos _ _ (5800997187269258) (2) (by norm_num) (by norm_num) (by norm_num) (by norm_num) (by norm_num)
  have s48 : rn ((2900498593634629 / 562949953421312) - (-7899230212451753 / 72057594037927936)) = (5924422659338817 / 1125899906842624) :=
    rn_cert_pos _ _ (5924422659338817) (2) (by norm_num) (by norm_num) (by norm_num) (by norm_num) (by norm_num)
  have s49 : rn ((5924422659338817 / 1125899906842624) - (-7899230212451753 / 72057594037927936)) = (755981016426047 / 140737488355328) :=
    rn_cert_pos _ _ (6047848131408376) (2) (by norm_num) (by norm_num) (by norm_num) (by norm_num) (by norm_num)
  have s50 : rn ((755981016426047 / 140737488355328) - (-7899230212451753 / 72057594037927936)) = (6171273603477935 / 1125899906842624) :=
    rn_cert_pos _ _ (6171273603477935) (2) (by norm_num) (by norm_num) (by norm_num) (by norm_num) (by norm_num)
  have s51 : rn ((6171273603477935 / 1125899906842624) - (-7899230212451753 / 72057594037927936)) = (3147349537773747 / 562949953421312) :=
    rn_cert_pos _ _ (6294699075547494) (2) (by norm_num) (by norm_num) (by norm_num) (by norm_num) (by norm_num)
  have s52 : rn ((3147349537773747 / 562949953421312) - (-7899230212451753 / 72057594037927936)) = (6418124547617053 / 1125899906842624) :=
    rn_cert_pos _ _ (6418124547617053) (2) (by norm_num) (by norm_num) (by norm_num) (by norm_num) (by norm_num)
  rw [Function.iterate_succ_apply, s1, Function.iterate_succ_apply, s2, Function.iterate_succ_apply, s3, Function.iterate_succ_apply, s4, Function.iterate_succ_apply, s5, Function.iterate_succ_apply, s6, Function.iterate_succ_apply, s7, Function.iterate_succ_apply, s8, Function.iterate_succ_apply, s9, Function.iterate_succ_apply, s10, Function.iterate_succ_apply, s11, Function.iterate_succ_apply, s12, Function.iterate_succ_apply, s13, Function.iterate_succ_apply, s14, Function.iterate_succ_apply, s15, Function.iterate_succ_apply, s16, Function.iterate_succ_apply, s17, Function.iterate_succ_apply, s18, Function.iterate_succ_apply, s19, Function.iterate_succ_apply, s20, Function.iterate_succ_apply, s21, Function.iterate_succ_apply, s22, Function.iterate_succ_apply, s23, Function.iterate_succ_apply, s24, Function.iterate_succ_apply, s25, Function.iterate_succ_apply, s26, Function.iterate_succ_apply, s27, Function.iterate_succ_apply, s28, Function.iterate_succ_apply, s29, Function.iterate_succ_apply, s30, Function.iterate_succ_apply, s31, Function.iterate_succ_apply, s32, Function.iterate_succ_apply, s33, Function.iterate_succ_apply, s34, Function.iterate_succ_apply, s35, Function.iterate_succ_apply, s36, Function.iterate_succ_apply, s37, Function.iterate_succ_apply, s38, Function.iterate_succ_apply, s39, Function.iterate_succ_apply, s40, Function.iterate_succ_apply, s41, Function.iterate_succ_apply, s42, Function.iterate_succ_apply, s43, Function.iterate_succ_apply, s44, Function.iterate_succ_apply, s45, Function.iterate_succ_apply, s46, Function.iterate_succ_apply, s47, Function.iterate_succ_apply, s48, Function.iterate_succ_apply, s49, Function.iterate_succ_apply, s50, Function.iterate_succ_apply, s51, Function.iterate_succ_apply, s52]
  rfl


/-! ## The password of the 52 letters in double precision -/

theorem foldl_uniform (l : List Byte) (f : Byte → Int) (F : Int → ℚ → ℚ)
    (h : ∀ c, 0 < f c → f c = 1) (init : ℚ) :
    l.foldl (fun H c => if f c > 0 then F (f c) H else H) init
      = (F 1)^[l.countP (fun c => decide (0 < f c))] init := by
  induction l generalizing init with
  | nil => rfl
  | cons c t ih =>
    rw [List.foldl_cons, ih]
    by_cases hc : 0 < f c
    · have e : List.countP (fun c => decide (0 < f c)) (c :: t)
          = List.countP (fun c => decide (0 < f c)) t + 1 := by
        rw [List.countP_cons]
        simp [hc]
      rw [if_pos hc, h c hc, e, Function.iterate_succ_apply]
    · have e : List.countP (fun c => decide (0 < f c)) (c :: t)
          = List.countP (fun c => decide (0 < f c)) t := by
        rw [List.countP_cons]
        simp [hc]
      rw [if_neg hc, e]

theorem letters52_nodup : letters52.Nodup := by
  decide

theorem freq_letters52 (c : Byte) :
    freqTable letters52 c = if c ∈ letters52 then 1 else 0 := by
  rw [freqTable_of_short letters52 c (by decide)]
  split_ifs with h
  · rw [List.count_eq_one_of_mem letters52_nodup h]
    rfl
  · rw [List.count_eq_zero_of_not_mem h]
    rfl

theorem count_letters52 :
    (List.finRange 256).countP (fun c => decide (0 < freqTable letters52 c)) = 52 := by
  have e : (fun c : Byte => decide (0 < freqTable letters52 c))
      = (fun c : Byte => decide (c ∈ letters52)) := by
    funext c
    rw [freq_letters52]
    split_ifs with h
    · simp [h]
    · simp [h]
  rw [e]
  decide

theorem logNearest_2 : logNearest 2 = (6243314768165359 / 9007199254740992) := by
  unfold logNearest
  rw [if_pos rfl]

theorem logNearest_52 : logNearest 52 = (8897409869326665 / 2251799813685248) := by
  unfold logNearest
  rw [if_neg (by norm_num), if_pos rfl]

theorem logNearest_p : logNearest (1385722962267845 / 72057594037927936) = (-1112176233665833 / 281474976710656) := by
  unfold logNearest
  rw [if_neg (by norm_num), if_neg (by norm_num), if_pos rfl]

theorem rn_52 : rn 52 = 52 :=
  rn_cert_pos _ _ (7318349394477056) (5) (by norm_num) (by norm_num) (by norm_num)
    (by norm_num) (by norm_num)

theorem shannon_letters52 :
    shannon_entropy_ieee logNearest letters52 = (651840774367357 / 2199023255552) := by
  have hp : rn (1 / 52) = (1385722962267845 / 72057594037927936) :=
    rn_cert_pos _ _ (5542891849071380) (-6) (by norm_num) (by norm_num) (by norm_num) (by norm_num) (by norm_num)
  have hL : rn ((-1112176233665833 / 281474976710656) / (6243314768165359 / 9007199254740992)) = (-6418124547617049 / 1125899906842624) :=
    rn_cert_neg _ _ (-6418124547617049) (2) (by norm_num) (by norm_num) (by norm_num) (by norm_num) (by norm_num)
  have hT : rn ((1385722962267845 / 72057594037927936) * (-6418124547617049 / 1125899906842624)) = (-7899230212451753 / 72057594037927936) :=
    rn_cert_neg _ _ (-7899230212451753) (-4) (by norm_num) (by norm_num) (by norm_num) (by norm_num) (by norm_num)
  have hS : rn ((6418124547617053 / 1125899906842624) * 52) = (651840774367357 / 2199023255552) :=
    rn_cert_pos _ _ (5214726194938856) (8) (by norm_num) (by norm_num) (by norm_num) (by norm_num) (by norm_num)
  have hlen : ((letters52.length : Nat) : ℚ) = 52 := by
    have : letters52.length = 52 := by decide
    rw [this]
    norm_num
  have hne : ¬ (letters52.isEmpty = true) := by decide
  unfold shannon_entropy_ieee
  rw [if_neg hne]
  dsimp only
  rw [hlen, rn_52]
  rw [foldl_uniform (List.finRange 256) (freqTable letters52)
    (fun f H => rn (H - rn (rn (((f : Int) : ℚ) / 52)
      * log2_double_ieee logNearest (rn (((f : Int) : ℚ) / 52)))))
    (fun c hc => by
      rw [freq_letters52] at hc ⊢
      split_ifs at hc ⊢ with h
      · rfl
      · exact absurd hc (by decide)) 0,
    count_letters52]
  have hstep : (fun H : ℚ => rn (H - rn (rn ((((1 : Int) : ℤ) : ℚ) / 52)
      * log2_double_ieee logNearest (rn ((((1 : Int) : ℤ) : ℚ) / 52)))))
      = (fun H : ℚ => rn (H - (-7899230212451753 / 72057594037927936))) := by
    funext H
    unfold log2_double_ieee
    rw [Int.cast_one, hp, logNearest_p, logNearest_2, hL, hT]
  rw [hstep, accumulate_52, hS]

theorem pool_letters52 :
    pool_based_entropy_bits_ieee logNearest letters52 = (5214726194938853 / 17592186044416) := by
  have hB : rn ((8897409869326665 / 2251799813685248) / (6243314768165359 / 9007199254740992)) = (3209062273808525 / 562949953421312) :=
    rn_cert_pos _ _ (6418124547617050) (2) (by norm_num) (by norm_num) (by norm_num) (by norm_num) (by norm_num)
  have hP : rn ((3209062273808525 / 562949953421312) * 52) = (5214726194938853 / 17592186044416) :=
    rn_cert_pos _ _ (5214726194938853) (8) (by norm_num) (by norm_num) (by norm_num) (by norm_num) (by norm_num)
  have hlen : ((letters52.length : Nat) : ℚ) = 52 := by
    have : letters52.length = 52 := by decide
    rw [this]
    norm_num
  have hpool : ((poolSize letters52 : Int) : ℚ) = 52 := by
    have : poolSize letters52 = 52 := by decide
    rw [this]
    norm_num
  unfold pool_based_entropy_bits_ieee log2_double_ieee
  dsimp only
  rw [hlen, hpool, rn_52, logNearest_52, logNearest_2, hB, hP]


/-! ## The three logarithms of the table are the nearest doubles -/

theorem exp_le_of_taylor (z u : ℝ) (n : ℕ) (hz : |z| ≤ 1) (hn : 0 < n)
    (h : (∑ m in Finset.range n, z ^ m / (m.factorial : ℝ))
        + |z| ^ n * (((n.succ : ℕ) : ℝ) / ((n.factorial : ℝ) * (n : ℝ))) ≤ u) :
    Real.exp z ≤ u := by
  have hb := (abs_le.mp (Real.exp_bound hz hn)).2
  linarith

theorem le_exp_of_taylor (z l : ℝ) (n : ℕ) (hz : |z| ≤ 1) (hn : 0 < n)
    (h : l ≤ (∑ m in Finset.range n, z ^ m / (m.factorial : ℝ))
        - |z| ^ n * (((n.succ : ℕ) : ℝ) / ((n.factorial : ℝ) * (n : ℝ)))) :
    l ≤ Real.exp z := by
  have hb := (abs_le.mp (Real.exp_bound hz hn)).1
  linarith

theorem lt_log_of_taylor (x lo z u : ℝ) (k : ℕ) (hx : 0 < x) (hlo : lo = (k : ℝ) * z)
    (hz : |z| ≤ 1)
    (h : (∑ m in Finset.range 22, z ^ m / (m.factorial : ℝ))
        + |z| ^ 22 * ((((22 : ℕ).succ : ℕ) : ℝ) / (((22 : ℕ).factorial : ℝ) * ((22 : ℕ) : ℝ))) ≤ u)
    (hux : u ^ k < x) : lo < Real.log x := by
  rw [Real.lt_log_iff_exp_lt hx, hlo, Real.exp_nat_mul]
  have he := exp_le_of_taylor z u 22 hz (by norm_num) h
  exact lt_of_le_of_lt (pow_le_pow_left₀ (Real.exp_pos z).le he k) hux

theorem log_lt_of_taylor (x hi z l : ℝ) (k : ℕ) (hx : 0 < x) (hhi : hi = (k : ℝ) * z)
    (hz : |z| ≤ 1) (hl0 : 0 ≤ l)
    (h : l ≤ (∑ m in Finset.range 22, z ^ m / (m.factorial : ℝ))
        - |z| ^ 22 * ((((22 : ℕ).succ : ℕ) : ℝ) / (((22 : ℕ).factorial : ℝ) * ((22 : ℕ) : ℝ))))
    (hlx : x < l ^ k) : Real.log x < hi := by
  rw [Real.log_lt_iff_lt_exp hx, hhi, Real.exp_nat_mul]
  have he := le_exp_of_taylor z l 22 hz (by norm_num) h
  exact lt_of_lt_of_le hlx (pow_le_pow_left₀ hl0 he k)

theorem log_two_lower : ((12486629536330717 / 18014398509481984) : ℝ) < Real.log 2 :=
  lt_log_of_taylor _ _ (12486629536330717 / 18014398509481984) (4722366482869644842039 / 2361183241434822606848) 1 (by norm_num) (by norm_num)
    (by rw [abs_le]; constructor <;> norm_num)
    (by
      rw [abs_of_pos (by norm_num)]
      simp only [Finset.sum_range_succ, Finset.sum_range_zero, Nat.factorial]
      norm_num)
    (by norm_num)

theorem log_two_upper : Real.log 2 < ((12486629536330719 / 18014398509481984) : ℝ) :=
  log_lt_of_taylor _ _ (12486629536330719 / 18014398509481984) (9444732965739290732651 / 4722366482869645213696) 1 (by norm_num) (by norm_num)
    (by rw [abs_le]; constructor <;> norm_num) (by norm_num)
    (by
      rw [abs_of_pos (by norm_num)]
      simp only [Finset.sum_range_succ, Finset.sum_range_zero, Nat.factorial]
      norm_num)
    (by norm_num)

theorem log_fiftytwo_lower : ((17794819738653329 / 4503599627370496) : ℝ) < Real.log 52 :=
  lt_log_of_taylor _ _ (17794819738653329 / 36028797018963968) (3869279568507872539839 / 2361183241434822606848) 8 (by norm_num) (by norm_num)
    (by rw [abs_le]; constructor <;> norm_num)
    (by
      rw [abs_of_pos (by norm_num)]
      simp only [Finset.sum_range_succ, Finset.sum_range_zero, Nat.factorial]
      norm_num)
    (by norm_num)

theorem log_fiftytwo_upper : Real.log 52 < ((17794819738653331 / 4503599627370496) : ℝ) :=
  log_lt_of_taylor _ _ (17794819738653331 / 36028797018963968) (7738559137015745509251 / 4722366482869645213696) 8 (by norm_num) (by norm_num)
    (by rw [abs_le]; constructor <;> norm_num) (by norm_num)
    (by
      rw [abs_of_pos (by norm_num)]
      simp only [Finset.sum_range_succ, Finset.sum_range_zero, Nat.factorial]
      norm_num)
    (by norm_num)

theorem log_p_lower : ((-17794819738653329 / 4503599627370496) : ℝ) < Real.log (1385722962267845 / 72057594037927936) :=
  lt_log_of_taylor _ _ (-17794819738653329 / 36028797018963968) (2881769694290991556727 / 4722366482869645213696) 8 (by norm_num) (by norm_num)
    (by rw [abs_le]; constructor <;> norm_num)
    (by
      rw [abs_of_neg (by norm_num)]
      simp only [Finset.sum_range_succ, Finset.sum_range_zero, Nat.factorial]
      norm_num)
    (by norm_num)

theorem log_p_upper : Real.log (1385722962267845 / 72057594037927936) < ((-17794819738653327 / 4503599627370496) : ℝ) :=
  log_lt_of_taylor _ _ (-17794819738653327 / 36028797018963968) (2881769694290991716695 / 4722366482869645213696) 8 (by norm_num) (by norm_num)
    (by rw [abs_le]; constructor <;> norm_num) (by norm_num)
    (by
      rw [abs_of_neg (by norm_num)]
      simp only [Finset.sum_range_succ, Finset.sum_range_zero, Nat.factorial]
      norm_num)
    (by norm_num)

/-- The table `logNearest` holds doubles, each within half a unit in the last
place of the natural logarithm of its argument: it is the `log` rounded to
the nearest double.  The third argument is the double nearest to 1/52. -/
theorem logNearest_is_nearest :
    (rn (logNearest 2) = logNearest 2
        ∧ |Real.log 2 - ((logNearest 2 : ℚ) : ℝ)| < 1 / 2 ^ 54)
      ∧ (rn (logNearest 52) = logNearest 52
        ∧ |Real.log 52 - ((logNearest 52 : ℚ) : ℝ)| < 1 / 2 ^ 52)
      ∧ (rn (1 / 52) = (1385722962267845 / 72057594037927936) ∧ rn (logNearest (1385722962267845 / 72057594037927936)) = logNearest (1385722962267845 / 72057594037927936)
        ∧ |Real.log (((1385722962267845 / 72057594037927936) : ℚ) : ℝ) - ((logNearest (1385722962267845 / 72057594037927936) : ℚ) : ℝ)| < 1 / 2 ^ 52) := by
  refine ⟨⟨?_, ?_⟩, ⟨?_, ?_⟩, ?_, ?_, ?_⟩
  · rw [logNearest_2]
    exact rn_cert_pos _ _ (6243314768165359) (-1) (by norm_num) (by norm_num) (by norm_num)
      (by norm_num) (by norm_num)
  · rw [logNearest_2, abs_lt]
    have h1 := log_two_lower
    have h2 := log_two_upper
    push_cast
    constructor <;> linarith
  · rw [logNearest_52]
    exact rn_cert_pos _ _ (8897409869326665) (1) (by norm_num) (by norm_num) (by norm_num)
      (by norm_num) (by norm_num)
  · rw [logNearest_52, abs_lt]
    have h1 := log_fiftytwo_lower
    have h2 := log_fiftytwo_upper
    push_cast
    constructor <;> linarith
  · exact rn_cert_pos _ _ (5542891849071380) (-6) (by norm_num) (by norm_num) (by norm_num)
      (by norm_num) (by norm_num)
  · rw [logNearest_p]
    exact rn_cert_neg _ _ (-8897409869326664) (1) (by norm_num) (by norm_num) (by norm_num)
      (by norm_num) (by norm_num)
  · rw [logNearest_p, abs_lt]
    have h1 := log_p_lower
    have h2 := log_p_upper
    push_cast
    constructor <;> linarith


/-! ## Claim C20 in double precision -/

/-- Claim C20 as stated, in double precision, at the password of the 52
letters `a` to `z` and `A` to `Z`: it consists of ASCII letters only, the
pool-based estimate is `0x1.286c40e7343e5p+8` and the Shannon estimate
`0x1.286c40e7343e8p+8`, three units in the last place above it, so the
Shannon estimate is not at most the pool-based one. -/
theorem shannon_exceeds_pool_in_double :
    (∀ c ∈ letters52, isalnum c = true)
      ∧ pool_based_entropy_bits_ieee logNearest letters52
          = 5214726194938853 / 17592186044416
      ∧ shannon_entropy_ieee logNearest letters52 = 5214726194938856 / 17592186044416
      ∧ ¬ (shannon_entropy_ieee logNearest letters52
            ≤ pool_based_entropy_bits_ieee logNearest letters52) := by
  refine ⟨by decide, pool_letters52, ?_, ?_⟩
  · rw [shannon_letters52]
    norm_num
  · rw [shannon_letters52, pool_letters52]
    norm_num

/-! ## The error of one rounding -/

theorem roundEven_near (m : ℚ) : |((roundEven m : Int) : ℚ) - m| ≤ 1 / 2 := by
  have hf1 : ((⌊m⌋ : ℤ) : ℚ) ≤ m := Int.floor_le m
  have hf2 : m < ((⌊m⌋ : ℤ) : ℚ) + 1 := Int.lt_floor_add_one m
  unfold roundEven
  dsimp only
  rw [abs_le]
  split_ifs with c1 c2 c3
  · constructor <;> linarith
  · push_cast
    constructor <;> linarith
  · constructor <;> linarith
  · push_cast
    have hr : m - ((⌊m⌋ : ℤ) : ℚ) = 1 / 2 := le_antisymm (not_lt.mp c2) (not_lt.mp c1)
    constructor <;> linarith

theorem rn_near (x : ℚ) : |rn x - x| ≤ |x| / 2 ^ 53 := by
  unfold rn
  by_cases hx : x = 0
  · rw [if_pos hx, hx]
    norm_num
  · rw [if_neg hx]
    dsimp only
    obtain ⟨h1, -⟩ := ilog2_spec |x| (abs_pos.mpr hx)
    have hpos : (0 : ℚ) < (2 : ℚ) ^ (ilog2 |x| - 52) := by positivity
    have hr := roundEven_near (x / (2 : ℚ) ^ (ilog2 |x| - 52))
    have e1 : ((roundEven (x / (2 : ℚ) ^ (ilog2 |x| - 52)) : Int) : ℚ) * (2 : ℚ) ^ (ilog2 |x| - 52) - x
        = (((roundEven (x / (2 : ℚ) ^ (ilog2 |x| - 52)) : Int) : ℚ)
            - x / (2 : ℚ) ^ (ilog2 |x| - 52)) * (2 : ℚ) ^ (ilog2 |x| - 52) := by
      field_simp
    rw [e1, abs_mul, abs_of_pos hpos]
    have e2 : (2 : ℚ) ^ (ilog2 |x|) = (2 : ℚ) ^ (ilog2 |x| - 52) * 2 ^ 52 := by
      rw [zpow_sub₀ (by norm_num : (2 : ℚ) ≠ 0)]
      have : ((2 : ℚ) ^ (52 : ℤ)) = 2 ^ 52 := by norm_cast
      rw [this]
      field_simp
    rw [e2] at h1
    have h3 : |((roundEven (x / (2 : ℚ) ^ (ilog2 |x| - 52)) : Int) : ℚ)
        - x / (2 : ℚ) ^ (ilog2 |x| - 52)| * (2 : ℚ) ^ (ilog2 |x| - 52)
        ≤ 1 / 2 * (2 : ℚ) ^ (ilog2 |x| - 52) := mul_le_mul_of_nonneg_right hr hpos.le
    rw [le_div_iff₀ (by positivity)]
    nlinarith

theorem rn_bounds_of_nonneg (x : ℚ) (hx : 0 ≤ x) :
    x * (1 - 1 / 2 ^ 53) ≤ rn x ∧ rn x ≤ x * (1 + 1 / 2 ^ 53) := by
  have h := rn_near x
  rw [abs_of_nonneg hx, abs_le] at h
  constructor <;> linarith [h.1, h.2]

theorem rn_bounds_of_nonpos (x : ℚ) (hx : x ≤ 0) :
    x * (1 + 1 / 2 ^ 53) ≤ rn x ∧ rn x ≤ x * (1 - 1 / 2 ^ 53) := by
  have h := rn_near x
  rw [abs_of_nonpos hx, abs_le] at h
  constructor <;> linarith [h.1, h.2]

theorem rn_nonneg (x : ℚ) (hx : 0 ≤ x) : 0 ≤ rn x :=
  le_trans (mul_nonneg hx (by norm_num)) (rn_bounds_of_nonneg x hx).1

theorem rn_nonpos (x : ℚ) (hx : x ≤ 0) : rn x ≤ 0 :=
  le_trans (rn_bounds_of_nonpos x hx).2 (mul_nonpos_of_nonpos_of_nonneg hx (by norm_num))

theorem rn_natCast (n : ℕ) (h : n < 2 ^ 53) : rn (n : ℚ) = (n : ℚ) := by
  by_cases h0 : n = 0
  · subst h0
    simp [rn]
  · have hpos : (0 : ℚ) < (n : ℚ) := by exact_mod_cast Nat.pos_of_ne_zero h0
    obtain ⟨s1, s2⟩ := ilog2_spec (n : ℚ) hpos
    have hlt : (n : ℚ) < (2 : ℚ) ^ ((52 : ℤ) + 1) := by
      have : (n : ℚ) < (2 : ℚ) ^ 53 := by exact_mod_cast h
      have e : (2 : ℚ) ^ ((52 : ℤ) + 1) = (2 : ℚ) ^ 53 := by norm_cast
      rwa [e]
    have hk : ilog2 (n : ℚ) ≤ 52 := by
      have := (zpow_lt_zpow_iff_right₀ (by norm_num : (1 : ℚ) < 2)).mp (lt_of_le_of_lt s1 hlt)
      omega
    obtain ⟨d, hd⟩ : ∃ d : ℕ, (52 : ℤ) - ilog2 (n : ℚ) = (d : ℤ) :=
      Int.eq_ofNat_of_zero_le (by omega)
    have he : ilog2 (n : ℚ) - 52 = -(d : ℤ) := by omega
    have hdiv : (n : ℚ) / (2 : ℚ) ^ (ilog2 (n : ℚ) - 52) = (((n * 2 ^ d : ℕ) : ℤ) : ℚ) := by
      rw [he, zpow_neg, zpow_natCast]
      push_cast
      field_simp
    have hv : (n : ℚ) = (((n * 2 ^ d : ℕ) : ℤ) : ℚ) * (2 : ℚ) ^ (ilog2 (n : ℚ) - 52) := by
      rw [he, zpow_neg, zpow_natCast]
      push_cast
      field_simp
    have := rn_eq (n : ℚ) ((n * 2 ^ d : ℕ) : ℤ) (ilog2 (n : ℚ)) hpos.ne'
      (by rwa [abs_of_pos hpos]) (by rwa [abs_of_pos hpos])
      (by rw [hdiv, sub_self, abs_zero]; norm_num)
    rw [this, ← hv]

theorem rn_one : rn 1 = 1 := by
  have := rn_natCast 1 (by norm_num)
  simpa using this

/-! ## The error of one term of the Shannon sum -/

theorem prob_bounds (f : Int) (n : ℕ) (hf : 0 < f) (hfn : f ≤ (n : Int)) (hf31 : f < 2 ^ 31) :
    0 < rn ((f : ℚ) / rn (n : ℚ)) ∧ rn ((f : ℚ) / rn (n : ℚ)) ≤ 1
      ∧ rn ((f : ℚ) / rn (n : ℚ)) ≤ (f : ℚ) / (n : ℚ) * ((1 + 1 / 2 ^ 53) / (1 - 1 / 2 ^ 53))
      ∧ (f : ℚ) / (n : ℚ) * ((1 - 1 / 2 ^ 53) / (1 + 1 / 2 ^ 53))
          ≤ rn ((f : ℚ) / rn (n : ℚ)) := by
  have hfq : (0 : ℚ) < (f : ℚ) := by exact_mod_cast hf
  have hfnq : (f : ℚ) ≤ (n : ℚ) := by exact_mod_cast hfn
  have hnq : (0 : ℚ) < (n : ℚ) := lt_of_lt_of_le hfq hfnq
  obtain ⟨hN1, hN2⟩ := rn_bounds_of_nonneg (n : ℚ) hnq.le
  have hNpos : (0 : ℚ) < rn (n : ℚ) := lt_of_lt_of_le (mul_pos hnq (by norm_num)) hN1
  have hzpos : (0 : ℚ) < (f : ℚ) / rn (n : ℚ) := div_pos hfq hNpos
  obtain ⟨hp1, hp2⟩ := rn_bounds_of_nonneg ((f : ℚ) / rn (n : ℚ)) hzpos.le
  have hz_up : (f : ℚ) / rn (n : ℚ) ≤ (f : ℚ) / (n : ℚ) * (1 / (1 - 1 / 2 ^ 53)) := by
    rw [div_mul_div_comm, mul_one]
    exact div_le_div_of_nonneg_left hfq.le (mul_pos hnq (by norm_num)) hN1
  have hz_lo : (f : ℚ) / (n : ℚ) * (1 / (1 + 1 / 2 ^ 53)) ≤ (f : ℚ) / rn (n : ℚ) := by
    rw [div_mul_div_comm, mul_one]
    exact div_le_div_of_nonneg_left hfq.le hNpos hN2
  refine ⟨lt_of_lt_of_le (mul_pos hzpos (by norm_num)) hp1, ?_, ?_, ?_⟩
  · by_cases hn : n < 2 ^ 53
    · rw [rn_natCast n hn] at hp2 ⊢
      by_cases hfe : f = (n : Int)
      · have : (f : ℚ) = (n : ℚ) := by exact_mod_cast hfe
        rw [this, div_self hnq.ne', rn_one]
      · have hlt : f + 1 ≤ (n : Int) := by omega
        have hltq : (f : ℚ) + 1 ≤ (n : ℚ) := by exact_mod_cast hlt
        have hn53 : (n : ℚ) ≤ 2 ^ 53 := by exact_mod_cast hn.le
        refine le_trans hp2 ?_
        rw [div_mul_eq_mul_div, div_le_one hnq]
        nlinarith
    · have hn53 : (2 : ℚ) ^ 53 ≤ (n : ℚ) := by exact_mod_cast not_lt.mp hn
      have hf31q : (f : ℚ) ≤ 2 ^ 31 := by exact_mod_cast hf31.le
      have hNbig : (2 : ℚ) ^ 52 ≤ rn (n : ℚ) := by
        refine le_trans ?_ hN1
        nlinarith
      refine le_trans hp2 ?_
      have hz : (f : ℚ) / rn (n : ℚ) ≤ 2 ^ 31 / 2 ^ 52 :=
        div_le_div₀ (by norm_num) hf31q (by norm_num) hNbig
      nlinarith
  · refine le_trans hp2 ?_
    calc (f : ℚ) / rn (n : ℚ) * (1 + 1 / 2 ^ 53)
        ≤ (f : ℚ) / (n : ℚ) * (1 / (1 - 1 / 2 ^ 53)) * (1 + 1 / 2 ^ 53) :=
          mul_le_mul_of_nonneg_right hz_up (by norm_num)
      _ = (f : ℚ) / (n : ℚ) * ((1 + 1 / 2 ^ 53) / (1 - 1 / 2 ^ 53)) := by ring
  · refine le_trans ?_ hp1
    calc (f : ℚ) / (n : ℚ) * ((1 - 1 / 2 ^ 53) / (1 + 1 / 2 ^ 53))
        = (f : ℚ) / (n : ℚ) * (1 / (1 + 1 / 2 ^ 53)) * (1 - 1 / 2 ^ 53) := by ring
      _ ≤ (f : ℚ) / rn (n : ℚ) * (1 - 1 / 2 ^ 53) :=
          mul_le_mul_of_nonneg_right hz_lo (by norm_num)

theorem neg_log_perturbed (p q : ℝ) (hq : 0 < q)
    (hpq : q * ((1 - 1 / 2 ^ 53) / (1 + 1 / 2 ^ 53)) ≤ p) :
    -Real.log p ≤ -Real.log q + 3 / 2 ^ 53 := by
  have hr : (0 : ℝ) < (1 - 1 / 2 ^ 53) / (1 + 1 / 2 ^ 53) := by norm_num
  have h1 : Real.log (q * ((1 - 1 / 2 ^ 53) / (1 + 1 / 2 ^ 53))) ≤ Real.log p :=
    Real.log_le_log (mul_pos hq hr) hpq
  rw [Real.log_mul hq.ne' hr.ne'] at h1
  have h2 := Real.one_sub_inv_le_log_of_pos hr
  have h3 : -(3 / 2 ^ 53 : ℝ) ≤ 1 - ((1 - 1 / 2 ^ 53) / (1 + 1 / 2 ^ 53) : ℝ)⁻¹ := by norm_num
  linarith

theorem logAccurate_of_le_one (ln : ℚ → ℚ) (x : ℚ) (h : LogAccurate ln x) (hx0 : 0 < x)
    (hx1 : x ≤ 1) :
    ln x ≤ 0 ∧ -((ln x : ℚ) : ℝ) ≤ -Real.log ((x : ℚ) : ℝ) * (1 + 1 / 2 ^ 52) := by
  unfold LogAccurate at h
  have hx1r : ((x : ℚ) : ℝ) ≤ 1 := by exact_mod_cast hx1
  have hx0r : (0 : ℝ) < ((x : ℚ) : ℝ) := by exact_mod_cast hx0
  have hlog : Real.log ((x : ℚ) : ℝ) ≤ 0 := Real.log_nonpos hx0r.le hx1r
  rw [abs_of_nonpos hlog, abs_le] at h
  have hle : ((ln x : ℚ) : ℝ) ≤ 0 := by
    have : (0 : ℝ) ≤ -Real.log ((x : ℚ) : ℝ) * (1 - 1 / 2 ^ 52) :=
      mul_nonneg (by linarith) (by norm_num)
    linarith [h.2]
  exact ⟨by exact_mod_cast hle, by linarith [h.1]⟩

theorem logAccurate_of_one_le (ln : ℚ → ℚ) (x : ℚ) (h : LogAccurate ln x) (hx1 : 1 ≤ x) :
    Real.log ((x : ℚ) : ℝ) * (1 - 1 / 2 ^ 52) ≤ ((ln x : ℚ) : ℝ)
      ∧ ((ln x : ℚ) : ℝ) ≤ Real.log ((x : ℚ) : ℝ) * (1 + 1 / 2 ^ 52) := by
  unfold LogAccurate at h
  have hx1r : (1 : ℝ) ≤ ((x : ℚ) : ℝ) := by exact_mod_cast hx1
  have hlog : 0 ≤ Real.log ((x : ℚ) : ℝ) := Real.log_nonneg hx1r
  rw [abs_of_nonneg hlog, abs_le] at h
  constructor <;> linarith [h.1, h.2]

theorem term_bound (ln : ℚ → ℚ) (f : Int) (n : ℕ) (hf : 0 < f) (hfn : f ≤ (n : Int))
    (hf31 : f < 2 ^ 31) (h2 : LogAccurate ln 2)
    (hp : LogAccurate ln (rn ((f : ℚ) / rn (n : ℚ)))) :
    rn (rn ((f : ℚ) / rn (n : ℚ)) * log2_double_ieee ln (rn ((f : ℚ) / rn (n : ℚ)))) ≤ 0
      ∧ -((rn (rn ((f : ℚ) / rn (n : ℚ))
              * log2_double_ieee ln (rn ((f : ℚ) / rn (n : ℚ)))) : ℚ) : ℝ)
        ≤ (1 + 1 / 2 ^ 53) ^ 3 * (1 + 1 / 2 ^ 52) / ((1 - 1 / 2 ^ 53) * (1 - 1 / 2 ^ 52))
            * ((f : ℝ) / (n : ℝ) * (-Real.log ((f : ℝ) / (n : ℝ)) + 3 / 2 ^ 53)
                / Real.log 2) := by
  obtain ⟨hp0, hp1, hpu, hpl⟩ := prob_bounds f n hf hfn hf31
  generalize rn ((f : ℚ) / rn (n : ℚ)) = p at hp hp0 hp1 hpu hpl ⊢
  obtain ⟨hlnp, hlnp2⟩ := logAccurate_of_le_one ln p hp hp0 hp1
  obtain ⟨hl2a, -⟩ := logAccurate_of_one_le ln 2 h2 (by norm_num)
  have hlg2 : 0 < Real.log 2 := Real.log_pos (by norm_num)
  rw [Rat.cast_ofNat] at hl2a
  have hden : 0 < Real.log 2 * (1 - 1 / 2 ^ 52) := mul_pos hlg2 (by norm_num)
  have hln2r : (0 : ℝ) < ((ln 2 : ℚ) : ℝ) := lt_of_lt_of_le hden hl2a
  have hln2 : 0 < ln 2 := by exact_mod_cast hln2r
  have hx : ln p / ln 2 ≤ 0 := div_nonpos_of_nonpos_of_nonneg hlnp hln2.le
  unfold log2_double_ieee
  have hL0 : rn (ln p / ln 2) ≤ 0 := rn_nonpos _ hx
  have hL1 := (rn_bounds_of_nonpos _ hx).1
  have hy : p * rn (ln p / ln 2) ≤ 0 := mul_nonpos_of_nonneg_of_nonpos hp0.le hL0
  have hT1 := (rn_bounds_of_nonpos _ hy).1
  refine ⟨rn_nonpos _ hy, ?_⟩
  have hL1r : ((ln p : ℚ) : ℝ) / ((ln 2 : ℚ) : ℝ) * (1 + 1 / 2 ^ 53)
      ≤ ((rn (ln p / ln 2) : ℚ) : ℝ) := by
    have := Rat.cast_le (K := ℝ) |>.mpr hL1
    push_cast at this
    exact this
  have hT1r : ((p : ℚ) : ℝ) * ((rn (ln p / ln 2) : ℚ) : ℝ) * (1 + 1 / 2 ^ 53)
      ≤ ((rn (p * rn (ln p / ln 2)) : ℚ) : ℝ) := by
    have := Rat.cast_le (K := ℝ) |>.mpr hT1
    push_cast at this
    exact this
  have hp0r : (0 : ℝ) < ((p : ℚ) : ℝ) := by exact_mod_cast hp0
  have hp1r : ((p : ℚ) : ℝ) ≤ 1 := by exact_mod_cast hp1
  have hfr : (0 : ℝ) < (f : ℝ) := by exact_mod_cast hf
  have hfnr : (f : ℝ) ≤ (n : ℝ) := by exact_mod_cast hfn
  have hnr : (0 : ℝ) < (n : ℝ) := lt_of_lt_of_le hfr hfnr
  have hq : (0 : ℝ) < (f : ℝ) / (n : ℝ) := div_pos hfr hnr
  have hpur : ((p : ℚ) : ℝ) ≤ (f : ℝ) / (n : ℝ) * ((1 + 1 / 2 ^ 53) / (1 - 1 / 2 ^ 53)) := by
    have := Rat.cast_le (K := ℝ) |>.mpr hpu
    push_cast at this
    exact this
  have hplr : (f : ℝ) / (n : ℝ) * ((1 - 1 / 2 ^ 53) / (1 + 1 / 2 ^ 53)) ≤ ((p : ℚ) : ℝ) := by
    have := Rat.cast_le (K := ℝ) |>.mpr hpl
    push_cast at this
    exact this
  have hA0 : 0 ≤ -Real.log ((p : ℚ) : ℝ) := by
    have := Real.log_nonpos hp0r.le hp1r
    linarith
  have hAB := neg_log_perturbed ((p : ℚ) : ℝ) ((f : ℝ) / (n : ℝ)) hq hplr
  have hB0 : 0 ≤ -Real.log ((f : ℝ) / (n : ℝ)) + 3 / 2 ^ 53 := le_trans hA0 hAB
  have hnx : -(((ln p : ℚ) : ℝ) / ((ln 2 : ℚ) : ℝ))
      ≤ (-Real.log ((f : ℝ) / (n : ℝ)) + 3 / 2 ^ 53) * (1 + 1 / 2 ^ 52)
          / (Real.log 2 * (1 - 1 / 2 ^ 52)) := by
    rw [← neg_div]
    apply div_le_div₀ (mul_nonneg hB0 (by norm_num)) _ hden hl2a
    exact le_trans hlnp2 (mul_le_mul_of_nonneg_right hAB (by norm_num))
  have hnx0 : 0 ≤ -(((ln p : ℚ) : ℝ) / ((ln 2 : ℚ) : ℝ)) := by
    have : ((ln p / ln 2 : ℚ) : ℝ) ≤ 0 := by exact_mod_cast hx
    push_cast at this
    linarith
  have hnL : -((rn (ln p / ln 2) : ℚ) : ℝ)
      ≤ (-Real.log ((f : ℝ) / (n : ℝ)) + 3 / 2 ^ 53) * (1 + 1 / 2 ^ 52)
          / (Real.log 2 * (1 - 1 / 2 ^ 52)) * (1 + 1 / 2 ^ 53) := by
    have := mul_le_mul_of_nonneg_right hnx (by norm_num : (0 : ℝ) ≤ 1 + 1 / 2 ^ 53)
    linarith
  have hnL0 : 0 ≤ -((rn (ln p / ln 2) : ℚ) : ℝ) := by
    have : ((rn (ln p / ln 2) : ℚ) : ℝ) ≤ 0 := by exact_mod_cast hL0
    linarith
  have hprod : ((p : ℚ) : ℝ) * -((rn (ln p / ln 2) : ℚ) : ℝ)
      ≤ (f : ℝ) / (n : ℝ) * ((1 + 1 / 2 ^ 53) / (1 - 1 / 2 ^ 53))
          * ((-Real.log ((f : ℝ) / (n : ℝ)) + 3 / 2 ^ 53) * (1 + 1 / 2 ^ 52)
              / (Real.log 2 * (1 - 1 / 2 ^ 52)) * (1 + 1 / 2 ^ 53)) :=
    mul_le_mul hpur hnL hnL0 (le_trans hp0r.le hpur)
  have hfin := mul_le_mul_of_nonneg_right hprod (by norm_num : (0 : ℝ) ≤ 1 + 1 / 2 ^ 53)
  have e : (f : ℝ) / (n : ℝ) * ((1 + 1 / 2 ^ 53) / (1 - 1 / 2 ^ 53))
          * ((-Real.log ((f : ℝ) / (n : ℝ)) + 3 / 2 ^ 53) * (1 + 1 / 2 ^ 52)
              / (Real.log 2 * (1 - 1 / 2 ^ 52)) * (1 + 1 / 2 ^ 53)) * (1 + 1 / 2 ^ 53)
      = (1 + 1 / 2 ^ 53) ^ 3 * (1 + 1 / 2 ^ 52) / ((1 - 1 / 2 ^ 53) * (1 - 1 / 2 ^ 52))
            * ((f : ℝ) / (n : ℝ) * (-Real.log ((f : ℝ) / (n : ℝ)) + 3 / 2 ^ 53)
                / Real.log 2) := by
    field_simp
    ring
  rw [← e]
  linarith

/-! ## The accumulation loop and the pool estimate in double precision -/

theorem foldl_rn_bounds (l : List Byte) (P : Byte → Prop) [DecidablePred P] (T : Byte → ℚ)
    (hT : ∀ c, P c → T c ≤ 0) (H0 : ℚ) (h0 : 0 ≤ H0) :
    0 ≤ l.foldl (fun H c => if P c then rn (H - T c) else H) H0
      ∧ l.foldl (fun H c => if P c then rn (H - T c) else H) H0
        ≤ (1 + 1 / 2 ^ 53) ^ l.length
            * (H0 + (l.map (fun c => if P c then -T c else 0)).sum) := by
  induction l generalizing H0 with
  | nil => simpa using h0
  | cons x l ih =>
    have hS : 0 ≤ (l.map (fun c => if P c then -T c else 0)).sum := by
      apply List.sum_nonneg
      intro y hy
      obtain ⟨c, -, rfl⟩ := List.mem_map.mp hy
      split_ifs with hc
      · linarith [hT c hc]
      · exact le_rfl
    have hpow : (0 : ℚ) ≤ (1 + 1 / 2 ^ 53) ^ l.length := by positivity
    rw [List.foldl_cons, List.map_cons, List.sum_cons, List.length_cons, pow_succ]
    by_cases hc : P x
    · rw [if_pos hc, if_pos hc]
      have hx := hT x hc
      have hnn : 0 ≤ H0 - T x := by linarith
      obtain ⟨i1, i2⟩ := ih (rn (H0 - T x)) (rn_nonneg _ hnn)
      refine ⟨i1, le_trans i2 ?_⟩
      have hr := (rn_bounds_of_nonneg _ hnn).2
      have h3 : rn (H0 - T x) + (l.map (fun c => if P c then -T c else 0)).sum
          ≤ (1 + 1 / 2 ^ 53)
              * (H0 + (-T x + (l.map (fun c => if P c then -T c else 0)).sum)) := by
        nlinarith
      calc (1 + 1 / 2 ^ 53) ^ l.length
              * (rn (H0 - T x) + (l.map (fun c => if P c then -T c else 0)).sum)
          ≤ (1 + 1 / 2 ^ 53) ^ l.length * ((1 + 1 / 2 ^ 53)
              * (H0 + (-T x + (l.map (fun c => if P c then -T c else 0)).sum))) :=
            mul_le_mul_of_nonneg_left h3 hpow
        _ = (1 + 1 / 2 ^ 53) ^ l.length * (1 + 1 / 2 ^ 53)
              * (H0 + (-T x + (l.map (fun c => if P c then -T c else 0)).sum)) := by ring
    · rw [if_neg hc, if_neg hc, zero_add]
      obtain ⟨i1, i2⟩ := ih H0 h0
      refine ⟨i1, le_trans i2 ?_⟩
      have h4 : 0 ≤ H0 + (l.map (fun c => if P c then -T c else 0)).sum := by linarith
      have h5 : (1 + 1 / 2 ^ 53) ^ l.length
          * (H0 + (l.map (fun c => if P c then -T c else 0)).sum)
          ≤ (1 + 1 / 2 ^ 53) ^ l.length
              * (H0 + (l.map (fun c => if P c then -T c else 0)).sum)
              * (1 + 1 / 2 ^ 53) :=
        le_mul_of_one_le_right (mul_nonneg hpow h4) (by norm_num)
      calc (1 + 1 / 2 ^ 53) ^ l.length
            * (H0 + (l.map (fun c => if P c then -T c else 0)).sum)
          ≤ (1 + 1 / 2 ^ 53) ^ l.length
              * (H0 + (l.map (fun c => if P c then -T c else 0)).sum)
              * (1 + 1 / 2 ^ 53) := h5
        _ = (1 + 1 / 2 ^ 53) ^ l.length * (1 + 1 / 2 ^ 53)
              * (H0 + (l.map (fun c => if P c then -T c else 0)).sum) := by ring

theorem pool_ieee_ge (ln : ℚ → ℚ) (pw : List Byte) (h2 : LogAccurate ln 2)
    (hP : LogAccurate ln ((poolSize pw : Int) : ℚ)) :
    (1 - 1 / 2 ^ 52) * (1 - 1 / 2 ^ 53) ^ 3 / (1 + 1 / 2 ^ 52)
        * (Real.log ((poolSize pw : Int) : ℝ) / Real.log 2 * (pw.length : ℝ))
      ≤ ((pool_based_entropy_bits_ieee ln pw : ℚ) : ℝ) := by
  have hP1 : (1 : ℚ) ≤ ((poolSize pw : Int) : ℚ) := by exact_mod_cast (poolSize_bounds pw).1
  obtain ⟨hPa, -⟩ := logAccurate_of_one_le ln _ hP hP1
  obtain ⟨hl2a, hl2b⟩ := logAccurate_of_one_le ln 2 h2 (by norm_num)
  rw [Rat.cast_ofNat] at hl2a hl2b
  rw [Rat.cast_intCast] at hPa
  have hlg2 : 0 < Real.log 2 := Real.log_pos (by norm_num)
  have hlgP : 0 ≤ Real.log ((poolSize pw : Int) : ℝ) :=
    Real.log_nonneg (by exact_mod_cast (poolSize_bounds pw).1)
  have hln2r : (0 : ℝ) < ((ln 2 : ℚ) : ℝ) :=
    lt_of_lt_of_le (mul_pos hlg2 (by norm_num)) hl2a
  have hln2 : 0 < ln 2 := by exact_mod_cast hln2r
  have hlnPr : (0 : ℝ) ≤ ((ln ((poolSize pw : Int) : ℚ) : ℚ) : ℝ) :=
    le_trans (mul_nonneg hlgP (by norm_num)) hPa
  have hlnP : 0 ≤ ln ((poolSize pw : Int) : ℚ) := by exact_mod_cast hlnPr
  have hx : 0 ≤ ln ((poolSize pw : Int) : ℚ) / ln 2 := div_nonneg hlnP hln2.le
  have hn : (0 : ℚ) ≤ (pw.length : ℚ) := Nat.cast_nonneg _
  unfold pool_based_entropy_bits_ieee log2_double_ieee
  dsimp only
  have hB0 := rn_nonneg _ hx
  have hB1 := (rn_bounds_of_nonneg _ hx).1
  have hN0 := rn_nonneg _ hn
  have hN1 := (rn_bounds_of_nonneg _ hn).1
  have hy : 0 ≤ rn (ln ((poolSize pw : Int) : ℚ) / ln 2) * rn (pw.length : ℚ) :=
    mul_nonneg hB0 hN0
  have hR1 := (rn_bounds_of_nonneg _ hy).1
  have hq : ln ((poolSize pw : Int) : ℚ) / ln 2 * (1 - 1 / 2 ^ 53)
      * ((pw.length : ℚ) * (1 - 1 / 2 ^ 53)) * (1 - 1 / 2 ^ 53)
      ≤ rn (rn (ln ((poolSize pw : Int) : ℚ) / ln 2) * rn (pw.length : ℚ)) := by
    refine le_trans ?_ hR1
    apply mul_le_mul_of_nonneg_right _ (by norm_num)
    exact mul_le_mul hB1 hN1 (mul_nonneg hn (by norm_num)) hB0
  have hqr := Rat.cast_le (K := ℝ) |>.mpr hq
  push_cast at hqr
  refine le_trans ?_ hqr
  have hdiv : Real.log ((poolSize pw : Int) : ℝ) * (1 - 1 / 2 ^ 52)
      / (Real.log 2 * (1 + 1 / 2 ^ 52))
      ≤ ((ln ((poolSize pw : Int) : ℚ) : ℚ) : ℝ) / ((ln 2 : ℚ) : ℝ) :=
    div_le_div₀ hlnPr hPa hln2r hl2b
  have hnr : (0 : ℝ) ≤ (pw.length : ℝ) := Nat.cast_nonneg _
  have hm := mul_le_mul_of_nonneg_right hdiv
    (mul_nonneg hnr (by norm_num : (0 : ℝ) ≤ (1 - 1 / 2 ^ 53) ^ 3))
  have e1 : (1 - 1 / 2 ^ 52) * (1 - 1 / 2 ^ 53) ^ 3 / (1 + 1 / 2 ^ 52)
        * (Real.log ((poolSize pw : Int) : ℝ) / Real.log 2 * (pw.length : ℝ))
      = Real.log ((poolSize pw : Int) : ℝ) * (1 - 1 / 2 ^ 52)
          / (Real.log 2 * (1 + 1 / 2 ^ 52)) * ((pw.length : ℝ) * (1 - 1 / 2 ^ 53) ^ 3) := by
    field_simp
    ring
  rw [e1]
  refine le_trans hm (le_of_eq ?_)
  ring

/-! ## The Shannon estimate in double precision -/

theorem freqTable_lt (s : List Byte) (c : Byte) : freqTable s c < 2 ^ 31 := by
  rw [freqTable_eq]
  unfold toInt32
  omega

theorem rounding_budget :
    ((1 + 1 / 2 ^ 53) ^ 258
        * ((1 + 1 / 2 ^ 53) ^ 3 * (1 + 1 / 2 ^ 52) / ((1 - 1 / 2 ^ 53) * (1 - 1 / 2 ^ 52)))
        * (1 + 3 / 2 ^ 53) : ℝ)
      ≤ (1 - 1 / 2 ^ 52) * (1 - 1 / 2 ^ 53) ^ 3 / (1 + 1 / 2 ^ 52) * (1 + 1 / 2 ^ 44) := by
  norm_num

theorem sum_terms_split (s : Finset Byte) (A B : Byte → ℝ) (K t n l : ℝ) :
    ∑ c in s, K * (B c / n * (A c + t) / l)
      = K * ((∑ c in s, B c / n * A c + t * ((∑ c in s, B c) / n)) / l) := by
  rw [Finset.sum_div, Finset.mul_sum, ← Finset.sum_add_distrib, Finset.sum_div, Finset.mul_sum]
  exact Finset.sum_congr rfl (fun c _ => by ring)

theorem shannon_ieee_le (ln : ℚ → ℚ) (pw : List Byte) (hne : pw ≠ [])
    (hal : ∀ c ∈ pw, isalnum c = true) (h2 : LogAccurate ln 2)
    (hp : ∀ c, 0 < freqTable pw c →
      LogAccurate ln (rn (((freqTable pw c : Int) : ℚ) / rn (pw.length : ℚ)))) :
    ((shannon_entropy_ieee ln pw : ℚ) : ℝ)
      ≤ (1 + 1 / 2 ^ 53) ^ 258
          * ((1 + 1 / 2 ^ 53) ^ 3 * (1 + 1 / 2 ^ 52) / ((1 - 1 / 2 ^ 53) * (1 - 1 / 2 ^ 52)))
          * (1 + 3 / 2 ^ 53)
          * (Real.log ((poolSize pw : Int) : ℝ) / Real.log 2 * (pw.length : ℝ)) := by
  have hfn : ∀ c, 0 < freqTable pw c → freqTable pw c ≤ (pw.length : Int) := by
    intro c hc
    have h1 := freqTable_le pw c hc
    have h2 := List.count_le_length c pw
    omega
  have hterm := fun c (hc : 0 < freqTable pw c) =>
    term_bound ln (freqTable pw c) pw.length hc (hfn c hc) (freqTable_lt pw c) h2 (hp c hc)
  obtain ⟨hH0, hH1⟩ := foldl_rn_bounds (List.finRange 256) (fun c => 0 < freqTable pw c)
    (fun c => rn (rn (((freqTable pw c : Int) : ℚ) / rn (pw.length : ℚ))
      * log2_double_ieee ln (rn (((freqTable pw c : Int) : ℚ) / rn (pw.length : ℚ)))))
    (fun c hc => (hterm c hc).1) 0 le_rfl
  have key : shannon_entropy_ieee ln pw
      = rn ((List.finRange 256).foldl (fun H c => if 0 < freqTable pw c then
          rn (H - rn (rn (((freqTable pw c : Int) : ℚ) / rn (pw.length : ℚ))
            * log2_double_ieee ln (rn (((freqTable pw c : Int) : ℚ) / rn (pw.length : ℚ)))))
          else H) 0 * rn (pw.length : ℚ)) := by
    unfold shannon_entropy_ieee
    have h1 : ¬ (pw.isEmpty = true) := by simpa using hne
    rw [if_neg h1]
  rw [key]
  generalize (List.finRange 256).foldl (fun H c => if 0 < freqTable pw c then
          rn (H - rn (rn (((freqTable pw c : Int) : ℚ) / rn (pw.length : ℚ))
            * log2_double_ieee ln (rn (((freqTable pw c : Int) : ℚ) / rn (pw.length : ℚ)))))
          else H) 0 = H at hH0 hH1
  rw [zero_add, List.length_finRange, ← Fin.sum_univ_def] at hH1
  -- the final product and its rounding
  have hn : (0 : ℚ) ≤ (pw.length : ℚ) := Nat.cast_nonneg _
  have hN0 := rn_nonneg _ hn
  have hN2 := (rn_bounds_of_nonneg _ hn).2
  have hR := (rn_bounds_of_nonneg _ (mul_nonneg hH0 hN0)).2
  have hq : rn (H * rn (pw.length : ℚ))
      ≤ H * ((pw.length : ℚ) * (1 + 1 / 2 ^ 53)) * (1 + 1 / 2 ^ 53) :=
    le_trans hR (mul_le_mul_of_nonneg_right (mul_le_mul_of_nonneg_left hN2 hH0) (by norm_num))
  have hqr := Rat.cast_le (K := ℝ) |>.mpr hq
  have hH1r := Rat.cast_le (K := ℝ) |>.mpr hH1
  push_cast at hqr hH1r
  refine le_trans hqr ?_
  -- the sum of the rounded terms
  have hlg2 : 0 < Real.log 2 := Real.log_pos (by norm_num)
  have hP10 : (10 : ℝ) ≤ ((poolSize pw : Int) : ℝ) := by
    exact_mod_cast poolSize_ge_ten pw hne
  have hlgP := one_le_log_of_ten_le _ hP10
  have hnpos : (0 : ℝ) < (pw.length : ℝ) := by
    exact_mod_cast List.length_pos.mpr hne
  have hS : ∑ c : Byte, ((if 0 < freqTable pw c then
        -(rn (rn (((freqTable pw c : Int) : ℚ) / rn (pw.length : ℚ))
          * log2_double_ieee ln (rn (((freqTable pw c : Int) : ℚ) / rn (pw.length : ℚ)))))
        else 0 : ℚ) : ℝ)
      ≤ (1 + 1 / 2 ^ 53) ^ 3 * (1 + 1 / 2 ^ 52) / ((1 - 1 / 2 ^ 53) * (1 - 1 / 2 ^ 52))
          * ((Real.log ((poolSize pw : Int) : ℝ) + 3 / 2 ^ 53) / Real.log 2) := by
    calc ∑ c : Byte, ((if 0 < freqTable pw c then
            -(rn (rn (((freqTable pw c : Int) : ℚ) / rn (pw.length : ℚ))
              * log2_double_ieee ln (rn (((freqTable pw c : Int) : ℚ) / rn (pw.length : ℚ)))))
            else 0 : ℚ) : ℝ)
        ≤ ∑ c : Byte, (if 0 < freqTable pw c then
            (1 + 1 / 2 ^ 53) ^ 3 * (1 + 1 / 2 ^ 52) / ((1 - 1 / 2 ^ 53) * (1 - 1 / 2 ^ 52))
              * (((freqTable pw c : Int) : ℝ) / (pw.length : ℝ)
                  * (-Real.log (((freqTable pw c : Int) : ℝ) / (pw.length : ℝ)) + 3 / 2 ^ 53)
                  / Real.log 2)
            else 0) := by
          apply Finset.sum_le_sum
          intro c _
          split_ifs with hc
          · have := (hterm c hc).2
            push_cast at this ⊢
            exact this
          · simp
      _ = (1 + 1 / 2 ^ 53) ^ 3 * (1 + 1 / 2 ^ 52) / ((1 - 1 / 2 ^ 53) * (1 - 1 / 2 ^ 52))
            * ((∑ c in Finset.univ.filter (fun c : Byte => 0 < freqTable pw c),
                  ((freqTable pw c : Int) : ℝ) / (pw.length : ℝ)
                    * -Real.log (((freqTable pw c : Int) : ℝ) / (pw.length : ℝ))
                + 3 / 2 ^ 53 * ((∑ c in Finset.univ.filter (fun c : Byte => 0 < freqTable pw c),
                  ((freqTable pw c : Int) : ℝ)) / (pw.length : ℝ))) / Real.log 2) := by
          rw [← Finset.sum_filter]
          exact sum_terms_split _ (fun c => -Real.log (((freqTable pw c : Int) : ℝ)
            / (pw.length : ℝ))) (fun c => ((freqTable pw c : Int) : ℝ)) _ _ _ _
      _ ≤ (1 + 1 / 2 ^ 53) ^ 3 * (1 + 1 / 2 ^ 52) / ((1 - 1 / 2 ^ 53) * (1 - 1 / 2 ^ 52))
            * ((Real.log ((poolSize pw : Int) : ℝ) + 3 / 2 ^ 53) / Real.log 2) := by
          apply mul_le_mul_of_nonneg_left _ (by norm_num)
          apply div_le_div_of_nonneg_right _ hlg2.le
          have s1 := shannon_sum_le_log_pool pw hne hal
          have s2 := sum_freq_le_length pw
          have s3 : (∑ c in Finset.univ.filter (fun c : Byte => 0 < freqTable pw c),
              ((freqTable pw c : Int) : ℝ)) / (pw.length : ℝ) ≤ 1 :=
            (div_le_one hnpos).mpr s2
          have s4 : (3 / 2 ^ 53 : ℝ) * ((∑ c in Finset.univ.filter
              (fun c : Byte => 0 < freqTable pw c),
              ((freqTable pw c : Int) : ℝ)) / (pw.length : ℝ)) ≤ 3 / 2 ^ 53 * 1 :=
            mul_le_mul_of_nonneg_left s3 (by norm_num)
          linarith
  have hHr : ((H : ℚ) : ℝ)
      ≤ (1 + 1 / 2 ^ 53) ^ 256
          * ((1 + 1 / 2 ^ 53) ^ 3 * (1 + 1 / 2 ^ 52) / ((1 - 1 / 2 ^ 53) * (1 - 1 / 2 ^ 52))
            * (Real.log ((poolSize pw : Int) : ℝ) * (1 + 3 / 2 ^ 53) / Real.log 2)) := by
    refine le_trans hH1r (mul_le_mul_of_nonneg_left (le_trans hS ?_) (by positivity))
    apply mul_le_mul_of_nonneg_left _ (by norm_num)
    apply div_le_div_of_nonneg_right _ hlg2.le
    nlinarith
  have hfac : (0 : ℝ) ≤ (pw.length : ℝ) * (1 + 1 / 2 ^ 53) * (1 + 1 / 2 ^ 53) := by positivity
  have hmul := mul_le_mul_of_nonneg_right hHr hfac
  refine le_trans (le_of_eq ?_) (le_trans hmul (le_of_eq ?_))
  · ring
  · field_simp
    ring

/-! ## Claim C20 as amended: the order holds up to rounding -/

/-- Claim C20 as amended: in double precision, for every password made of
ASCII letters and digits only, the Shannon estimate is at most the pool-based
estimate times `1 + 2^-44`, when the library logarithm is accurate to the
fraction `2^-52` at the arguments the two functions pass to it: `2`, the pool
size, and the rounded frequencies of the bytes present. -/
theorem shannon_le_pool_in_double (ln : ℚ → ℚ) (pw : List Byte)
    (hal : ∀ c ∈ pw, isalnum c = true) (h2 : LogAccurate ln 2)
    (hP : LogAccurate ln ((poolSize pw : Int) : ℚ))
    (hp : ∀ c, 0 < freqTable pw c →
      LogAccurate ln (rn (((freqTable pw c : Int) : ℚ) / rn (pw.length : ℚ)))) :
    shannon_entropy_ieee ln pw
      ≤ pool_based_entropy_bits_ieee ln pw * (1 + 1 / 2 ^ 44) := by
  by_cases hne : pw = []
  · subst hne
    simp [shannon_entropy_ieee, pool_based_entropy_bits_ieee, rn]
  · have hs := shannon_ieee_le ln pw hne hal h2 hp
    have hpl := pool_ieee_ge ln pw h2 hP
    have hE : 0 ≤ Real.log ((poolSize pw : Int) : ℝ) / Real.log 2 * (pw.length : ℝ) := by
      have h1 : (1 : ℝ) ≤ ((poolSize pw : Int) : ℝ) := by
        exact_mod_cast (poolSize_bounds pw).1
      exact mul_nonneg (div_nonneg (Real.log_nonneg h1) (Real.log_nonneg (by norm_num)))
        (Nat.cast_nonneg _)
    have hr : ((shannon_entropy_ieee ln pw : ℚ) : ℝ)
        ≤ ((pool_based_entropy_bits_ieee ln pw : ℚ) : ℝ) * (1 + 1 / 2 ^ 44) := by
      refine le_trans hs (le_trans (mul_le_mul_of_nonneg_right rounding_budget hE) ?_)
      have := mul_le_mul_of_nonneg_right hpl (by norm_num : (0 : ℝ) ≤ 1 + 1 / 2 ^ 44)
      refine le_trans (le_of_eq ?_) this
      ring
    have hc : ((shannon_entropy_ieee ln pw : ℚ) : ℝ)
        ≤ ((pool_based_entropy_bits_ieee ln pw * (1 + 1 / 2 ^ 44) : ℚ) : ℝ) := by
      push_cast
      exact hr
    exact Rat.cast_le.mp hc

theorem logAccurate_two : LogAccurate logNearest 2 := by
  unfold LogAccurate
  rw [logNearest_2, Rat.cast_ofNat]
  have h1 := log_two_lower
  have h2 := log_two_upper
  rw [abs_of_pos (by linarith : (0 : ℝ) < Real.log 2), abs_le]
  push_cast
  constructor <;> linarith

theorem logAccurate_fiftytwo : LogAccurate logNearest 52 := by
  unfold LogAccurate
  rw [logNearest_52, Rat.cast_ofNat]
  have h1 := log_fiftytwo_lower
  have h2 := log_fiftytwo_upper
  rw [abs_of_pos (by linarith : (0 : ℝ) < Real.log 52), abs_le]
  push_cast
  constructor <;> linarith

theorem logAccurate_p :
    LogAccurate logNearest (1385722962267845 / 72057594037927936) := by
  unfold LogAccurate
  rw [logNearest_p]
  have h1 := log_p_lower
  have h2 := log_p_upper
  push_cast
  rw [abs_of_neg (by linarith :
    Real.log (1385722962267845 / 72057594037927936 : ℝ) < 0), abs_le]
  constructor <;> linarith

/-- The hypotheses of the amended claim C20 hold of the 52 letters with the
table `logNearest`: there the Shannon estimate, although above the pool-based
one, is within the factor `1 + 2^-44` of it. -/
theorem shannon_le_pool_in_double_witness :
    (∀ c ∈ letters52, isalnum c = true)
      ∧ LogAccurate logNearest 2
      ∧ LogAccurate logNearest ((poolSize letters52 : Int) : ℚ)
      ∧ (∀ c, 0 < freqTable letters52 c →
          LogAccurate logNearest
            (rn (((freqTable letters52 c : Int) : ℚ) / rn (letters52.length : ℚ))))
      ∧ shannon_entropy_ieee logNearest letters52
          ≤ pool_based_entropy_bits_ieee logNearest letters52 * (1 + 1 / 2 ^ 44) := by
  have hpool : ((poolSize letters52 : Int) : ℚ) = 52 := by
    have : poolSize letters52 = 52 := by decide
    rw [this]
    norm_num
  have hlen : ((letters52.length : Nat) : ℚ) = 52 := by
    have : letters52.length = 52 := by decide
    rw [this]
    norm_num
  have hP : LogAccurate logNearest ((poolSize letters52 : Int) : ℚ) := by
    rw [hpool]
    exact logAccurate_fiftytwo
  have hp : ∀ c, 0 < freqTable letters52 c →
      LogAccurate logNearest
        (rn (((freqTable letters52 c : Int) : ℚ) / rn (letters52.length : ℚ))) := by
    intro c hc
    rw [freq_letters52] at hc ⊢
    split_ifs at hc ⊢ with hm
    · rw [hlen, rn_52]
      have e : rn (((1 : Int) : ℚ) / 52) = 1385722962267845 / 72057594037927936 :=
        rn_cert_pos _ _ (5542891849071380) (-6) (by norm_num) (by norm_num) (by norm_num)
          (by norm_num) (by norm_num)
      rw [e]
      exact logAccurate_p
    · exact absurd hc (lt_irrefl 0)
  exact ⟨by decide, logAccurate_two, hP, hp,
    shannon_le_pool_in_double logNearest letters52 (by decide) logAccurate_two hP hp⟩

end PasswordAnalyzer
